import Mathlib

/-!
# NeuralNetwork (`nn.hpp`): a shallow embedding and its verified properties

Modelling conventions.

* `double` is modelled by an arbitrary field `α`; `exp` is a parameter
  (`Real.exp` over `ℝ`, any computable function over `ℚ`).  Rounding is outside the model.
* `std::vector<T>` is `List T`.  Containers are assumed to hold fewer than `2 ^ 31` elements, so
  the `int` counters and the `int` counts written by `Save` are natural numbers that never wrap;
  the entries of a topology and the counts read back from a file are `Int`, since a negative value
  there changes what the code does.
* A member function that mutates the object returns the object's new state.  A C++ exception is
  `Outcome.thrown`; for a member function it carries the state the object was left in at the throw.
  Undefined behaviour (an index out of range, `back()` of an empty vector) is `Outcome.undefined`,
  or `none` for the helpers; so is a read that does not find a value of the expected type at the
  current position of the file, which no file written by `Save` leads to.
* A file is the sequence of values written to it (`Tok`), each either a `double` or an `int`;
  opening a file is taken to succeed (the program exits otherwise).
  A `double` takes 8 bytes of the file and an `int` 4, as the specification fixes them.
* The fields a constructor leaves uninitialised hold the value `uninit`, a parameter.
* The process-wide generator `gen` is a stream `rand : Nat → α` with a position that is threaded
  through the constructors.
-/

set_option linter.dupNamespace false

namespace NN

variable {α : Type}

/-! ## Data model -/

/-- The unit of nn.hpp: `struct Neuron`. -/
structure Neuron (α : Type) where
  weights : List α
  output : α
  error : α
  bias : α
deriving DecidableEq

/-- The layer of nn.hpp: `struct Layer`. -/
structure Layer (α : Type) where
  neurons : List (Neuron α)
deriving DecidableEq

/-- The data members of `struct Network`. -/
structure Network (α : Type) where
  layers : List (Layer α)
  learning_rate : α
deriving DecidableEq

/-- The exceptions the code throws: `std::invalid_argument` with its message, and the
`std::length_error` of `reserve`/`resize` called with a count above `max_size()`. -/
inductive Exn where
  | invalid_argument (what : String)
  | length_error
deriving DecidableEq

/-- The result of running a piece of the program. -/
inductive Outcome (ε σ : Type) where
  | ok (s : σ)
  | thrown (e : ε)
  | undefined
deriving DecidableEq

/-- The exception of `Train` when `targets.size() != layers.back().neurons.size()`. -/
def targetSizeMismatch : Exn :=
  Exn.invalid_argument "The number of output neurons must be equal with the number of targets\n"

/-- The exception of `Load` when a count in the file differs from the network. -/
def topologyMismatch : Exn :=
  Exn.invalid_argument "Trying to initialize from neural network with different topology\n"

/-! ## Activation -/

/-- The activation function: `1 / (1 + exp(-x))`. -/
def sigmoid [Field α] (exp : α → α) (x : α) : α :=
  1 / (1 + exp (-x))

/-- The derivative of the activation function, in terms of its value: `x * (1 - x)`. -/
def sigmoid_derivative [Field α] (x : α) : α :=
  x * (1 - x)

/-! ## Loops -/

/-- A loop over the elements of a vector with a counter that starts at `k` and is incremented
after each element; the body rewrites the element, or hits undefined behaviour (`none`). -/
def forEachIdx {β γ : Type} (body : Nat → β → Option γ) :
    List β → Nat → Option (List γ)
  | [], _ => some []
  | x :: xs, k =>
    match body k x with
    | none => none
    | some y =>
      match forEachIdx body xs (k + 1) with
      | none => none
      | some ys => some (y :: ys)

/-- A range-for loop: a loop over the elements whose body does not use a counter. -/
def forEach {β γ : Type} (body : β → Option γ) (xs : List β) : Option (List γ) :=
  forEachIdx (fun _ x => body x) xs 0

/-! ## Forward propagation -/

/-- The innermost loop of `Predict`: `sum += weight * inputs[k]; k++` for each weight, from
`sum = neuron.bias` and `k = 0`. -/
def weightedSum [Field α] (inputs : List α) : List α → Nat → α → Option α
  | [], _, sum => some sum
  | weight :: rest, k, sum =>
    match inputs[k]? with
    | none => none
    | some x => weightedSum inputs rest (k + 1) (sum + weight * x)

/-- The body of the loop over the neurons in `Predict`: `neuron.output = sigmoid(sum)`. -/
def activate [Field α] (exp : α → α) (inputs : List α) (neuron : Neuron α) :
    Option (Neuron α) :=
  match weightedSum inputs neuron.weights 0 neuron.bias with
  | none => none
  | some sum => some { neuron with output := sigmoid exp sum }

/-- The loop over the layers in `Predict`, from the current `inputs` and `outputs`: each layer's
`outputs` are its neurons' new `output` fields, and become the `inputs` of the next. -/
def forward [Field α] (exp : α → α) :
    List α → List α → List (Layer α) → Option (List α × List (Layer α))
  | _, outputs, [] => some (outputs, [])
  | inputs, _, layer :: rest =>
    match forEach (activate exp inputs) layer.neurons with
    | none => none
    | some neurons =>
      match forward exp (neurons.map Neuron.output) (neurons.map Neuron.output) rest with
      | none => none
      | some (outputs, rest1) => some (outputs, { neurons := neurons } :: rest1)

/-- The forward propagation `Network::Predict`: the returned vector and the network afterwards;
`none` is undefined behaviour. -/
def Predict [Field α] (exp : α → α) (net : Network α) (inputs : List α) :
    Option (List α × Network α) :=
  match forward exp inputs [] net.layers with
  | none => none
  | some (outputs, layers) => some (outputs, { net with layers := layers })

/-! ## Backward propagation -/

/-- The body of the loop over `layers.back().neurons` in `Train`, at counter `k`:
`neuron.error = sigmoid_derivative(neuron.output) * (targets[k] - neuron.output)`. -/
def outputError [Field α] (targets : List α) (k : Nat) (neuron : Neuron α) :
    Option (Neuron α) :=
  match targets[k]? with
  | none => none
  | some t =>
    some { neuron with error := sigmoid_derivative neuron.output * (t - neuron.output) }

/-- The output-error loop applied to `layers.back()`, with `k` from 0; `none` on an empty
vector. -/
def outputLayer [Field α] (targets : List α) : List (Layer α) → Option (List (Layer α))
  | [] => none
  | [last] =>
    match forEachIdx (outputError targets) last.neurons 0 with
    | none => none
    | some neurons => some [{ neurons := neurons }]
  | layer :: next :: rest =>
    match outputLayer targets (next :: rest) with
    | none => none
    | some rest1 => some (layer :: rest1)

/-- The innermost loop of the hidden-layer errors, over the neurons `k` of the next layer:
`error += layers[i + 1].neurons[k].error * layers[i + 1].neurons[k].weights[j]`. -/
def errorSum [Field α] (j : Nat) : List (Neuron α) → α → Option α
  | [], error => some error
  | next :: rest, error =>
    match next.weights[j]? with
    | none => none
    | some w => errorSum j rest (error + next.error * w)

/-- The body of the loop over the neurons `j` of a hidden layer: from `error = 0`,
`layers[i].neurons[j].error = sigmoid_derivative(layers[i].neurons[j].output) * error`. -/
def hiddenError [Field α] (next : List (Neuron α)) (j : Nat) (neuron : Neuron α) :
    Option (Neuron α) :=
  match errorSum j next 0 with
  | none => none
  | some error => some { neuron with error := sigmoid_derivative neuron.output * error }

/-- The loop `for (int i = layers.size() - 2; i >= 0; i--)`: layer `i` is rewritten after, and
from, layer `i + 1`; the last layer is left as it is. -/
def hiddenLayers [Field α] : List (Layer α) → Option (List (Layer α))
  | [] => some []
  | [last] => some [last]
  | layer :: next :: rest =>
    match hiddenLayers (next :: rest) with
    | some (next1 :: rest1) =>
      match forEachIdx (hiddenError next1.neurons) layer.neurons 0 with
      | none => none
      | some neurons => some ({ neurons := neurons } :: next1 :: rest1)
    | _ => none

/-- The body of the loop over the weights in the update, at counter `k`:
`weight += learning_rate * neuron.error * inputs[k]`. -/
def updateWeight [Field α] (rate error : α) (inputs : List α) (k : Nat) (weight : α) :
    Option α :=
  match inputs[k]? with
  | none => none
  | some x => some (weight + rate * error * x)

/-- The body of the loop over the neurons in the update:
`neuron.bias += learning_rate * neuron.error`, then the loop over the weights with `k` from 0. -/
def updateNeuron [Field α] (rate : α) (inputs : List α) (neuron : Neuron α) :
    Option (Neuron α) :=
  match forEachIdx (updateWeight rate neuron.error inputs) neuron.weights 0 with
  | none => none
  | some weights =>
    some { neuron with bias := neuron.bias + rate * neuron.error, weights := weights }

/-- The loop over the layers in the update: after a layer is updated, `inputs` becomes the vector
of its neurons' `output` fields. -/
def update [Field α] (rate : α) : List α → List (Layer α) → Option (List (Layer α))
  | _, [] => some []
  | inputs, layer :: rest =>
    match forEach (updateNeuron rate inputs) layer.neurons with
    | none => none
    | some neurons =>
      match update rate (neurons.map Neuron.output) rest with
      | none => none
      | some rest1 => some ({ neurons := neurons } :: rest1)

/-- The backward propagation `Network::Train`. -/
def Train [Field α] (exp : α → α) (net : Network α) (inputs targets : List α) :
    Outcome (Exn × Network α) (Network α) :=
  match net.layers.getLast? with
  | none => Outcome.undefined
  | some last =>
    if targets.length ≠ last.neurons.length then
      Outcome.thrown (targetSizeMismatch, net)
    else
      match Predict exp net inputs with
      | none => Outcome.undefined
      | some (_, net1) =>
        match outputLayer targets net1.layers with
        | none => Outcome.undefined
        | some layers2 =>
          match hiddenLayers layers2 with
          | none => Outcome.undefined
          | some layers3 =>
            match update net1.learning_rate inputs layers3 with
            | none => Outcome.undefined
            | some layers4 => Outcome.ok { net1 with layers := layers4 }

/-! ## Serialization -/

/-- One value of the binary file: a `double` (8 bytes) or an `int` (4 bytes). -/
inductive Tok (α : Type) where
  | f64 (x : α)
  | i32 (n : Int)
deriving DecidableEq

/-- The writes of `Save` for one neuron: `weights_count`, the weights, the bias. -/
def saveNeuron (neuron : Neuron α) : List (Tok α) :=
  Tok.i32 neuron.weights.length :: (neuron.weights.map Tok.f64 ++ [Tok.f64 neuron.bias])

/-- The loop over the neurons in `Save`. -/
def saveNeurons : List (Neuron α) → List (Tok α)
  | [] => []
  | neuron :: rest => saveNeuron neuron ++ saveNeurons rest

/-- The loop over the layers in `Save`: `neuronsCount`, then the neurons. -/
def saveLayers : List (Layer α) → List (Tok α)
  | [] => []
  | layer :: rest =>
    Tok.i32 layer.neurons.length :: (saveNeurons layer.neurons ++ saveLayers rest)

/-- The content `Network::Save` writes to the file: the learning rate, `layers_count`, the
layers. -/
def Save (net : Network α) : List (Tok α) :=
  Tok.f64 net.learning_rate :: Tok.i32 net.layers.length :: saveLayers net.layers

/-- The read `file.read(&x, sizeof(double))`: the value and the rest of the file. -/
def readDouble : List (Tok α) → Option (α × List (Tok α))
  | Tok.f64 x :: rest => some (x, rest)
  | _ => none

/-- The read `file.read(&n, sizeof(int))`: the value and the rest of the file. -/
def readInt : List (Tok α) → Option (Int × List (Tok α))
  | Tok.i32 n :: rest => some (n, rest)
  | _ => none

/-- The read `file.read(weights.data(), sizeof(double) * count)`. -/
def readDoubles : Nat → List (Tok α) → Option (List α × List (Tok α))
  | 0, file => some ([], file)
  | count + 1, file =>
    match readDouble file with
    | none => none
    | some (x, file1) =>
      match readDoubles count file1 with
      | none => none
      | some (xs, file2) => some (x :: xs, file2)

/-- The loop `for (int j = 0; j < neurons_count; j++)` of the constructor from a file, with the
number of iterations left: `weights.resize(weights_count)` throws on a negative count. -/
def readNeurons (uninit : α) :
    Nat → List (Tok α) → Outcome Exn (List (Neuron α) × List (Tok α))
  | 0, file => Outcome.ok ([], file)
  | count + 1, file =>
    match readInt file with
    | none => Outcome.undefined
    | some (weights_count, file1) =>
      if weights_count < 0 then Outcome.thrown Exn.length_error
      else
        match readDoubles weights_count.toNat file1 with
        | none => Outcome.undefined
        | some (weights, file2) =>
          match readDouble file2 with
          | none => Outcome.undefined
          | some (bias, file3) =>
            match readNeurons uninit count file3 with
            | Outcome.ok (rest, file4) =>
              Outcome.ok
                ({ weights := weights, output := uninit, error := uninit, bias := bias } :: rest,
                  file4)
            | Outcome.thrown e => Outcome.thrown e
            | Outcome.undefined => Outcome.undefined

/-- The loop `for (int i = 0; i < layers_count; i++)` of the constructor from a file, with the
number of iterations left: `layer.neurons.reserve(neurons_count)` throws on a negative count. -/
def readLayers (uninit : α) :
    Nat → List (Tok α) → Outcome Exn (List (Layer α) × List (Tok α))
  | 0, file => Outcome.ok ([], file)
  | count + 1, file =>
    match readInt file with
    | none => Outcome.undefined
    | some (neurons_count, file1) =>
      if neurons_count < 0 then Outcome.thrown Exn.length_error
      else
        match readNeurons uninit neurons_count.toNat file1 with
        | Outcome.ok (neurons, file2) =>
          match readLayers uninit count file2 with
          | Outcome.ok (rest, file3) => Outcome.ok ({ neurons := neurons } :: rest, file3)
          | Outcome.thrown e => Outcome.thrown e
          | Outcome.undefined => Outcome.undefined
        | Outcome.thrown e => Outcome.thrown e
        | Outcome.undefined => Outcome.undefined

/-- The constructor `Network(const std::string& path)`, on the content of the file:
`layers.reserve(layers_count)` throws on a negative count. -/
def Network.fromFile (uninit : α) (file : List (Tok α)) : Outcome Exn (Network α) :=
  match readDouble file with
  | none => Outcome.undefined
  | some (learning_rate, file1) =>
    match readInt file1 with
    | none => Outcome.undefined
    | some (layers_count, file2) =>
      if layers_count < 0 then Outcome.thrown Exn.length_error
      else
        match readLayers uninit layers_count.toNat file2 with
        | Outcome.ok (layers, _) => Outcome.ok { layers := layers, learning_rate := learning_rate }
        | Outcome.thrown e => Outcome.thrown e
        | Outcome.undefined => Outcome.undefined

/-- The loop `for (int j = 0; j < neurons_count; j++)` of `Load` over the neurons of a layer whose
count matched: a neuron is overwritten as soon as its own `weights_count` matches, and the
exception carries the neurons as they are at the throw. -/
def loadNeurons :
    List (Neuron α) → List (Tok α) →
      Outcome (Exn × List (Neuron α)) (List (Neuron α) × List (Tok α))
  | [], file => Outcome.ok ([], file)
  | neuron :: rest, file =>
    match readInt file with
    | none => Outcome.undefined
    | some (weights_count, file1) =>
      if weights_count ≠ (neuron.weights.length : Int) then
        Outcome.thrown (topologyMismatch, neuron :: rest)
      else
        match readDoubles neuron.weights.length file1 with
        | none => Outcome.undefined
        | some (weights, file2) =>
          match readDouble file2 with
          | none => Outcome.undefined
          | some (bias, file3) =>
            match loadNeurons rest file3 with
            | Outcome.ok (rest1, file4) =>
              Outcome.ok ({ neuron with weights := weights, bias := bias } :: rest1, file4)
            | Outcome.thrown (e, rest1) =>
              Outcome.thrown (e, { neuron with weights := weights, bias := bias } :: rest1)
            | Outcome.undefined => Outcome.undefined

/-- The loop `for (int i = 0; i < layers_count; i++)` of `Load` over the layers of a network
whose layer count matched; the exception carries the layers as they are at the throw. -/
def loadLayers :
    List (Layer α) → List (Tok α) →
      Outcome (Exn × List (Layer α)) (List (Layer α) × List (Tok α))
  | [], file => Outcome.ok ([], file)
  | layer :: rest, file =>
    match readInt file with
    | none => Outcome.undefined
    | some (neurons_count, file1) =>
      if neurons_count ≠ (layer.neurons.length : Int) then
        Outcome.thrown (topologyMismatch, layer :: rest)
      else
        match loadNeurons layer.neurons file1 with
        | Outcome.ok (neurons, file2) =>
          match loadLayers rest file2 with
          | Outcome.ok (rest1, file3) => Outcome.ok ({ neurons := neurons } :: rest1, file3)
          | Outcome.thrown (e, rest1) => Outcome.thrown (e, { neurons := neurons } :: rest1)
          | Outcome.undefined => Outcome.undefined
        | Outcome.thrown (e, neurons) => Outcome.thrown (e, { neurons := neurons } :: rest)
        | Outcome.undefined => Outcome.undefined

/-- The member function `Network::Load`, on the content of the file: the learning rate is read
into the network first, then the counts are compared as the file is read. -/
def Load (net : Network α) (file : List (Tok α)) : Outcome (Exn × Network α) (Network α) :=
  match readDouble file with
  | none => Outcome.undefined
  | some (learning_rate, file1) =>
    match readInt file1 with
    | none => Outcome.undefined
    | some (layers_count, file2) =>
      if layers_count ≠ (net.layers.length : Int) then
        Outcome.thrown (topologyMismatch, { net with learning_rate := learning_rate })
      else
        match loadLayers net.layers file2 with
        | Outcome.ok (layers, _) =>
          Outcome.ok { layers := layers, learning_rate := learning_rate }
        | Outcome.thrown (e, layers) =>
          Outcome.thrown (e, { layers := layers, learning_rate := learning_rate })
        | Outcome.undefined => Outcome.undefined

/-! ## Construction from a topology -/

/-- The constructor `Neuron(const int input_neurons_count)`: `weights.reserve` throws on a negative
count; the weights, then the bias, are drawn from the generator at position `g`. -/
def Neuron.Neuron (rand : Nat → α) (uninit : α) (input_neurons_count : Int) (g : Nat) :
    Outcome Exn (Neuron α × Nat) :=
  if input_neurons_count < 0 then Outcome.thrown Exn.length_error
  else
    Outcome.ok
      ({ weights := (List.range input_neurons_count.toNat).map (fun i => rand (g + i)),
         output := uninit,
         error := uninit,
         bias := rand (g + input_neurons_count.toNat) },
        g + input_neurons_count.toNat + 1)

/-- The loop of `Layer(int, int)`, with the number of iterations left. -/
def Layer.neuronsLoop (rand : Nat → α) (uninit : α) (input_neurons_count : Int) :
    Nat → Nat → Outcome Exn (List (Neuron α) × Nat)
  | 0, g => Outcome.ok ([], g)
  | count + 1, g =>
    match Neuron.Neuron rand uninit input_neurons_count g with
    | Outcome.ok (neuron, g1) =>
      match Layer.neuronsLoop rand uninit input_neurons_count count g1 with
      | Outcome.ok (rest, g2) => Outcome.ok (neuron :: rest, g2)
      | Outcome.thrown e => Outcome.thrown e
      | Outcome.undefined => Outcome.undefined
    | Outcome.thrown e => Outcome.thrown e
    | Outcome.undefined => Outcome.undefined

/-- The constructor `Layer(const int input_neurons_count, const int neurons_count)`:
`neurons.reserve` throws on a negative count. -/
def Layer.Layer (rand : Nat → α) (uninit : α) (input_neurons_count neurons_count : Int)
    (g : Nat) :
    Outcome Exn (Layer α × Nat) :=
  if neurons_count < 0 then Outcome.thrown Exn.length_error
  else
    match Layer.neuronsLoop rand uninit input_neurons_count neurons_count.toNat g with
    | Outcome.ok (neurons, g1) => Outcome.ok ({ neurons := neurons }, g1)
    | Outcome.thrown e => Outcome.thrown e
    | Outcome.undefined => Outcome.undefined

/-- The loop `for (int i = 0; i < topology.size() - 1; i++)` of the constructor from a topology,
on the entries from `topology[i]` on: `Layer(topology[i], topology[i + 1])`. -/
def Network.layersLoop (rand : Nat → α) (uninit : α) :
    List Int → Nat → Outcome Exn (List (Layer α) × Nat)
  | input_neurons_count :: neurons_count :: rest, g =>
    match Layer.Layer rand uninit input_neurons_count neurons_count g with
    | Outcome.ok (layer, g1) =>
      match Network.layersLoop rand uninit (neurons_count :: rest) g1 with
      | Outcome.ok (layers, g2) => Outcome.ok (layer :: layers, g2)
      | Outcome.thrown e => Outcome.thrown e
      | Outcome.undefined => Outcome.undefined
    | Outcome.thrown e => Outcome.thrown e
    | Outcome.undefined => Outcome.undefined
  | _, g => Outcome.ok ([], g)

/-- The constructor `Network(const std::vector<int> topology, const double rate)`:
for an empty topology `topology.size() - 1` wraps around and `layers.reserve` throws. -/
def Network.fromTopology (rand : Nat → α) (uninit : α) (topology : List Int) (rate : α)
    (g : Nat) :
    Outcome Exn (Network α × Nat) :=
  if topology.length = 0 then Outcome.thrown Exn.length_error
  else
    match Network.layersLoop rand uninit topology g with
    | Outcome.ok (layers, g1) => Outcome.ok ({ layers := layers, learning_rate := rate }, g1)
    | Outcome.thrown e => Outcome.thrown e
    | Outcome.undefined => Outcome.undefined

/-! ## The specification's vocabulary -/

/-- The activation of a unit on the input vector `x`, in the words of the specification:
`sigmoid(bias + Σ weight_k * x_k)`. -/
def unitSpec [Field α] (exp : α → α) (x : List α) (unit : Neuron α) : α :=
  sigmoid exp (unit.bias + (List.zipWith (fun w xk => w * xk) unit.weights x).sum)

/-- The vector a layer maps the input vector `x` to: entry `j` is the activation of unit `j`. -/
def layerSpec [Field α] (exp : α → α) (layer : Layer α) (x : List α) : List α :=
  layer.neurons.map (unitSpec exp x)

/-- The fold over the layers in order, each layer's vector being the input of the next. -/
def predictSpec [Field α] (exp : α → α) (layers : List (Layer α)) (x : List α) : List α :=
  layers.foldl (fun v layer => layerSpec exp layer v) x

/-- The unit after the forward pass on the input vector `x`. -/
def activated [Field α] (exp : α → α) (x : List α) (unit : Neuron α) : Neuron α :=
  { unit with output := unitSpec exp x unit }

/-- The layers after the forward pass on the input vector `x`. -/
def forwardState [Field α] (exp : α → α) : List α → List (Layer α) → List (Layer α)
  | _, [] => []
  | x, layer :: rest =>
    { neurons := layer.neurons.map (activated exp x) }
      :: forwardState exp (layerSpec exp layer x) rest

/-- The invariant of the data model, for layers fed with vectors of length `n`: every unit of the
first layer has `n` weights, and every unit of a later layer has as many weights as the layer
before it has units. -/
def wellFormed : Nat → List (Layer α) → Bool
  | _, [] => true
  | n, layer :: rest =>
    layer.neurons.all (fun unit => unit.weights.length == n)
      && wellFormed layer.neurons.length rest

/-- The unit `j` of layer `i`, when there is one. -/
def unitAt (layers : List (Layer α)) (i j : Nat) : Option (Neuron α) :=
  match layers[i]? with
  | none => none
  | some layer => layer.neurons[j]?

/-- The input vector of layer `i`: the external inputs for layer 0, and for a later layer the
vector of the `output` fields of the layer before it. -/
def layerInput (inputs : List α) (layers : List (Layer α)) : Nat → Option (List α)
  | 0 => some inputs
  | i + 1 => layers[i]?.map (fun layer => layer.neurons.map Neuron.output)

/-- The values of one field, or of any function of a unit, over the units of every layer. -/
def fieldOf {δ : Type} (f : Neuron α → δ) (layers : List (Layer α)) : List (List δ) :=
  layers.map (fun layer => layer.neurons.map f)

/-- A unit whose `output` and `error` hold the value of an uninitialised field. -/
def resetUnit (uninit : α) (unit : Neuron α) : Neuron α :=
  { unit with output := uninit, error := uninit }

/-- A layer whose units' `output` and `error` hold the value of an uninitialised field. -/
def resetLayer (uninit : α) (layer : Layer α) : Layer α :=
  { neurons := layer.neurons.map (resetUnit uninit) }

/-- The topology of a network: for every layer, the weight count of every unit. -/
def topologyOf (layers : List (Layer α)) : List (List Nat) :=
  fieldOf (fun unit => unit.weights.length) layers

/-- The unit of a network after a `Load` that read the unit `source` into it. -/
def loadedUnit (unit source : Neuron α) : Neuron α :=
  { unit with weights := source.weights, bias := source.bias }

/-- The layer of a network after a `Load` that read the layer `source` into it. -/
def loadedLayer (layer source : Layer α) : Layer α :=
  { neurons := List.zipWith loadedUnit layer.neurons source.neurons }

/-- Whether `Layer(input_neurons_count, neurons_count)` throws: `neurons.reserve` is given a
negative count, or a unit is constructed (the count is positive) and `weights.reserve` is given a
negative count. -/
def layerThrows (input_neurons_count neurons_count : Int) : Bool :=
  decide (neurons_count < 0) || (decide (0 < neurons_count) && decide (input_neurons_count < 0))

/-- Whether `Layer(topology[i], topology[i + 1])` throws for some `i`. -/
def someLayerThrows : List Int → Bool
  | input_neurons_count :: neurons_count :: rest =>
    layerThrows input_neurons_count neurons_count || someLayerThrows (neurons_count :: rest)
  | _ => false

/-- Modelled from the spec: the width in bytes of a value of the file, which the source leaves to
the platform (`sizeof(double)`, `sizeof(int)`): 8 for a float64 and 4 for an int32. -/
def Tok.size : Tok α → Nat
  | Tok.f64 _ => 8
  | Tok.i32 _ => 4

/-- The length in bytes of a file. -/
def fileSize (file : List (Tok α)) : Nat :=
  (file.map Tok.size).sum

/-- The binary format in the words of the specification: `learning_rate`, `layer_count`, then for
each layer `unit_count` and for each unit `weight_count`, the weights and the bias. -/
def saveSpec (net : Network α) : List (Tok α) :=
  [Tok.f64 net.learning_rate, Tok.i32 net.layers.length] ++
    net.layers.flatMap (fun layer =>
      Tok.i32 layer.neurons.length ::
        layer.neurons.flatMap (fun unit =>
          Tok.i32 unit.weights.length :: (unit.weights.map Tok.f64 ++ [Tok.f64 unit.bias])))

/-- The list with its element at position `j`, when there is one, replaced by `f` of it. -/
def modifyAt {β : Type} (f : β → β) : List β → Nat → List β
  | [], _ => []
  | x :: xs, 0 => f x :: xs
  | x :: xs, j + 1 => x :: modifyAt f xs j

/-- The list with its last element, when there is one, replaced by `f` of it. -/
def modifyLast {β : Type} (f : β → β) : List β → List β
  | [] => []
  | [x] => [f x]
  | x :: y :: rest => x :: modifyLast f (y :: rest)

/-- The network with unit `j` of its last layer replaced by `f` of it. -/
def withLastUnit (net : Network α) (j : Nat) (f : Neuron α → Neuron α) : Network α :=
  { net with
    layers := modifyLast (fun layer => { neurons := modifyAt f layer.neurons j }) net.layers }

/-- The network with `b` as the bias of unit `j` of its last layer. -/
def withLastBias (net : Network α) (j : Nat) (b : α) : Network α :=
  withLastUnit net j (fun unit => { unit with bias := b })

/-- The network with `w` as weight `k` of unit `j` of its last layer. -/
def withLastWeight (net : Network α) (j k : Nat) (w : α) : Network α :=
  withLastUnit net j (fun unit => { unit with weights := modifyAt (fun _ => w) unit.weights k })

/-- Half the squared error of the network on an example:
`E = 1/2 * Σ_j (target_j - Predict(inputs)_j)^2`. -/
def squaredError [Field α] (exp : α → α) (net : Network α) (inputs targets : List α) : α :=
  match Predict exp net inputs with
  | none => 0
  | some (outputs, _) => 1 / 2 * (List.zipWith (fun o t => (t - o) ^ 2) outputs targets).sum

/-! ## Example networks -/

/-- A network of topology 2-2-1 with fixed weights. -/
def exampleNetwork [Field α] : Network α :=
  { layers :=
      [{ neurons :=
          [{ weights := [1, 2], output := 0, error := 0, bias := 1 },
           { weights := [0, 1], output := 0, error := 0, bias := 0 }] },
       { neurons := [{ weights := [1, 1], output := 0, error := 0, bias := 0 }] }],
    learning_rate := 1 }

/-- The last layer of `exampleNetwork`. -/
def exampleLast [Field α] : Layer α :=
  { neurons := [{ weights := [1, 1], output := 0, error := 0, bias := 0 }] }

/-- A network of one layer with one unit, whose weight and bias are zero. -/
def unitNetwork [Field α] : Network α :=
  { layers := [{ neurons := [{ weights := [0], output := 0, error := 0, bias := 0 }] }],
    learning_rate := 1 }

/-- The state of `unitNetwork` after `Train` on the input `[1]` and the target `[1]`. -/
def unitNetworkTrained [Field α] (exp : α → α) : Network α :=
  { layers :=
      [{ neurons :=
          [{ weights :=
               [0 + 1 * (sigmoid_derivative (sigmoid exp (0 + 0 * 1))
                 * (1 - sigmoid exp (0 + 0 * 1))) * 1],
             output := sigmoid exp (0 + 0 * 1),
             error := sigmoid_derivative (sigmoid exp (0 + 0 * 1))
               * (1 - sigmoid exp (0 + 0 * 1)),
             bias := 0 + 1 * (sigmoid_derivative (sigmoid exp (0 + 0 * 1))
               * (1 - sigmoid exp (0 + 0 * 1))) }] }],
    learning_rate := 1 }

/-- Another network of topology 2-2-1, with other weights, biases and learning rate. -/
def otherNetwork [Field α] : Network α :=
  { layers :=
      [{ neurons :=
          [{ weights := [3, 4], output := 0, error := 0, bias := 5 },
           { weights := [6, 7], output := 0, error := 0, bias := 8 }] },
       { neurons := [{ weights := [9, 10], output := 0, error := 0, bias := 11 }] }],
    learning_rate := 2 }

/-- A network of one layer with two units of one weight each. -/
def pairNetwork [Field α] : Network α :=
  { layers :=
      [{ neurons :=
          [{ weights := [1], output := 0, error := 0, bias := 1 },
           { weights := [1], output := 0, error := 0, bias := 1 }] }],
    learning_rate := 1 }

/-- A network of one layer with two units, the second of which has two weights. -/
def pairSource [Field α] : Network α :=
  { layers :=
      [{ neurons :=
          [{ weights := [5], output := 0, error := 0, bias := 5 },
           { weights := [5, 5], output := 0, error := 0, bias := 5 }] }],
    learning_rate := 2 }

/-- The state of `pairNetwork` after `Load` of the file of `pairSource`. -/
def pairNetworkAfter [Field α] : Network α :=
  { layers :=
      [{ neurons :=
          [{ weights := [5], output := 0, error := 0, bias := 5 },
           { weights := [1], output := 0, error := 0, bias := 1 }] }],
    learning_rate := 2 }

/-- A network whose second layer expects two inputs although its first layer has one unit. -/
def raggedNetwork [Field α] : Network α :=
  { layers :=
      [{ neurons := [{ weights := [1], output := 0, error := 0, bias := 0 }] },
       { neurons := [{ weights := [1, 1], output := 0, error := 0, bias := 0 }] }],
    learning_rate := 1 }

/-- The state of `unitNetwork` after `Predict` on the input `[1]`. -/
def unitNetworkPredicted [Field α] (exp : α → α) : Network α :=
  { layers :=
      [{ neurons :=
          [{ weights := [0], output := sigmoid exp (0 + 0 * 1), error := 0, bias := 0 }] }],
    learning_rate := 1 }

/-- The network `exampleNetwork` with other values in the `output` and `error` fields. -/
def exampleNetworkUsed [Field α] : Network α :=
  { layers :=
      [{ neurons :=
          [{ weights := [1, 2], output := 3, error := 4, bias := 1 },
           { weights := [0, 1], output := 5, error := 6, bias := 0 }] },
       { neurons := [{ weights := [1, 1], output := 7, error := 8, bias := 0 }] }],
    learning_rate := 1 }

/-! # Theorems -/

/-! ## Forward propagation -/

theorem weightedSum_eq [Field α] (inputs : List α) :
    ∀ (ws : List α) (k : Nat) (s : α), ws.length + k ≤ inputs.length →
      weightedSum inputs ws k s
        = some (s + (List.zipWith (fun w xk => w * xk) ws (inputs.drop k)).sum) := by
  intro ws
  induction ws with
  | nil => intro k s _; simp [weightedSum]
  | cons w ws ih =>
    intro k s h
    have hk : k < inputs.length := by simp at h; omega
    rw [weightedSum, List.getElem?_eq_getElem hk]
    simp only
    rw [ih (k + 1) _ (by simp at h ⊢; omega), List.drop_eq_getElem_cons hk]
    simp only [List.zipWith_cons_cons, List.sum_cons, add_assoc]

theorem forEachIdx_some {β γ : Type} (body : Nat → β → Option γ) :
    ∀ (xs : List β) (k : Nat) (ys : List γ), forEachIdx body xs k = some ys →
      ys.length = xs.length ∧
        ∀ j x, xs[j]? = some x → ∃ y, ys[j]? = some y ∧ body (k + j) x = some y := by
  intro xs
  induction xs with
  | nil =>
    intro k ys h
    simp only [forEachIdx, Option.some.injEq] at h
    subst h
    simp
  | cons x xs ih =>
    intro k ys h
    rw [forEachIdx] at h
    cases hb : body k x with
    | none => simp [hb] at h
    | some y =>
      cases hr : forEachIdx body xs (k + 1) with
      | none => simp [hb, hr] at h
      | some ys1 =>
        simp only [hb, hr, Option.some.injEq] at h
        subst h
        obtain ⟨hlen, hget⟩ := ih (k + 1) ys1 hr
        refine ⟨by simp [hlen], ?_⟩
        intro j x1 hj
        cases j with
        | zero =>
          simp only [List.getElem?_cons_zero, Option.some.injEq] at hj
          subst hj
          exact ⟨y, by simp, by simpa using hb⟩
        | succ j =>
          simp only [List.getElem?_cons_succ] at hj
          obtain ⟨y1, hy1, hb1⟩ := hget j x1 hj
          exact ⟨y1, by simpa using hy1, by rw [← hb1]; congr 1; omega⟩

theorem forEachIdx_defined {β γ : Type} (body : Nat → β → Option γ) :
    ∀ (xs : List β) (k : Nat), (∀ j x, xs[j]? = some x → ∃ y, body (k + j) x = some y) →
      ∃ ys, forEachIdx body xs k = some ys := by
  intro xs
  induction xs with
  | nil => intro k _; exact ⟨[], rfl⟩
  | cons x xs ih =>
    intro k h
    obtain ⟨y, hy⟩ := h 0 x (by simp)
    obtain ⟨ys, hys⟩ := ih (k + 1) (fun j x1 hj => by
      obtain ⟨y1, hy1⟩ := h (j + 1) x1 (by simpa using hj)
      exact ⟨y1, by rw [← hy1]; congr 1; omega⟩)
    exact ⟨y :: ys, by simp only [forEachIdx, Nat.add_zero] at hy ⊢; simp [hy, hys]⟩

theorem forEachIdx_map {β γ δ : Type} (body : Nat → β → Option γ) (g : γ → δ)
    (f : β → δ)
    (hbody : ∀ k x y, body k x = some y → g y = f x) :
    ∀ (xs : List β) (k : Nat) (ys : List γ), forEachIdx body xs k = some ys →
      ys.map g = xs.map f := by
  intro xs k ys h
  obtain ⟨hlen, hget⟩ := forEachIdx_some body xs k ys h
  apply List.ext_getElem?
  intro j
  rw [List.getElem?_map, List.getElem?_map]
  cases hx : xs[j]? with
  | none =>
    have : ys[j]? = none := by
      rw [List.getElem?_eq_none_iff] at hx ⊢
      omega
    simp [this]
  | some x =>
    obtain ⟨y, hy, hb⟩ := hget j x hx
    simp [hy, hbody _ _ _ hb]

theorem forEachIdx_eq_map {β γ : Type} (body : Nat → β → Option γ) (f : β → γ) :
    ∀ (xs : List β) (k : Nat), (∀ x ∈ xs, ∀ i, body i x = some (f x)) →
      forEachIdx body xs k = some (xs.map f) := by
  intro xs
  induction xs with
  | nil => intro _ _; rfl
  | cons x xs ih =>
    intro k h
    simp [forEachIdx, h x (List.mem_cons_self _ _) k,
      ih (k + 1) (fun y hy => h y (List.mem_cons_of_mem _ hy))]

theorem forEach_eq_map {β γ : Type} (body : β → Option γ) (f : β → γ) (xs : List β)
    (h : ∀ x ∈ xs, body x = some (f x)) : forEach body xs = some (xs.map f) :=
  forEachIdx_eq_map (fun _ x => body x) f xs 0 (fun x hx _ => h x hx)

theorem activate_eq [Field α] (exp : α → α) (x : List α) (unit : Neuron α)
    (h : unit.weights.length = x.length) :
    activate exp x unit = some (activated exp x unit) := by
  unfold activate
  rw [weightedSum_eq x unit.weights 0 unit.bias (by omega)]
  simp [activated, unitSpec]

theorem map_output_activated [Field α] (exp : α → α) (x : List α) (units : List (Neuron α)) :
    (units.map (activated exp x)).map Neuron.output = units.map (unitSpec exp x) := by
  simp [activated]

theorem wellFormed_cons (n : Nat) (layer : Layer α) (rest : List (Layer α)) :
    wellFormed n (layer :: rest) = true ↔
      (∀ unit ∈ layer.neurons, unit.weights.length = n) ∧
        wellFormed layer.neurons.length rest = true := by
  simp [wellFormed]

theorem forward_eq [Field α] (exp : α → α) :
    ∀ (layers : List (Layer α)) (x outputs : List α), wellFormed x.length layers = true →
      forward exp x outputs layers
        = some (if layers.isEmpty then outputs else predictSpec exp layers x,
            forwardState exp x layers) := by
  intro layers
  induction layers with
  | nil => intro x outputs _; simp [forward, forwardState]
  | cons layer rest ih =>
    intro x outputs h
    rw [wellFormed_cons] at h
    have hact : forEach (activate exp x) layer.neurons
        = some (layer.neurons.map (activated exp x)) :=
      forEach_eq_map _ _ _ (fun unit hu => activate_eq exp x unit (h.1 unit hu))
    have hlen : (layerSpec exp layer x).length = layer.neurons.length := by simp [layerSpec]
    have hrest := ih (layerSpec exp layer x) (layerSpec exp layer x) (by rw [hlen]; exact h.2)
    rw [forward, hact]
    simp only [map_output_activated]
    rw [show layer.neurons.map (unitSpec exp x) = layerSpec exp layer x from rfl, hrest]
    cases rest <;> simp [predictSpec, forwardState]

theorem Predict_eq [Field α] (exp : α → α) (net : Network α) (inputs : List α)
    (hne : net.layers ≠ []) (hwf : wellFormed inputs.length net.layers = true) :
    Predict exp net inputs
      = some (predictSpec exp net.layers inputs,
          { net with layers := forwardState exp inputs net.layers }) := by
  unfold Predict
  rw [forward_eq exp net.layers inputs [] hwf]
  cases hl : net.layers with
  | nil => exact absurd hl hne
  | cons _ _ => simp

theorem predictSpec_append [Field α] (exp : α → α) (init : List (Layer α)) (last : Layer α)
    (x : List α) :
    predictSpec exp (init ++ [last]) x = layerSpec exp last (predictSpec exp init x) := by
  simp [predictSpec, List.foldl_append]

/-- C1 (amended): for a network with at least one layer that satisfies the data-model invariant
for the length of the input vector (every unit of the first layer has as many weights as the input
has entries, every unit of a later layer as many as the layer before has units), `Predict` returns
the fold over the layers in order of the map sending `x` to the vector of
`sigmoid(bias_j + Σ_k weight_{j,k} * x_k)`; the returned vector is the last layer's map applied to
what the layers before it produce, so it has one entry per unit of the last layer, in unit order. -/
theorem Predict_returns_fold [Field α] (exp : α → α) (net : Network α) (inputs : List α)
    (hne : net.layers ≠ []) (hwf : wellFormed inputs.length net.layers = true) :
    ∃ net1 last,
      Predict exp net inputs = some (predictSpec exp net.layers inputs, net1) ∧
      net.layers.getLast? = some last ∧
      predictSpec exp net.layers inputs
        = last.neurons.map (unitSpec exp (predictSpec exp net.layers.dropLast inputs)) ∧
      (predictSpec exp net.layers inputs).length = last.neurons.length := by
  refine ⟨_, net.layers.getLast hne, Predict_eq exp net inputs hne hwf,
    List.getLast?_eq_getLast _ hne, ?_, ?_⟩
  · conv_lhs => rw [← List.dropLast_append_getLast hne]
    rw [predictSpec_append]
    rfl
  · conv_lhs => rw [← List.dropLast_append_getLast hne]
    rw [predictSpec_append]
    simp [layerSpec]

/-- Witness of C1 (amended): the 2-2-1 example network over the reals on the input `[1, 1]`. -/
theorem Predict_returns_fold_witness :
    ∃ net1 last,
      Predict Real.exp (exampleNetwork : Network ℝ) [1, 1]
        = some (predictSpec Real.exp (exampleNetwork : Network ℝ).layers [1, 1], net1) ∧
      (exampleNetwork : Network ℝ).layers.getLast? = some last ∧
      predictSpec Real.exp (exampleNetwork : Network ℝ).layers [1, 1]
        = last.neurons.map
            (unitSpec Real.exp
              (predictSpec Real.exp (exampleNetwork : Network ℝ).layers.dropLast [1, 1])) ∧
      (predictSpec Real.exp (exampleNetwork : Network ℝ).layers [1, 1]).length
        = last.neurons.length :=
  Predict_returns_fold Real.exp exampleNetwork [1, 1] (by simp [exampleNetwork])
    (by simp [exampleNetwork, wellFormed])

/-- Counterexample to C1 as stated: a network with two layers whose first layer's only unit has
one weight, on an input of length one; the second layer's unit reads `inputs[1]` of a vector of
length one, so `Predict` has no defined result. -/
theorem Predict_undefined_on_raggedNetwork :
    (raggedNetwork : Network ℝ).layers ≠ [] ∧
    (∀ first ∈ (raggedNetwork : Network ℝ).layers.head?, ∀ unit ∈ first.neurons,
      unit.weights.length = ([1] : List ℝ).length) ∧
    Predict Real.exp (raggedNetwork : Network ℝ) [1] = none := by
  refine ⟨by simp [raggedNetwork], by simp [raggedNetwork], ?_⟩
  simp [Predict, forward, forEach, forEachIdx, activate, weightedSum, raggedNetwork]

/-! ## Fields a phase leaves alone -/

theorem fieldOf_cons {δ : Type} (f : Neuron α → δ) (layer : Layer α)
    (rest : List (Layer α)) :
    fieldOf f (layer :: rest) = layer.neurons.map f :: fieldOf f rest := rfl

theorem fieldOf_length {δ : Type} (f : Neuron α → δ) (layers : List (Layer α)) :
    (fieldOf f layers).length = layers.length := by
  simp [fieldOf]

theorem unitAt_of_fieldOf {δ : Type} (f : Neuron α → δ) (layers layers1 : List (Layer α))
    (h : fieldOf f layers1 = fieldOf f layers) (i j : Nat) (unit : Neuron α)
    (hu : unitAt layers i j = some unit) :
    ∃ unit1, unitAt layers1 i j = some unit1 ∧ f unit1 = f unit := by
  unfold unitAt at hu ⊢
  have hi := congrArg (fun l => l[i]?) h
  simp only [fieldOf, List.getElem?_map] at hi
  cases hl : layers[i]? with
  | none => simp [hl] at hu
  | some layer =>
    rw [hl] at hu hi
    cases hl1 : layers1[i]? with
    | none => simp [hl1] at hi
    | some layer1 =>
      rw [hl1] at hi
      simp only [Option.map_some', Option.some.injEq] at hi
      have hj := congrArg (fun l => l[j]?) hi
      simp only [List.getElem?_map] at hj
      simp only at hu ⊢
      rw [hu] at hj
      cases hu1 : layer1.neurons[j]? with
      | none => simp [hu1] at hj
      | some unit1 =>
        rw [hu1] at hj
        exact ⟨unit1, rfl, by simpa using hj⟩

theorem layerInput_of_fieldOf (inputs : List α) (layers layers1 : List (Layer α))
    (h : fieldOf Neuron.output layers1 = fieldOf Neuron.output layers) (i : Nat) :
    layerInput inputs layers1 i = layerInput inputs layers i := by
  cases i with
  | zero => rfl
  | succ i =>
    have hi := congrArg (fun l => l[i]?) h
    simp only [fieldOf, List.getElem?_map] at hi
    simpa [layerInput] using hi

theorem layerInput_cons (inputs : List α) (layer : Layer α) (rest : List (Layer α)) (i : Nat) :
    layerInput inputs (layer :: rest) (i + 1)
      = layerInput (layer.neurons.map Neuron.output) rest i := by
  cases i <;> simp [layerInput]


theorem fieldOf_eq_of_pointwise {δ : Type} (f : Neuron α → δ)
    (layers layers1 : List (Layer α))
    (hlen : layers1.length = layers.length)
    (h : ∀ (i : Nat) (layer : Layer α), layers[i]? = some layer →
      ∃ layer1, layers1[i]? = some layer1 ∧ layer1.neurons.map f = layer.neurons.map f) :
    fieldOf f layers1 = fieldOf f layers := by
  apply List.ext_getElem?
  intro i
  simp only [fieldOf, List.getElem?_map]
  cases hl : layers[i]? with
  | none =>
    have : layers1[i]? = none := by
      rw [List.getElem?_eq_none_iff] at hl ⊢
      omega
    simp [this]
  | some layer =>
    obtain ⟨layer1, h1, h2⟩ := h i layer hl
    simp [h1, h2]

/-! ## What each phase of `Train` does, layer by layer -/

theorem forward_some [Field α] (exp : α → α) :
    ∀ (layers : List (Layer α)) (x outputs0 outputs : List α) (layers1 : List (Layer α)),
      forward exp x outputs0 layers = some (outputs, layers1) →
        layers1.length = layers.length ∧
        (∀ (i : Nat) (layer : Layer α), layers[i]? = some layer →
          ∃ layer1 xi, layers1[i]? = some layer1 ∧ layerInput x layers1 i = some xi ∧
            forEach (activate exp xi) layer.neurons = some layer1.neurons) ∧
        outputs = (match layers1.getLast? with
          | none => outputs0
          | some last => last.neurons.map Neuron.output) := by
  intro layers
  induction layers with
  | nil =>
    intro x outputs0 outputs layers1 h
    simp only [forward, Option.some.injEq, Prod.mk.injEq] at h
    obtain ⟨h1, h2⟩ := h
    subst h1 h2
    simp
  | cons layer rest ih =>
    intro x outputs0 outputs layers1 h
    rw [forward] at h
    cases hact : forEach (activate exp x) layer.neurons with
    | none => simp [hact] at h
    | some neurons =>
      rw [hact] at h
      simp only at h
      cases hrest : forward exp (neurons.map Neuron.output) (neurons.map Neuron.output) rest with
      | none => simp [hrest] at h
      | some r =>
        obtain ⟨outputs1, rest1⟩ := r
        rw [hrest] at h
        simp only [Option.some.injEq, Prod.mk.injEq] at h
        obtain ⟨h1, h2⟩ := h
        subst h1 h2
        obtain ⟨hlen, hget, hout⟩ := ih _ _ _ _ hrest
        refine ⟨by simp [hlen], ?_, ?_⟩
        · intro i layer0 hi
          cases i with
          | zero =>
            simp only [List.getElem?_cons_zero, Option.some.injEq] at hi
            subst hi
            exact ⟨_, x, by simp, rfl, hact⟩
          | succ i =>
            simp only [List.getElem?_cons_succ] at hi
            obtain ⟨layer1, xi, hl1, hxi, hfe⟩ := hget i layer0 hi
            exact ⟨layer1, xi, by simpa using hl1, by rw [layerInput_cons]; exact hxi, hfe⟩
        · rw [hout]
          cases rest1 with
          | nil => simp
          | cons a b =>
            simp only [List.getLast?_cons_cons]
            cases hgl : (a :: b).getLast? with
            | none => simp at hgl
            | some last => rfl

theorem update_some [Field α] (rate : α) :
    ∀ (layers : List (Layer α)) (x : List α) (layers4 : List (Layer α)),
      update rate x layers = some layers4 →
        layers4.length = layers.length ∧
        ∀ (i : Nat) (layer : Layer α), layers[i]? = some layer →
          ∃ layer4 xi, layers4[i]? = some layer4 ∧ layerInput x layers4 i = some xi ∧
            forEach (updateNeuron rate xi) layer.neurons = some layer4.neurons := by
  intro layers
  induction layers with
  | nil =>
    intro x layers4 h
    simp only [update, Option.some.injEq] at h
    subst h
    simp
  | cons layer rest ih =>
    intro x layers4 h
    rw [update] at h
    cases hact : forEach (updateNeuron rate x) layer.neurons with
    | none => simp [hact] at h
    | some neurons =>
      rw [hact] at h
      simp only at h
      cases hrest : update rate (neurons.map Neuron.output) rest with
      | none => simp [hrest] at h
      | some rest1 =>
        rw [hrest] at h
        simp only [Option.some.injEq] at h
        subst h
        obtain ⟨hlen, hget⟩ := ih _ _ hrest
        refine ⟨by simp [hlen], ?_⟩
        intro i layer0 hi
        cases i with
        | zero =>
          simp only [List.getElem?_cons_zero, Option.some.injEq] at hi
          subst hi
          exact ⟨_, x, by simp, rfl, hact⟩
        | succ i =>
          simp only [List.getElem?_cons_succ] at hi
          obtain ⟨layer1, xi, hl1, hxi, hfe⟩ := hget i layer0 hi
          exact ⟨layer1, xi, by simpa using hl1, by rw [layerInput_cons]; exact hxi, hfe⟩


theorem outputLayer_some [Field α] (targets : List α) :
    ∀ (layers layers2 : List (Layer α)), outputLayer targets layers = some layers2 →
      layers2.length = layers.length ∧
      ∀ (i : Nat) (layer : Layer α), layers[i]? = some layer →
        ∃ layer2, layers2[i]? = some layer2 ∧
          (i + 1 = layers.length →
            forEachIdx (outputError targets) layer.neurons 0 = some layer2.neurons) ∧
          (i + 1 ≠ layers.length → layer2 = layer) := by
  intro layers
  induction layers with
  | nil => intro layers2 h; simp [outputLayer] at h
  | cons layer rest ih =>
    intro layers2 h
    cases rest with
    | nil =>
      rw [outputLayer] at h
      cases hact : forEachIdx (outputError targets) layer.neurons 0 with
      | none => simp [hact] at h
      | some neurons =>
        simp only [hact, Option.some.injEq] at h
        subst h
        refine ⟨rfl, ?_⟩
        intro i layer0 hi
        cases i with
        | zero =>
          simp only [List.getElem?_cons_zero, Option.some.injEq] at hi
          subst hi
          exact ⟨_, by simp, fun _ => hact, fun hne => absurd rfl hne⟩
        | succ i => simp at hi
    | cons next rest =>
      rw [outputLayer] at h
      cases hrest : outputLayer targets (next :: rest) with
      | none => simp [hrest] at h
      | some rest1 =>
        simp only [hrest, Option.some.injEq] at h
        subst h
        obtain ⟨hlen, hget⟩ := ih rest1 hrest
        refine ⟨by simp [hlen], ?_⟩
        intro i layer0 hi
        cases i with
        | zero =>
          simp only [List.getElem?_cons_zero, Option.some.injEq] at hi
          subst hi
          exact ⟨_, by simp, fun h0 => by simp at h0, fun _ => rfl⟩
        | succ i =>
          simp only [List.getElem?_cons_succ] at hi
          obtain ⟨layer2, hl2, hlast, hother⟩ := hget i layer0 hi
          refine ⟨layer2, by simpa using hl2, fun h0 => hlast (by simpa using h0),
            fun h0 => hother (by simpa using h0)⟩

theorem hiddenLayers_some [Field α] :
    ∀ (layers layers3 : List (Layer α)), hiddenLayers layers = some layers3 →
      layers3.length = layers.length ∧
      ∀ (i : Nat) (layer : Layer α), layers[i]? = some layer →
        ∃ layer3, layers3[i]? = some layer3 ∧
          (i + 1 = layers.length → layer3 = layer) ∧
          (i + 1 ≠ layers.length →
            ∃ next3, layers3[i + 1]? = some next3 ∧
              forEachIdx (hiddenError next3.neurons) layer.neurons 0 = some layer3.neurons) := by
  intro layers
  induction layers with
  | nil =>
    intro layers3 h
    simp only [hiddenLayers, Option.some.injEq] at h
    subst h
    simp
  | cons layer rest ih =>
    intro layers3 h
    cases rest with
    | nil =>
      simp only [hiddenLayers, Option.some.injEq] at h
      subst h
      refine ⟨rfl, ?_⟩
      intro i layer0 hi
      cases i with
      | zero =>
        simp only [List.getElem?_cons_zero, Option.some.injEq] at hi
        subst hi
        exact ⟨_, by simp, fun _ => rfl, fun hne => absurd rfl hne⟩
      | succ i => simp at hi
    | cons next rest =>
      rw [hiddenLayers] at h
      cases hrest : hiddenLayers (next :: rest) with
      | none => simp [hrest] at h
      | some r =>
        obtain ⟨hlen, hget⟩ := ih r hrest
        cases r with
        | nil => simp at hlen
        | cons next1 rest1 =>
          rw [hrest] at h
          simp only at h
          cases hact : forEachIdx (hiddenError next1.neurons) layer.neurons 0 with
          | none => simp [hact] at h
          | some neurons =>
            simp only [hact, Option.some.injEq] at h
            subst h
            refine ⟨by simpa using hlen, ?_⟩
            intro i layer0 hi
            cases i with
            | zero =>
              simp only [List.getElem?_cons_zero, Option.some.injEq] at hi
              subst hi
              exact ⟨_, by simp, fun h0 => by simp at h0, fun _ => ⟨next1, by simp, hact⟩⟩
            | succ i =>
              simp only [List.getElem?_cons_succ] at hi
              obtain ⟨layer3, hl3, hlast, hother⟩ := hget i layer0 hi
              refine ⟨layer3, by simpa using hl3, fun h0 => hlast (by simpa using h0), ?_⟩
              intro h0
              obtain ⟨next3, hn3, hfe⟩ := hother (by simpa using h0)
              exact ⟨next3, by simpa using hn3, hfe⟩


/-! ## What each loop body does to a unit -/

theorem activate_some [Field α] (exp : α → α) (x : List α) (unit unit1 : Neuron α)
    (h : activate exp x unit = some unit1) :
    ∃ sum, weightedSum x unit.weights 0 unit.bias = some sum ∧
      unit1 = { unit with output := sigmoid exp sum } := by
  unfold activate at h
  cases hs : weightedSum x unit.weights 0 unit.bias with
  | none => simp [hs] at h
  | some sum =>
    simp only [hs, Option.some.injEq] at h
    exact ⟨sum, rfl, h.symm⟩

theorem outputError_some [Field α] (targets : List α) (k : Nat) (unit unit2 : Neuron α)
    (h : outputError targets k unit = some unit2) :
    ∃ t, targets[k]? = some t ∧
      unit2 = { unit with error := sigmoid_derivative unit.output * (t - unit.output) } := by
  unfold outputError at h
  cases ht : targets[k]? with
  | none => simp [ht] at h
  | some t =>
    simp only [ht, Option.some.injEq] at h
    exact ⟨t, rfl, h.symm⟩

theorem hiddenError_some [Field α] (next : List (Neuron α)) (j : Nat) (unit unit3 : Neuron α)
    (h : hiddenError next j unit = some unit3) :
    ∃ error, errorSum j next 0 = some error ∧
      unit3 = { unit with error := sigmoid_derivative unit.output * error } := by
  unfold hiddenError at h
  cases hs : errorSum j next 0 with
  | none => simp [hs] at h
  | some error =>
    simp only [hs, Option.some.injEq] at h
    exact ⟨error, rfl, h.symm⟩

theorem updateWeight_some [Field α] (rate error : α) (x : List α) (k : Nat) (w w4 : α)
    (h : updateWeight rate error x k w = some w4) :
    ∃ xk, x[k]? = some xk ∧ w4 = w + rate * error * xk := by
  unfold updateWeight at h
  cases hx : x[k]? with
  | none => simp [hx] at h
  | some xk =>
    simp only [hx, Option.some.injEq] at h
    exact ⟨xk, rfl, h.symm⟩

theorem updateNeuron_some [Field α] (rate : α) (x : List α) (unit unit4 : Neuron α)
    (h : updateNeuron rate x unit = some unit4) :
    ∃ weights, forEachIdx (updateWeight rate unit.error x) unit.weights 0 = some weights ∧
      unit4 = { unit with bias := unit.bias + rate * unit.error, weights := weights } := by
  unfold updateNeuron at h
  cases hw : forEachIdx (updateWeight rate unit.error x) unit.weights 0 with
  | none => simp [hw] at h
  | some weights =>
    simp only [hw, Option.some.injEq] at h
    exact ⟨weights, rfl, h.symm⟩

theorem errorSum_some [Field α] (j : Nat) :
    ∀ (next : List (Neuron α)) (start error : α), errorSum j next start = some error →
      (∀ unit ∈ next, j < unit.weights.length) ∧
        error = start + (next.map (fun unit => unit.error * unit.weights.getD j 0)).sum := by
  intro next
  induction next with
  | nil =>
    intro start error h
    simp only [errorSum, Option.some.injEq] at h
    simp [h]
  | cons unit rest ih =>
    intro start error h
    rw [errorSum] at h
    cases hw : unit.weights[j]? with
    | none => simp [hw] at h
    | some w =>
      simp only [hw] at h
      obtain ⟨hin, hsum⟩ := ih _ _ h
      have hj : j < unit.weights.length := by
        rcases Nat.lt_or_ge j unit.weights.length with hlt | hge
        · exact hlt
        · rw [List.getElem?_eq_none_iff.mpr hge] at hw
          exact absurd hw (by simp)
      refine ⟨?_, ?_⟩
      · intro u hu
        rcases List.mem_cons.mp hu with rfl | hu
        · exact hj
        · exact hin u hu
      · rw [hsum]
        simp [List.getD_eq_getElem?_getD, hw, add_assoc]

/-! ## Fields that a phase of `Train` leaves as they are -/

theorem forward_fieldOf [Field α] {δ : Type} (exp : α → α) (f : Neuron α → δ)
    (hf : ∀ (unit : Neuron α) (v : α), f { unit with output := v } = f unit)
    (layers : List (Layer α)) (x outputs0 outputs : List α) (layers1 : List (Layer α))
    (h : forward exp x outputs0 layers = some (outputs, layers1)) :
    fieldOf f layers1 = fieldOf f layers := by
  obtain ⟨hlen, hget, _⟩ := forward_some exp layers x outputs0 outputs layers1 h
  refine fieldOf_eq_of_pointwise f layers layers1 hlen (fun i layer hi => ?_)
  obtain ⟨layer1, xi, h1, _, hfe⟩ := hget i layer hi
  refine ⟨layer1, h1, forEachIdx_map _ f f (fun _ u u1 hu => ?_) _ _ _ hfe⟩
  obtain ⟨sum, _, rfl⟩ := activate_some exp xi u u1 hu
  exact hf u _

theorem outputLayer_fieldOf [Field α] {δ : Type} (f : Neuron α → δ)
    (hf : ∀ (unit : Neuron α) (v : α), f { unit with error := v } = f unit)
    (targets : List α) (layers layers2 : List (Layer α))
    (h : outputLayer targets layers = some layers2) :
    fieldOf f layers2 = fieldOf f layers := by
  obtain ⟨hlen, hget⟩ := outputLayer_some targets layers layers2 h
  refine fieldOf_eq_of_pointwise f layers layers2 hlen (fun i layer hi => ?_)
  obtain ⟨layer2, h2, hlast, hother⟩ := hget i layer hi
  refine ⟨layer2, h2, ?_⟩
  by_cases hi1 : i + 1 = layers.length
  · refine forEachIdx_map _ f f (fun k u u2 hu => ?_) _ _ _ (hlast hi1)
    obtain ⟨t, _, rfl⟩ := outputError_some targets k u u2 hu
    exact hf u _
  · rw [hother hi1]

theorem hiddenLayers_fieldOf [Field α] {δ : Type} (f : Neuron α → δ)
    (hf : ∀ (unit : Neuron α) (v : α), f { unit with error := v } = f unit)
    (layers layers3 : List (Layer α)) (h : hiddenLayers layers = some layers3) :
    fieldOf f layers3 = fieldOf f layers := by
  obtain ⟨hlen, hget⟩ := hiddenLayers_some layers layers3 h
  refine fieldOf_eq_of_pointwise f layers layers3 hlen (fun i layer hi => ?_)
  obtain ⟨layer3, h3, hlast, hother⟩ := hget i layer hi
  refine ⟨layer3, h3, ?_⟩
  by_cases hi1 : i + 1 = layers.length
  · rw [hlast hi1]
  · obtain ⟨next3, _, hfe⟩ := hother hi1
    refine forEachIdx_map _ f f (fun k u u3 hu => ?_) _ _ _ hfe
    obtain ⟨e, _, rfl⟩ := hiddenError_some next3.neurons k u u3 hu
    exact hf u _

theorem update_fieldOf [Field α] {δ : Type} (f : Neuron α → δ)
    (hf : ∀ (unit : Neuron α) (b : α) (ws : List α),
      f { unit with bias := b, weights := ws } = f unit)
    (rate : α) (layers : List (Layer α)) (x : List α) (layers4 : List (Layer α))
    (h : update rate x layers = some layers4) :
    fieldOf f layers4 = fieldOf f layers := by
  obtain ⟨hlen, hget⟩ := update_some rate layers x layers4 h
  refine fieldOf_eq_of_pointwise f layers layers4 hlen (fun i layer hi => ?_)
  obtain ⟨layer4, xi, h4, _, hfe⟩ := hget i layer hi
  refine ⟨layer4, h4, forEachIdx_map _ f f (fun _ u u4 hu => ?_) _ _ _ hfe⟩
  obtain ⟨ws, _, rfl⟩ := updateNeuron_some rate xi u u4 hu
  exact hf u _ _

/-! ## Well-formed networks run without undefined behaviour -/

theorem wellFormed_of_fieldOf :
    ∀ (layers layers1 : List (Layer α)) (n : Nat),
      fieldOf Neuron.weights layers1 = fieldOf Neuron.weights layers →
        wellFormed n layers1 = wellFormed n layers := by
  intro layers
  induction layers with
  | nil =>
    intro layers1 n h
    cases layers1 with
    | nil => rfl
    | cons a b => simp [fieldOf] at h
  | cons layer rest ih =>
    intro layers1 n h
    cases layers1 with
    | nil => simp [fieldOf] at h
    | cons layer1 rest1 =>
      simp only [fieldOf_cons, List.cons.injEq] at h
      obtain ⟨h1, h2⟩ := h
      have hlen : layer1.neurons.length = layer.neurons.length := by
        simpa using congrArg List.length h1
      have hall : layer1.neurons.all (fun unit => unit.weights.length == n)
          = layer.neurons.all (fun unit => unit.weights.length == n) := by
        have key : ∀ units : List (Neuron α),
            units.all (fun unit => unit.weights.length == n)
              = (units.map Neuron.weights).all (fun ws => ws.length == n) := by
          intro units
          induction units with
          | nil => rfl
          | cons u us ihu => simp only [List.all_cons, List.map_cons, ihu]
        rw [key, key, h1]
      simp only [wellFormed, hall, hlen, ih rest1 _ h2]

theorem errorSum_defined [Field α] (j : Nat) :
    ∀ (next : List (Neuron α)) (start : α), (∀ unit ∈ next, j < unit.weights.length) →
      ∃ error, errorSum j next start = some error := by
  intro next
  induction next with
  | nil => intro start _; exact ⟨start, rfl⟩
  | cons unit rest ih =>
    intro start h
    have hj := h unit (List.mem_cons_self _ _)
    rw [errorSum, List.getElem?_eq_getElem hj]
    exact ih _ (fun u hu => h u (List.mem_cons_of_mem _ hu))

theorem outputLayer_defined [Field α] (targets : List α) :
    ∀ (layers : List (Layer α)) (last : Layer α), layers.getLast? = some last →
      last.neurons.length ≤ targets.length →
        ∃ layers2, outputLayer targets layers = some layers2 := by
  intro layers
  induction layers with
  | nil => intro last h; simp at h
  | cons layer rest ih =>
    intro last hlast hlen
    cases rest with
    | nil =>
      simp only [List.getLast?_singleton, Option.some.injEq] at hlast
      subst hlast
      obtain ⟨ns, hns⟩ := forEachIdx_defined (outputError targets) layer.neurons 0
        (fun j unit hj => by
          have hj1 : j < layer.neurons.length := (List.getElem?_eq_some_iff.mp hj).1
          have hj2 : 0 + j < targets.length := by omega
          simp only [outputError, List.getElem?_eq_getElem hj2]
          exact ⟨_, rfl⟩)
      simp only [outputLayer, hns]
      exact ⟨_, rfl⟩
    | cons next rest =>
      rw [List.getLast?_cons_cons] at hlast
      obtain ⟨r, hr⟩ := ih last hlast hlen
      simp only [outputLayer, hr]
      exact ⟨_, rfl⟩

theorem hiddenLayers_defined [Field α] :
    ∀ (layers : List (Layer α)) (n : Nat), wellFormed n layers = true →
      ∃ layers3, hiddenLayers layers = some layers3 := by
  intro layers
  induction layers with
  | nil => intro _ _; exact ⟨[], rfl⟩
  | cons layer rest ih =>
    intro n hwf
    cases rest with
    | nil => exact ⟨[layer], rfl⟩
    | cons next rest =>
      rw [wellFormed_cons] at hwf
      obtain ⟨r, hr⟩ := ih layer.neurons.length hwf.2
      have hlen := (hiddenLayers_some _ _ hr).1
      have hw := hiddenLayers_fieldOf Neuron.weights (fun _ _ => rfl) _ _ hr
      cases r with
      | nil => simp at hlen
      | cons next1 rest1 =>
        simp only [fieldOf_cons, List.cons.injEq] at hw
        have hnext := (wellFormed_cons _ _ _).mp hwf.2
        have hfit : ∀ unit ∈ next1.neurons, unit.weights.length = layer.neurons.length := by
          intro unit hu
          have : unit.weights ∈ next1.neurons.map Neuron.weights := List.mem_map_of_mem _ hu
          rw [hw.1] at this
          obtain ⟨unit0, hu0, heq⟩ := List.mem_map.mp this
          rw [← heq]
          exact hnext.1 unit0 hu0
        obtain ⟨ns, hns⟩ := forEachIdx_defined (hiddenError next1.neurons) layer.neurons 0
          (fun j unit hj => by
            have hj1 : j < layer.neurons.length := (List.getElem?_eq_some_iff.mp hj).1
            obtain ⟨e, he⟩ := errorSum_defined (0 + j) next1.neurons 0
              (fun u hu => by rw [hfit u hu]; omega)
            simp only [hiddenError, he]
            exact ⟨_, rfl⟩)
        simp only [hiddenLayers, hr, hns]
        exact ⟨_, rfl⟩

theorem updateNeuron_defined [Field α] (rate : α) (x : List α) (unit : Neuron α)
    (h : unit.weights.length ≤ x.length) : ∃ unit4, updateNeuron rate x unit = some unit4 := by
  obtain ⟨ws, hws⟩ := forEachIdx_defined (updateWeight rate unit.error x) unit.weights 0
    (fun k w hk => by
      have hk1 : k < unit.weights.length := (List.getElem?_eq_some_iff.mp hk).1
      have hk2 : 0 + k < x.length := by omega
      simp only [updateWeight, List.getElem?_eq_getElem hk2]
      exact ⟨_, rfl⟩)
  simp only [updateNeuron, hws]
  exact ⟨_, rfl⟩

theorem update_defined [Field α] (rate : α) :
    ∀ (layers : List (Layer α)) (x : List α), wellFormed x.length layers = true →
      ∃ layers4, update rate x layers = some layers4 := by
  intro layers
  induction layers with
  | nil => intro _ _; exact ⟨[], rfl⟩
  | cons layer rest ih =>
    intro x hwf
    rw [wellFormed_cons] at hwf
    obtain ⟨ns, hns⟩ := forEachIdx_defined (fun _ u => updateNeuron rate x u) layer.neurons 0
      (fun j unit hj =>
        updateNeuron_defined rate x unit (le_of_eq (hwf.1 unit (List.getElem?_mem hj))))
    have hlen : (ns.map Neuron.output).length = layer.neurons.length := by
      simp [(forEachIdx_some _ _ _ _ hns).1]
    obtain ⟨r, hr⟩ := ih (ns.map Neuron.output) (by rw [hlen]; exact hwf.2)
    simp only [update, forEach, hns, hr]
    exact ⟨_, rfl⟩

/-! ## `Train` -/

theorem Train_ok [Field α] (exp : α → α) (net net1 : Network α) (inputs targets : List α)
    (h : Train exp net inputs targets = Outcome.ok net1) :
    ∃ last outputs layers1 layers2 layers3,
      net.layers.getLast? = some last ∧ targets.length = last.neurons.length ∧
      forward exp inputs [] net.layers = some (outputs, layers1) ∧
      outputLayer targets layers1 = some layers2 ∧
      hiddenLayers layers2 = some layers3 ∧
      update net.learning_rate inputs layers3 = some net1.layers ∧
      net1.learning_rate = net.learning_rate := by
  unfold Train Predict at h
  cases hlast : net.layers.getLast? with
  | none => simp [hlast] at h
  | some last =>
    simp only [hlast] at h
    by_cases hlen : targets.length = last.neurons.length
    · simp only [hlen, ne_eq, not_true_eq_false, ↓reduceIte] at h
      cases hf : forward exp inputs [] net.layers with
      | none => simp [hf] at h
      | some r =>
        obtain ⟨outputs, layers1⟩ := r
        simp only [hf] at h
        cases h2 : outputLayer targets layers1 with
        | none => simp [h2] at h
        | some layers2 =>
          simp only [h2] at h
          cases h3 : hiddenLayers layers2 with
          | none => simp [h3] at h
          | some layers3 =>
            simp only [h3] at h
            cases h4 : update net.learning_rate inputs layers3 with
            | none => simp [h4] at h
            | some layers4 =>
              simp only [h4, Outcome.ok.injEq] at h
              subst h
              exact ⟨last, outputs, layers1, layers2, layers3, rfl, hlen, rfl, h2, h3, h4, rfl⟩
    · simp [hlen] at h

theorem getLast?_of_fieldOf {δ : Type} (f : Neuron α → δ) (layers layers1 : List (Layer α))
    (h : fieldOf f layers1 = fieldOf f layers) (last : Layer α)
    (hlast : layers.getLast? = some last) :
    ∃ last1, layers1.getLast? = some last1 ∧ last1.neurons.map f = last.neurons.map f := by
  have hlen : layers1.length = layers.length := by
    rw [← fieldOf_length f layers1, h, fieldOf_length]
  rw [List.getLast?_eq_getElem?] at hlast ⊢
  have hi := congrArg (fun l => l[layers.length - 1]?) h
  simp only [fieldOf, List.getElem?_map, hlast, Option.map_some'] at hi
  rw [hlen]
  cases h1 : layers1[layers.length - 1]? with
  | none => simp [h1] at hi
  | some last1 =>
    simp only [h1, Option.map_some', Option.some.injEq] at hi
    exact ⟨last1, rfl, hi⟩

theorem Train_defined [Field α] (exp : α → α) (net : Network α) (inputs targets : List α)
    (last : Layer α) (hlast : net.layers.getLast? = some last)
    (hwf : wellFormed inputs.length net.layers = true)
    (hlen : targets.length = last.neurons.length) :
    ∃ net1, Train exp net inputs targets = Outcome.ok net1 := by
  have hf := forward_eq exp net.layers inputs [] hwf
  have hw1 := forward_fieldOf exp Neuron.weights (fun _ _ => rfl) _ _ _ _ _ hf
  obtain ⟨last1, hlast1, hl1⟩ := getLast?_of_fieldOf _ _ _ hw1 last hlast
  have hlen1 : last1.neurons.length = last.neurons.length := by
    simpa using congrArg List.length hl1
  obtain ⟨layers2, h2⟩ := outputLayer_defined targets _ last1 hlast1 (by omega)
  have hw2 := outputLayer_fieldOf Neuron.weights (fun _ _ => rfl) _ _ _ h2
  have hwf2 : wellFormed inputs.length layers2 = true := by
    rw [wellFormed_of_fieldOf _ _ _ (hw2.trans hw1)]
    exact hwf
  obtain ⟨layers3, h3⟩ := hiddenLayers_defined layers2 _ hwf2
  have hw3 := hiddenLayers_fieldOf Neuron.weights (fun _ _ => rfl) _ _ h3
  have hwf3 : wellFormed inputs.length layers3 = true := by
    rw [wellFormed_of_fieldOf _ _ _ hw3]
    exact hwf2
  obtain ⟨layers4, h4⟩ := update_defined net.learning_rate layers3 inputs hwf3
  refine ⟨{ net with layers := layers4 }, ?_⟩
  simp only [Train, Predict, hlast, hlen, hf, h2, h3, h4]
  simp


/-! ## What each phase of `Train` does, unit by unit -/

theorem unitAt_of_forEachIdx (body : Nat → Neuron α → Option (Neuron α))
    (layers layers1 : List (Layer α)) (i j : Nat) (layer layer1 : Layer α) (unit : Neuron α)
    (hl : layers[i]? = some layer) (hl1 : layers1[i]? = some layer1)
    (hfe : forEachIdx body layer.neurons 0 = some layer1.neurons)
    (hu : unitAt layers i j = some unit) :
    ∃ unit1, unitAt layers1 i j = some unit1 ∧ body j unit = some unit1 := by
  simp only [unitAt, hl, hl1] at hu ⊢
  obtain ⟨unit1, h1, h2⟩ := (forEachIdx_some body _ _ _ hfe).2 j unit hu
  exact ⟨unit1, h1, by simpa using h2⟩

theorem layer_of_unitAt (layers : List (Layer α)) (i j : Nat) (unit : Neuron α)
    (hu : unitAt layers i j = some unit) : ∃ layer, layers[i]? = some layer := by
  unfold unitAt at hu
  cases hl : layers[i]? with
  | none => simp [hl] at hu
  | some layer => exact ⟨layer, rfl⟩

theorem forward_unit [Field α] (exp : α → α) (layers : List (Layer α))
    (x outputs0 outputs : List α) (layers1 : List (Layer α))
    (h : forward exp x outputs0 layers = some (outputs, layers1))
    (i j : Nat) (unit : Neuron α) (hu : unitAt layers i j = some unit) :
    ∃ unit1 xi, unitAt layers1 i j = some unit1 ∧ layerInput x layers1 i = some xi ∧
      activate exp xi unit = some unit1 := by
  obtain ⟨layer, hl⟩ := layer_of_unitAt layers i j unit hu
  obtain ⟨layer1, xi, hl1, hxi, hfe⟩ :=
    (forward_some exp layers x outputs0 outputs layers1 h).2.1 i layer hl
  obtain ⟨unit1, h1, h2⟩ := unitAt_of_forEachIdx _ layers layers1 i j layer layer1 unit
    hl hl1 hfe hu
  exact ⟨unit1, xi, h1, hxi, h2⟩


theorem update_unit [Field α] (rate : α) (layers : List (Layer α)) (x : List α)
    (layers4 : List (Layer α)) (h : update rate x layers = some layers4)
    (i j : Nat) (unit : Neuron α) (hu : unitAt layers i j = some unit) :
    ∃ unit4 xi, unitAt layers4 i j = some unit4 ∧ layerInput x layers4 i = some xi ∧
      updateNeuron rate xi unit = some unit4 := by
  obtain ⟨layer, hl⟩ := layer_of_unitAt layers i j unit hu
  obtain ⟨layer4, xi, hl4, hxi, hfe⟩ := (update_some rate layers x layers4 h).2 i layer hl
  obtain ⟨unit4, h1, h2⟩ := unitAt_of_forEachIdx _ layers layers4 i j layer layer4 unit
    hl hl4 hfe hu
  exact ⟨unit4, xi, h1, hxi, h2⟩

theorem outputLayer_unit [Field α] (targets : List α) (layers layers2 : List (Layer α))
    (h : outputLayer targets layers = some layers2)
    (i j : Nat) (unit : Neuron α) (hu : unitAt layers i j = some unit) :
    ∃ unit2, unitAt layers2 i j = some unit2 ∧
      (i + 1 = layers.length → outputError targets j unit = some unit2) ∧
      (i + 1 ≠ layers.length → unit2 = unit) := by
  obtain ⟨layer, hl⟩ := layer_of_unitAt layers i j unit hu
  obtain ⟨layer2, hl2, hlast, hother⟩ :=
    (outputLayer_some targets layers layers2 h).2 i layer hl
  by_cases hi : i + 1 = layers.length
  · obtain ⟨unit2, h1, h2⟩ := unitAt_of_forEachIdx _ layers layers2 i j layer layer2 unit
      hl hl2 (hlast hi) hu
    exact ⟨unit2, h1, fun _ => h2, fun hne => absurd hi hne⟩
  · have := hother hi
    subst this
    refine ⟨unit, ?_, fun h0 => absurd h0 hi, fun _ => rfl⟩
    simp only [unitAt, hl, hl2] at hu ⊢
    exact hu

theorem hiddenLayers_unit [Field α] (layers layers3 : List (Layer α))
    (h : hiddenLayers layers = some layers3)
    (i j : Nat) (unit : Neuron α) (hu : unitAt layers i j = some unit) :
    ∃ unit3, unitAt layers3 i j = some unit3 ∧
      (i + 1 = layers.length → unit3 = unit) ∧
      (i + 1 ≠ layers.length →
        ∃ next3, layers3[i + 1]? = some next3 ∧
          hiddenError next3.neurons j unit = some unit3) := by
  obtain ⟨layer, hl⟩ := layer_of_unitAt layers i j unit hu
  obtain ⟨layer3, hl3, hlast, hother⟩ := (hiddenLayers_some layers layers3 h).2 i layer hl
  by_cases hi : i + 1 = layers.length
  · have := hlast hi
    subst this
    refine ⟨unit, ?_, fun _ => rfl, fun hne => absurd hi hne⟩
    simp only [unitAt, hl, hl3] at hu ⊢
    exact hu
  · obtain ⟨next3, hn3, hfe⟩ := hother hi
    obtain ⟨unit3, h1, h2⟩ := unitAt_of_forEachIdx _ layers layers3 i j layer layer3 unit
      hl hl3 hfe hu
    exact ⟨unit3, h1, fun h0 => absurd h0 hi, fun _ => ⟨next3, hn3, h2⟩⟩

/-- C5: for a network with at least one layer, `Train` throws the target-size-mismatch exception
exactly when the number of targets differs from the number of units of the last layer, and
whenever it throws, the exception is that one and the network is in the state it had before the
call. -/
theorem Train_throws_iff_target_size_mismatch [Field α] (exp : α → α) (net : Network α)
    (inputs targets : List α) (last : Layer α) (hlast : net.layers.getLast? = some last) :
    ((∃ state, Train exp net inputs targets = Outcome.thrown (targetSizeMismatch, state))
      ↔ targets.length ≠ last.neurons.length) ∧
    ∀ e state, Train exp net inputs targets = Outcome.thrown (e, state) →
      e = targetSizeMismatch ∧ state = net := by
  have key : ∀ e state, Train exp net inputs targets = Outcome.thrown (e, state) →
      targets.length ≠ last.neurons.length ∧ e = targetSizeMismatch ∧ state = net := by
    intro e state h
    unfold Train at h
    simp only [hlast] at h
    by_cases hlen : targets.length = last.neurons.length
    · simp only [hlen, ne_eq, not_true_eq_false, ↓reduceIte] at h
      cases hp : Predict exp net inputs with
      | none => simp [hp] at h
      | some r =>
        simp only [hp] at h
        cases h2 : outputLayer targets r.2.layers with
        | none => simp [h2] at h
        | some layers2 =>
          simp only [h2] at h
          cases h3 : hiddenLayers layers2 with
          | none => simp [h3] at h
          | some layers3 =>
            simp only [h3] at h
            cases h4 : update r.2.learning_rate inputs layers3 with
            | none => simp [h4] at h
            | some layers4 => simp [h4] at h
    · simp only [ne_eq, hlen, not_false_eq_true, ↓reduceIte, Outcome.thrown.injEq,
        Prod.mk.injEq] at h
      exact ⟨hlen, h.1.symm, h.2.symm⟩
  refine ⟨⟨fun ⟨state, h⟩ => (key _ _ h).1, fun hne => ⟨net, ?_⟩⟩,
    fun e state h => (key e state h).2⟩
  unfold Train
  simp [hlast, hne]

/-- Witness of C5: the 2-2-1 example network over the reals, with two targets for one output. -/
theorem Train_throws_iff_target_size_mismatch_witness :
    ((∃ state, Train Real.exp (exampleNetwork : Network ℝ) [1, 1] [1, 2]
        = Outcome.thrown (targetSizeMismatch, state))
      ↔ ([1, 2] : List ℝ).length ≠ (exampleLast : Layer ℝ).neurons.length) ∧
    ∀ e state, Train Real.exp (exampleNetwork : Network ℝ) [1, 1] [1, 2]
        = Outcome.thrown (e, state) →
      e = targetSizeMismatch ∧ state = exampleNetwork :=
  Train_throws_iff_target_size_mismatch Real.exp exampleNetwork [1, 1] [1, 2] exampleLast rfl

theorem layer_of_fieldOf {δ : Type} (f : Neuron α → δ) (layers layers1 : List (Layer α))
    (h : fieldOf f layers1 = fieldOf f layers) (i : Nat) (layer : Layer α)
    (hl : layers[i]? = some layer) :
    ∃ layer1, layers1[i]? = some layer1 ∧ layer1.neurons.map f = layer.neurons.map f := by
  have hi := congrArg (fun l => l[i]?) h
  simp only [fieldOf, List.getElem?_map, hl, Option.map_some'] at hi
  cases hl1 : layers1[i]? with
  | none => simp [hl1] at hi
  | some layer1 =>
    simp only [hl1, Option.map_some', Option.some.injEq] at hi
    exact ⟨layer1, rfl, hi⟩

theorem zipWith_of_map_eq {β δ ε : Type} (fe : Neuron α → β) (fw : Neuron α → δ)
    (g : β → δ → ε) (a b c : List (Neuron α))
    (ha : a.map fe = c.map fe) (hb : b.map fw = c.map fw) :
    List.zipWith (fun x y => g (fe x) (fw y)) a b = c.map (fun u => g (fe u) (fw u)) := by
  have h1 : List.zipWith (fun x y => g (fe x) (fw y)) a b
      = List.zipWith g (a.map fe) (b.map fw) := by
    rw [List.zipWith_map]
  rw [h1, ha, hb, List.zipWith_map, List.zipWith_same]

/-- C4: for a network with at least one layer and as many targets as the last layer has units,
after a `Train` call that succeeds the error stored in unit `j` of the last layer is
`output_j * (1 - output_j) * (target_j - output_j)`, where `output_j` is entry `j` of what `Predict`
returns for the given inputs on the network as it was before the call. -/
theorem Train_output_layer_error [Field α] (exp : α → α) (net net1 : Network α)
    (inputs targets : List α) (last : Layer α) (hlast : net.layers.getLast? = some last)
    (hlen : targets.length = last.neurons.length)
    (h : Train exp net inputs targets = Outcome.ok net1) :
    ∃ outputs state, Predict exp net inputs = some (outputs, state) ∧
      ∀ (j : Nat) (t : α), targets[j]? = some t →
        ∃ o unit1, outputs[j]? = some o ∧
          unitAt net1.layers (net.layers.length - 1) j = some unit1 ∧
          unit1.error = o * (1 - o) * (t - o) := by
  obtain ⟨last0, outputs, layers1, layers2, layers3, hlast0, _, hf, h2, h3, h4, _⟩ :=
    Train_ok exp net net1 inputs targets h
  refine ⟨outputs, { net with layers := layers1 }, by simp [Predict, hf], ?_⟩
  intro j t ht
  have hne : net.layers ≠ [] := by
    intro h0
    simp [h0] at hlast
  have hpos : 0 < net.layers.length := List.length_pos.mpr hne
  obtain ⟨hlen1, _, hout⟩ := forward_some exp _ _ _ _ _ hf
  have hlen2 := (outputLayer_some targets _ _ h2).1
  have hlen3 := (hiddenLayers_some _ _ h3).1
  have hj : j < last.neurons.length := by
    rw [← hlen]
    exact (List.getElem?_eq_some_iff.mp ht).1
  have hli : net.layers[net.layers.length - 1]? = some last := by
    rw [← List.getLast?_eq_getElem?]
    exact hlast
  have hu : unitAt net.layers (net.layers.length - 1) j = some (last.neurons[j]) := by
    simp only [unitAt, hli, List.getElem?_eq_getElem hj]
  obtain ⟨u1, xi, hu1, _, hact⟩ := forward_unit exp _ _ _ _ _ hf _ _ _ hu
  obtain ⟨u2, hu2, hlast2, _⟩ := outputLayer_unit targets _ _ h2 _ _ _ hu1
  obtain ⟨u3, hu3, hlast3, _⟩ := hiddenLayers_unit _ _ h3 _ _ _ hu2
  obtain ⟨u4, xi4, hu4, _, hupd⟩ := update_unit _ _ _ _ h4 _ _ _ hu3
  obtain ⟨t1, ht1, rfl⟩ := outputError_some _ _ _ _ (hlast2 (by omega))
  have h32 := hlast3 (by omega)
  subst h32
  obtain ⟨ws, _, rfl⟩ := updateNeuron_some _ _ _ _ hupd
  rw [ht] at ht1
  simp only [Option.some.injEq] at ht1
  subst ht1
  refine ⟨u1.output, _, ?_, hu4, rfl⟩
  rw [hout, List.getLast?_eq_getElem?, hlen1]
  obtain ⟨layer1, hl1⟩ := layer_of_unitAt _ _ _ _ hu1
  simp only [unitAt, hl1] at hu1
  simp [hl1, List.getElem?_map, hu1]


/-- Witness of C4: the one-unit network over the reals, trained on the input `[1]` and the
target `[1]`. -/
theorem Train_output_layer_error_witness :
    ∃ outputs state, Predict Real.exp (unitNetwork : Network ℝ) [1] = some (outputs, state) ∧
      ∀ (j : Nat) (t : ℝ), ([1] : List ℝ)[j]? = some t →
        ∃ o unit1, outputs[j]? = some o ∧
          unitAt (unitNetworkTrained Real.exp).layers
            ((unitNetwork : Network ℝ).layers.length - 1) j = some unit1 ∧
          unit1.error = o * (1 - o) * (t - o) :=
  Train_output_layer_error Real.exp unitNetwork (unitNetworkTrained Real.exp) [1] [1]
    { neurons := [{ weights := [0], output := 0, error := 0, bias := 0 }] } rfl rfl rfl

theorem Train_fieldOf [Field α] (exp : α → α) (net : Network α) (inputs targets : List α)
    (outputs : List α) (layers1 layers2 layers3 layers4 : List (Layer α))
    (hf : forward exp inputs [] net.layers = some (outputs, layers1))
    (h2 : outputLayer targets layers1 = some layers2)
    (h3 : hiddenLayers layers2 = some layers3)
    (h4 : update net.learning_rate inputs layers3 = some layers4) :
    fieldOf (fun u => (u.weights, u.bias)) layers3
        = fieldOf (fun u => (u.weights, u.bias)) net.layers ∧
      fieldOf Neuron.output layers4 = fieldOf Neuron.output layers1 ∧
      fieldOf Neuron.error layers4 = fieldOf Neuron.error layers3 := by
  refine ⟨?_, ?_, ?_⟩
  · rw [hiddenLayers_fieldOf (fun u => (u.weights, u.bias)) (fun _ _ => rfl) _ _ h3,
      outputLayer_fieldOf (fun u => (u.weights, u.bias)) (fun _ _ => rfl) _ _ _ h2,
      forward_fieldOf exp (fun u => (u.weights, u.bias)) (fun _ _ => rfl) _ _ _ _ _ hf]
  · rw [update_fieldOf Neuron.output (fun _ _ _ => rfl) _ _ _ _ h4,
      hiddenLayers_fieldOf Neuron.output (fun _ _ => rfl) _ _ h3,
      outputLayer_fieldOf Neuron.output (fun _ _ => rfl) _ _ _ h2]
  · rw [update_fieldOf Neuron.error (fun _ _ _ => rfl) _ _ _ _ h4]

/-- C3: for a well-formed network and matching inputs and targets, `Train` succeeds, and
afterwards the error stored in unit `j` of every layer `i` but the last is
`output_{i,j} * (1 - output_{i,j}) * Σ_k error_{i+1,k} * weight_{i+1,k,j}`: `output_{i,j}` is the
unit's output after `Predict` on the network before the call, `error_{i+1,k}` is the error stored
in unit `k` of the next layer after the call, and `weight_{i+1,k,j}` is weight `j` of that unit
before the call (it exists: `j` is below the weight count). -/
theorem Train_hidden_layer_error [Field α] (exp : α → α) (net : Network α)
    (inputs targets : List α) (last : Layer α) (hlast : net.layers.getLast? = some last)
    (hwf : wellFormed inputs.length net.layers = true)
    (hlen : targets.length = last.neurons.length) :
    ∃ outputs state net1, Predict exp net inputs = some (outputs, state) ∧
      Train exp net inputs targets = Outcome.ok net1 ∧
      ∀ (i j : Nat) (unit0 : Neuron α), i + 1 < net.layers.length →
        unitAt state.layers i j = some unit0 →
          ∃ unit1 next next1, unitAt net1.layers i j = some unit1 ∧
            net.layers[i + 1]? = some next ∧ net1.layers[i + 1]? = some next1 ∧
            next1.neurons.length = next.neurons.length ∧
            (∀ u ∈ next.neurons, j < u.weights.length) ∧
            unit1.error = unit0.output * (1 - unit0.output) *
              (List.zipWith (fun u1 u => u1.error * u.weights.getD j 0)
                next1.neurons next.neurons).sum := by
  obtain ⟨net1, h⟩ := Train_defined exp net inputs targets last hlast hwf hlen
  obtain ⟨_, outputs, layers1, layers2, layers3, _, _, hf, h2, h3, h4, _⟩ :=
    Train_ok exp net net1 inputs targets h
  refine ⟨outputs, { net with layers := layers1 }, net1, by simp [Predict, hf], h, ?_⟩
  intro i j unit0 hi hu1
  simp only at hu1
  obtain ⟨hparams, _, herr⟩ := Train_fieldOf exp net inputs targets outputs _ _ _ _ hf h2 h3 h4
  have hlen1 := (forward_some exp _ _ _ _ _ hf).1
  have hlen2 := (outputLayer_some targets _ _ h2).1
  obtain ⟨u2, hu2, _, hother2⟩ := outputLayer_unit targets _ _ h2 _ _ _ hu1
  have h21 := hother2 (by omega)
  subst h21
  obtain ⟨u3, hu3, _, hother3⟩ := hiddenLayers_unit _ _ h3 _ _ _ hu2
  obtain ⟨next3, hn3, hhid⟩ := hother3 (by omega)
  obtain ⟨u4, xi4, hu4, _, hupd⟩ := update_unit _ _ _ _ h4 _ _ _ hu3
  obtain ⟨e, hsum, rfl⟩ := hiddenError_some _ _ _ _ hhid
  obtain ⟨ws, _, rfl⟩ := updateNeuron_some _ _ _ _ hupd
  obtain ⟨hin, he⟩ := errorSum_some _ _ _ _ hsum
  obtain ⟨next1, hn1, hmap1⟩ := layer_of_fieldOf _ _ _ herr _ _ hn3
  obtain ⟨next, hn, hmap⟩ := layer_of_fieldOf _ _ _ hparams.symm _ _ hn3
  have hw : next.neurons.map Neuron.weights = next3.neurons.map Neuron.weights := by
    have := congrArg (List.map Prod.fst) hmap
    simpa [Function.comp_def] using this
  refine ⟨_, next, next1, hu4, hn, hn1, ?_, ?_, ?_⟩
  · have l1 := congrArg List.length hmap1
    have l2 := congrArg List.length hw
    simp only [List.length_map] at l1 l2
    omega
  · intro u hu
    have : u.weights ∈ next.neurons.map Neuron.weights := List.mem_map_of_mem _ hu
    rw [hw] at this
    obtain ⟨u0, hu0, heq⟩ := List.mem_map.mp this
    rw [← heq]
    exact hin u0 hu0
  · rw [zipWith_of_map_eq Neuron.error Neuron.weights (fun e w => e * w.getD j 0)
      next1.neurons next.neurons next3.neurons hmap1 hw, he]
    simp [sigmoid_derivative]


/-- Witness of C3: the 2-2-1 example network over the reals on the input `[1, 1]` and the
target `[1]`. -/
theorem Train_hidden_layer_error_witness :
    ∃ outputs state net1,
      Predict Real.exp (exampleNetwork : Network ℝ) [1, 1] = some (outputs, state) ∧
      Train Real.exp (exampleNetwork : Network ℝ) [1, 1] [1] = Outcome.ok net1 ∧
      ∀ (i j : Nat) (unit0 : Neuron ℝ), i + 1 < (exampleNetwork : Network ℝ).layers.length →
        unitAt state.layers i j = some unit0 →
          ∃ unit1 next next1, unitAt net1.layers i j = some unit1 ∧
            (exampleNetwork : Network ℝ).layers[i + 1]? = some next ∧
            net1.layers[i + 1]? = some next1 ∧
            next1.neurons.length = next.neurons.length ∧
            (∀ u ∈ next.neurons, j < u.weights.length) ∧
            unit1.error = unit0.output * (1 - unit0.output) *
              (List.zipWith (fun u1 u => u1.error * u.weights.getD j 0)
                next1.neurons next.neurons).sum :=
  Train_hidden_layer_error Real.exp exampleNetwork [1, 1] [1] exampleLast rfl (by decide) rfl

/-- C2: for a well-formed network and matching inputs and targets, `Train` succeeds and keeps the
learning rate, and afterwards every unit's bias is its old bias plus `learning_rate * error`, and
its weight `k` is the old weight `k` plus `learning_rate * error * layer_input_k`: `error` is the
error stored in the unit after the call, and `layer_input` is the input vector for layer 0 and,
for a later layer, the outputs of the layer before it after `Predict` on the network as it was
before the call. -/
theorem Train_update_rule [Field α] (exp : α → α) (net : Network α)
    (inputs targets : List α) (last : Layer α) (hlast : net.layers.getLast? = some last)
    (hwf : wellFormed inputs.length net.layers = true)
    (hlen : targets.length = last.neurons.length) :
    ∃ outputs state net1, Predict exp net inputs = some (outputs, state) ∧
      Train exp net inputs targets = Outcome.ok net1 ∧
      net1.learning_rate = net.learning_rate ∧
      ∀ (i j : Nat) (unit : Neuron α), unitAt net.layers i j = some unit →
        ∃ unit1 x, unitAt net1.layers i j = some unit1 ∧
          layerInput inputs state.layers i = some x ∧
          unit1.bias = unit.bias + net.learning_rate * unit1.error ∧
          unit1.weights.length = unit.weights.length ∧
          ∀ (k : Nat) (w : α), unit.weights[k]? = some w →
            ∃ xk, x[k]? = some xk ∧
              unit1.weights[k]? = some (w + net.learning_rate * unit1.error * xk) := by
  obtain ⟨net1, h⟩ := Train_defined exp net inputs targets last hlast hwf hlen
  obtain ⟨_, outputs, layers1, layers2, layers3, _, _, hf, h2, h3, h4, hrate⟩ :=
    Train_ok exp net net1 inputs targets h
  refine ⟨outputs, { net with layers := layers1 }, net1, by simp [Predict, hf], h, hrate, ?_⟩
  intro i j unit hu
  simp only
  obtain ⟨hparams, hout, _⟩ := Train_fieldOf exp net inputs targets outputs _ _ _ _ hf h2 h3 h4
  obtain ⟨u3, hu3, hp3⟩ := unitAt_of_fieldOf _ _ _ hparams i j unit hu
  simp only [Prod.mk.injEq] at hp3
  obtain ⟨u4, x, hu4, hx, hupd⟩ := update_unit _ _ _ _ h4 _ _ _ hu3
  obtain ⟨ws, hws, rfl⟩ := updateNeuron_some _ _ _ _ hupd
  obtain ⟨hwlen, hwget⟩ := forEachIdx_some _ _ _ _ hws
  rw [layerInput_of_fieldOf inputs _ _ hout] at hx
  refine ⟨_, x, hu4, hx, by simp only [hp3.2], by simp only [hwlen, hp3.1], ?_⟩
  intro k w hk
  rw [← hp3.1] at hk
  obtain ⟨w4, hw4, hupdw⟩ := hwget k w hk
  obtain ⟨xk, hxk, rfl⟩ := updateWeight_some _ _ _ _ _ _ hupdw
  exact ⟨xk, by simpa using hxk, hw4⟩

/-- Witness of C2: the 2-2-1 example network over the reals on the input `[1, 1]` and the
target `[1]`. -/
theorem Train_update_rule_witness :
    ∃ outputs state net1,
      Predict Real.exp (exampleNetwork : Network ℝ) [1, 1] = some (outputs, state) ∧
      Train Real.exp (exampleNetwork : Network ℝ) [1, 1] [1] = Outcome.ok net1 ∧
      net1.learning_rate = (exampleNetwork : Network ℝ).learning_rate ∧
      ∀ (i j : Nat) (unit : Neuron ℝ),
        unitAt (exampleNetwork : Network ℝ).layers i j = some unit →
          ∃ unit1 x, unitAt net1.layers i j = some unit1 ∧
            layerInput [1, 1] state.layers i = some x ∧
            unit1.bias = unit.bias + (exampleNetwork : Network ℝ).learning_rate * unit1.error ∧
            unit1.weights.length = unit.weights.length ∧
            ∀ (k : Nat) (w : ℝ), unit.weights[k]? = some w →
              ∃ xk, x[k]? = some xk ∧
                unit1.weights[k]?
                  = some (w + (exampleNetwork : Network ℝ).learning_rate * unit1.error * xk) :=
  Train_update_rule Real.exp exampleNetwork [1, 1] [1] exampleLast rfl (by decide) rfl

/-! ## Serialization -/

theorem readDoubles_append (ws : List α) (rest : List (Tok α)) :
    readDoubles ws.length (ws.map Tok.f64 ++ rest) = some (ws, rest) := by
  induction ws with
  | nil => rfl
  | cons w ws ih => simp [readDoubles, readDouble, ih]

theorem readNeurons_save (uninit : α) (units : List (Neuron α)) (rest : List (Tok α)) :
    readNeurons uninit units.length (saveNeurons units ++ rest)
      = Outcome.ok (units.map (resetUnit uninit), rest) := by
  induction units with
  | nil => rfl
  | cons unit units ih =>
    simp only [List.length_cons, saveNeurons, saveNeuron, List.cons_append, List.append_assoc,
      readNeurons, readInt]
    simp [readDoubles_append, readDouble, ih, resetUnit]

theorem readLayers_save (uninit : α) (layers : List (Layer α)) (rest : List (Tok α)) :
    readLayers uninit layers.length (saveLayers layers ++ rest)
      = Outcome.ok (layers.map (resetLayer uninit), rest) := by
  induction layers with
  | nil => rfl
  | cons layer layers ih =>
    simp only [List.length_cons, saveLayers, List.cons_append, List.append_assoc,
      readLayers, readInt]
    simp [readNeurons_save, ih, resetLayer]

theorem fromFile_Save (uninit : α) (net : Network α) :
    Network.fromFile uninit (Save net)
      = Outcome.ok { layers := net.layers.map (resetLayer uninit),
                     learning_rate := net.learning_rate } := by
  have h := readLayers_save uninit net.layers []
  rw [List.append_nil] at h
  simp [Network.fromFile, Save, readDouble, readInt, h]

/-- C6: the network constructed from the file that `Save` writes for a network has that network's
learning rate, as many layers, as many units in each layer, and for every unit the same weights
in the same order and the same bias. -/
theorem fromFile_Save_roundtrip (uninit : α) (net : Network α) :
    ∃ net1, Network.fromFile uninit (Save net) = Outcome.ok net1 ∧
      net1.learning_rate = net.learning_rate ∧
      net1.layers.length = net.layers.length ∧
      net1.layers.map (fun layer => layer.neurons.length)
        = net.layers.map (fun layer => layer.neurons.length) ∧
      fieldOf (fun unit => (unit.weights, unit.bias)) net1.layers
        = fieldOf (fun unit => (unit.weights, unit.bias)) net.layers := by
  refine ⟨_, fromFile_Save uninit net, rfl, by simp, ?_, ?_⟩
  · simp [resetLayer, Function.comp_def]
  · simp [fieldOf, resetLayer, resetUnit, Function.comp_def]


theorem loadNeurons_save :
    ∀ (units sources : List (Neuron α)) (rest : List (Tok α)),
      units.map (fun unit => unit.weights.length)
          = sources.map (fun unit => unit.weights.length) →
        loadNeurons units (saveNeurons sources ++ rest)
          = Outcome.ok (List.zipWith loadedUnit units sources, rest) := by
  intro units
  induction units with
  | nil =>
    intro sources rest h
    cases sources with
    | nil => rfl
    | cons s ss => simp at h
  | cons unit units ih =>
    intro sources rest h
    cases sources with
    | nil => simp at h
    | cons source sources =>
      simp only [List.map_cons, List.cons.injEq] at h
      simp only [saveNeurons, saveNeuron, List.cons_append, List.append_assoc, loadNeurons,
        readInt, h.1]
      simp [readDoubles_append, readDouble, ih sources rest h.2, loadedUnit]

theorem loadLayers_save :
    ∀ (layers sources : List (Layer α)) (rest : List (Tok α)),
      topologyOf layers = topologyOf sources →
        loadLayers layers (saveLayers sources ++ rest)
          = Outcome.ok (List.zipWith loadedLayer layers sources, rest) := by
  intro layers
  induction layers with
  | nil =>
    intro sources rest h
    cases sources with
    | nil => rfl
    | cons s ss => simp [topologyOf, fieldOf] at h
  | cons layer layers ih =>
    intro sources rest h
    cases sources with
    | nil => simp [topologyOf, fieldOf] at h
    | cons source sources =>
      simp only [topologyOf, fieldOf_cons, List.cons.injEq] at h
      have hlen : layer.neurons.length = source.neurons.length := by
        simpa using congrArg List.length h.1
      simp only [saveLayers, List.cons_append, List.append_assoc, loadLayers, readInt, hlen]
      simp [loadNeurons_save _ _ _ h.1, ih sources rest h.2, loadedLayer]

theorem Load_Save (net source : Network α) (h : topologyOf net.layers = topologyOf source.layers) :
    Load net (Save source)
      = Outcome.ok { layers := List.zipWith loadedLayer net.layers source.layers,
                     learning_rate := source.learning_rate } := by
  have hl := loadLayers_save net.layers source.layers [] h
  rw [List.append_nil] at hl
  have hlen : net.layers.length = source.layers.length := by
    have := congrArg List.length h
    simpa [topologyOf, fieldOf] using this
  simp [Load, Save, readDouble, readInt, hlen, hl]

theorem zipWith_loadedUnit {δ : Type} (f : Neuron α → δ)
    (hf : ∀ unit source : Neuron α, f (loadedUnit unit source) = f source) :
    ∀ (units sources : List (Neuron α)), units.length = sources.length →
      (List.zipWith loadedUnit units sources).map f = sources.map f := by
  intro units
  induction units with
  | nil =>
    intro sources h
    cases sources with
    | nil => rfl
    | cons s ss => simp at h
  | cons unit units ih =>
    intro sources h
    cases sources with
    | nil => simp at h
    | cons source sources =>
      simp only [List.length_cons, Nat.add_right_cancel_iff] at h
      simp [hf, ih sources h]

theorem fieldOf_zipWith_loadedLayer {δ : Type} (f : Neuron α → δ)
    (hf : ∀ unit source : Neuron α, f (loadedUnit unit source) = f source) :
    ∀ (layers sources : List (Layer α)), topologyOf layers = topologyOf sources →
      fieldOf f (List.zipWith loadedLayer layers sources) = fieldOf f sources := by
  intro layers
  induction layers with
  | nil =>
    intro sources h
    cases sources with
    | nil => rfl
    | cons s ss => simp [topologyOf, fieldOf] at h
  | cons layer layers ih =>
    intro sources h
    cases sources with
    | nil => simp [topologyOf, fieldOf] at h
    | cons source sources =>
      simp only [topologyOf, fieldOf_cons, List.cons.injEq] at h
      have hlen : layer.neurons.length = source.neurons.length := by
        simpa using congrArg List.length h.1
      simp only [List.zipWith_cons_cons, fieldOf_cons, loadedLayer,
        zipWith_loadedUnit f hf _ _ hlen, ih sources h.2]

/-- C7: when two networks have the same topology (layer count, unit count of every layer, weight
count of every unit), loading the file that `Save` writes for the one into the other succeeds,
and leaves it with the learning rate, the weights and the biases of the one saved. -/
theorem Load_Save_roundtrip (net source : Network α)
    (h : topologyOf net.layers = topologyOf source.layers) :
    ∃ net1, Load net (Save source) = Outcome.ok net1 ∧
      net1.learning_rate = source.learning_rate ∧
      fieldOf (fun unit => (unit.weights, unit.bias)) net1.layers
        = fieldOf (fun unit => (unit.weights, unit.bias)) source.layers :=
  ⟨_, Load_Save net source h, rfl,
    fieldOf_zipWith_loadedLayer (fun unit => (unit.weights, unit.bias)) (fun _ _ => rfl) _ _ h⟩

/-- Witness of C7: the 2-2-1 example network over the rationals, loaded with the file of a
network of the same topology. -/
theorem Load_Save_roundtrip_witness :
    ∃ net1, Load (exampleNetwork : Network ℚ) (Save (otherNetwork : Network ℚ))
        = Outcome.ok net1 ∧
      net1.learning_rate = (otherNetwork : Network ℚ).learning_rate ∧
      fieldOf (fun unit => (unit.weights, unit.bias)) net1.layers
        = fieldOf (fun unit => (unit.weights, unit.bias)) (otherNetwork : Network ℚ).layers :=
  Load_Save_roundtrip exampleNetwork otherNetwork (by decide)

theorem loadNeurons_save_mismatch :
    ∀ (units sources : List (Neuron α)) (rest : List (Tok α)),
      units.length = sources.length →
      units.map (fun unit => unit.weights.length)
          ≠ sources.map (fun unit => unit.weights.length) →
        ∃ units1,
          loadNeurons units (saveNeurons sources ++ rest)
            = Outcome.thrown (topologyMismatch, units1) ∧
          units1.map (fun unit => unit.weights.length)
            = units.map (fun unit => unit.weights.length) := by
  intro units
  induction units with
  | nil =>
    intro sources rest hlen h
    cases sources with
    | nil => exact absurd rfl h
    | cons s ss => simp at hlen
  | cons unit units ih =>
    intro sources rest hlen h
    cases sources with
    | nil => simp at hlen
    | cons source sources =>
      simp only [List.length_cons, Nat.add_right_cancel_iff] at hlen
      simp only [saveNeurons, saveNeuron, List.cons_append, List.append_assoc, loadNeurons,
        readInt]
      by_cases hw : unit.weights.length = source.weights.length
      · have htail : units.map (fun unit => unit.weights.length)
            ≠ sources.map (fun unit => unit.weights.length) := by
          intro heq
          exact h (by simp [hw, heq])
        obtain ⟨units1, h1, h2⟩ := ih sources rest hlen htail
        refine ⟨{ unit with weights := source.weights, bias := source.bias } :: units1, ?_, ?_⟩
        · simp [hw, readDoubles_append, readDouble, h1]
        · simp [hw, h2]
      · refine ⟨unit :: units, ?_, rfl⟩
        have hw1 : (source.weights.length : Int) ≠ (unit.weights.length : Int) := by
          intro heq
          exact hw (by exact_mod_cast heq.symm)
        simp [hw1]

theorem loadLayers_save_mismatch :
    ∀ (layers sources : List (Layer α)) (rest : List (Tok α)),
      layers.length = sources.length → topologyOf layers ≠ topologyOf sources →
        ∃ layers1,
          loadLayers layers (saveLayers sources ++ rest)
            = Outcome.thrown (topologyMismatch, layers1) ∧
          topologyOf layers1 = topologyOf layers := by
  intro layers
  induction layers with
  | nil =>
    intro sources rest hlen h
    cases sources with
    | nil => exact absurd rfl h
    | cons s ss => simp at hlen
  | cons layer layers ih =>
    intro sources rest hlen h
    cases sources with
    | nil => simp at hlen
    | cons source sources =>
      simp only [List.length_cons, Nat.add_right_cancel_iff] at hlen
      simp only [saveLayers, List.cons_append, List.append_assoc, loadLayers, readInt]
      by_cases hn : layer.neurons.length = source.neurons.length
      · by_cases hs : layer.neurons.map (fun unit => unit.weights.length)
            = source.neurons.map (fun unit => unit.weights.length)
        · have htail : topologyOf layers ≠ topologyOf sources := by
            intro heq
            exact h (by simp only [topologyOf, fieldOf_cons, hs]; exact congrArg _ heq)
          obtain ⟨layers1, h1, h2⟩ := ih sources rest hlen htail
          refine ⟨{ neurons := List.zipWith loadedUnit layer.neurons source.neurons } :: layers1,
            ?_, ?_⟩
          · simp [hn, loadNeurons_save _ _ _ hs, h1]
          · simp only [topologyOf, fieldOf_cons] at h2 ⊢
            rw [h2, zipWith_loadedUnit (fun unit => unit.weights.length) (fun _ _ => rfl) _ _ hn,
              hs]
        · obtain ⟨units1, h1, h2⟩ := loadNeurons_save_mismatch layer.neurons source.neurons
            (saveLayers sources ++ rest) hn hs
          refine ⟨{ neurons := units1 } :: layers, ?_, ?_⟩
          · simp [hn, h1]
          · simp only [topologyOf, fieldOf_cons, h2]
      · refine ⟨layer :: layers, ?_, rfl⟩
        have hn1 : (source.neurons.length : Int) ≠ (layer.neurons.length : Int) := by
          intro heq
          exact hn (by exact_mod_cast heq.symm)
        simp [hn1]

/-- C8 (amended): when the topology of the saved network differs from the target's at any point,
`Load` throws the topology-mismatch exception and leaves the target with its own topology; the
target's learning rate is then the saved one, and when the layer counts differ every layer of the
target, so every weight and every bias, is as before the call. -/
theorem Load_topology_mismatch (net source : Network α)
    (h : topologyOf source.layers ≠ topologyOf net.layers) :
    ∃ net1, Load net (Save source) = Outcome.thrown (topologyMismatch, net1) ∧
      net1.learning_rate = source.learning_rate ∧
      topologyOf net1.layers = topologyOf net.layers ∧
      (source.layers.length ≠ net.layers.length → net1.layers = net.layers) := by
  by_cases hlen : source.layers.length = net.layers.length
  · obtain ⟨layers1, h1, h2⟩ := loadLayers_save_mismatch net.layers source.layers []
      hlen.symm (fun heq => h heq.symm)
    rw [List.append_nil] at h1
    refine ⟨{ layers := layers1, learning_rate := source.learning_rate }, ?_, rfl, h2,
      fun hne => absurd hlen hne⟩
    simp [Load, Save, readDouble, readInt, hlen, h1]
  · refine ⟨{ net with learning_rate := source.learning_rate }, ?_, rfl, rfl, fun _ => rfl⟩
    have hlen1 : (source.layers.length : Int) ≠ (net.layers.length : Int) := by
      intro heq
      exact hlen (by exact_mod_cast heq)
    simp [Load, Save, readDouble, readInt, hlen1]

/-- Witness of C8 (amended): a one-layer network with two one-weight units, loaded with the file
of a network whose second unit has two weights. -/
theorem Load_topology_mismatch_witness :
    ∃ net1, Load (pairNetwork : Network ℚ) (Save (pairSource : Network ℚ))
        = Outcome.thrown (topologyMismatch, net1) ∧
      net1.learning_rate = (pairSource : Network ℚ).learning_rate ∧
      topologyOf net1.layers = topologyOf (pairNetwork : Network ℚ).layers ∧
      ((pairSource : Network ℚ).layers.length ≠ (pairNetwork : Network ℚ).layers.length →
        net1.layers = (pairNetwork : Network ℚ).layers) :=
  Load_topology_mismatch pairNetwork pairSource (by decide)

/-- Counterexample to C8 as stated: the second unit of the saved network has two weights where the
target's has one; `Load` throws the topology-mismatch exception only after it has overwritten the
target's learning rate and the weight and bias of the target's first unit. -/
theorem Load_mismatch_overwrites_pairNetwork :
    topologyOf (pairSource : Network ℚ).layers
      ≠ topologyOf (pairNetwork : Network ℚ).layers ∧
    Load (pairNetwork : Network ℚ) (Save (pairSource : Network ℚ))
      = Outcome.thrown (topologyMismatch, pairNetworkAfter) ∧
    (pairNetworkAfter : Network ℚ).learning_rate ≠ (pairNetwork : Network ℚ).learning_rate ∧
    unitAt (pairNetworkAfter : Network ℚ).layers 0 0
      ≠ unitAt (pairNetwork : Network ℚ).layers 0 0 := by
  decide

/-- C9: `Load` of the file that `Save` writes for a network throws the topology-mismatch exception
exactly when that network's topology differs from the target's in the layer count, in the unit
count of some layer, or in the weight count of some unit. -/
theorem Load_throws_iff_topology_differs (net source : Network α) :
    (∃ state, Load net (Save source) = Outcome.thrown (topologyMismatch, state))
      ↔ topologyOf source.layers ≠ topologyOf net.layers := by
  constructor
  · rintro ⟨state, hthrown⟩ heq
    rw [Load_Save net source heq.symm] at hthrown
    exact Outcome.noConfusion hthrown
  · intro h
    by_cases hlen : source.layers.length = net.layers.length
    · obtain ⟨layers1, h1, _⟩ := loadLayers_save_mismatch net.layers source.layers []
        hlen.symm (fun heq => h heq.symm)
      rw [List.append_nil] at h1
      exact ⟨{ layers := layers1, learning_rate := source.learning_rate },
        by simp [Load, Save, readDouble, readInt, hlen, h1]⟩
    · have hlen1 : (source.layers.length : Int) ≠ (net.layers.length : Int) := by
        intro heq
        exact hlen (by exact_mod_cast heq)
      exact ⟨{ net with learning_rate := source.learning_rate },
        by simp [Load, Save, readDouble, readInt, hlen1]⟩

/-! ## Construction from a topology -/

theorem neuronsLoop_ok (rand : Nat → α) (uninit : α) (input_neurons_count : Int)
    (hin : 0 ≤ input_neurons_count) :
    ∀ (count g : Nat), ∃ units g1,
      Layer.neuronsLoop rand uninit input_neurons_count count g = Outcome.ok (units, g1) ∧
      units.length = count ∧
      ∀ unit ∈ units, (unit.weights.length : Int) = input_neurons_count := by
  intro count
  induction count with
  | zero => intro g; exact ⟨[], g, rfl, rfl, by simp⟩
  | succ count ih =>
    intro g
    obtain ⟨units, g1, h1, h2, h3⟩ := ih (g + input_neurons_count.toNat + 1)
    refine ⟨{ weights := (List.range input_neurons_count.toNat).map (fun i => rand (g + i)),
              output := uninit,
              error := uninit,
              bias := rand (g + input_neurons_count.toNat) } :: units, g1, ?_, by simp [h2], ?_⟩
    · simp only [Layer.neuronsLoop, Neuron.Neuron, not_lt.mpr hin, ↓reduceIte, h1]
    · intro unit hu
      rcases List.mem_cons.mp hu with rfl | hu
      · simp [Int.toNat_of_nonneg hin]
      · exact h3 unit hu

theorem Layer_ok (rand : Nat → α) (uninit : α) (input_neurons_count neurons_count : Int)
    (hin : 0 ≤ input_neurons_count) (hn : 0 ≤ neurons_count) (g : Nat) :
    ∃ layer g1,
      Layer.Layer rand uninit input_neurons_count neurons_count g = Outcome.ok (layer, g1) ∧
      (layer.neurons.length : Int) = neurons_count ∧
      ∀ unit ∈ layer.neurons, (unit.weights.length : Int) = input_neurons_count := by
  obtain ⟨units, g1, h1, h2, h3⟩ :=
    neuronsLoop_ok rand uninit input_neurons_count hin neurons_count.toNat g
  refine ⟨{ neurons := units }, g1, ?_, ?_, h3⟩
  · simp only [Layer.Layer, not_lt.mpr hn, ↓reduceIte, h1]
  · simp [h2, Int.toNat_of_nonneg hn]

theorem layersLoop_ok (rand : Nat → α) (uninit : α) :
    ∀ (topology : List Int) (g : Nat), (∀ t ∈ topology, 0 ≤ t) →
      ∃ layers g1,
        Network.layersLoop rand uninit topology g = Outcome.ok (layers, g1) ∧
        layers.length = topology.length - 1 ∧
        ∀ (i : Nat) (layer : Layer α), layers[i]? = some layer →
          ∃ a b, topology[i]? = some a ∧ topology[i + 1]? = some b ∧
            (layer.neurons.length : Int) = b ∧
            ∀ unit ∈ layer.neurons, (unit.weights.length : Int) = a := by
  intro topology
  induction topology with
  | nil => intro g _; exact ⟨[], g, rfl, rfl, by simp⟩
  | cons a rest ih =>
    intro g h
    cases rest with
    | nil => exact ⟨[], g, rfl, rfl, by simp⟩
    | cons b rest =>
      obtain ⟨layer, g1, hl1, hl2, hl3⟩ := Layer_ok rand uninit a b
        (h a (List.mem_cons_self _ _))
        (h b (List.mem_cons_of_mem _ (List.mem_cons_self _ _))) g
      obtain ⟨layers, g2, h1, h2, h3⟩ := ih g1 (fun t ht => h t (List.mem_cons_of_mem _ ht))
      refine ⟨layer :: layers, g2, ?_, ?_, ?_⟩
      · simp only [Network.layersLoop, hl1, h1]
      · simp only [List.length_cons] at h2 ⊢
        omega
      · intro i layer0 hi
        cases i with
        | zero =>
          simp only [List.getElem?_cons_zero, Option.some.injEq] at hi
          subst hi
          exact ⟨a, b, by simp, by simp, hl2, hl3⟩
        | succ i =>
          simp only [List.getElem?_cons_succ] at hi
          obtain ⟨a1, b1, ha1, hb1, hrest⟩ := h3 i layer0 hi
          exact ⟨a1, b1, by simpa using ha1, by simpa using hb1, hrest⟩

/-- C10: for a topology of at least two positive integers and any learning rate, the constructor
returns a network that has `len(topology) - 1` layers and the given learning rate; layer `i` has
`topology[i + 1]` units, each with `topology[i]` weights; so every unit of a layer after the first
has as many weights as the layer before it has units. -/
theorem fromTopology_shape (rand : Nat → α) (uninit : α) (topology : List Int) (rate : α)
    (g : Nat) (hlen : 2 ≤ topology.length) (hpos : ∀ t ∈ topology, 0 < t) :
    ∃ net g1,
      Network.fromTopology rand uninit topology rate g = Outcome.ok (net, g1) ∧
      net.layers.length = topology.length - 1 ∧
      net.learning_rate = rate ∧
      (∀ (i : Nat) (layer : Layer α), net.layers[i]? = some layer →
        ∃ a b, topology[i]? = some a ∧ topology[i + 1]? = some b ∧
          (layer.neurons.length : Int) = b ∧
          ∀ unit ∈ layer.neurons, (unit.weights.length : Int) = a) ∧
      ∀ (i : Nat) (previous layer : Layer α), net.layers[i]? = some previous →
        net.layers[i + 1]? = some layer →
          ∀ unit ∈ layer.neurons, unit.weights.length = previous.neurons.length := by
  obtain ⟨layers, g1, h1, h2, h3⟩ := layersLoop_ok rand uninit topology g
    (fun t ht => le_of_lt (hpos t ht))
  have hne : topology.length ≠ 0 := by omega
  refine ⟨{ layers := layers, learning_rate := rate }, g1, ?_, h2, rfl, h3, ?_⟩
  · simp only [Network.fromTopology, hne, ↓reduceIte, h1]
  · intro i previous layer hp hl unit hu
    obtain ⟨a, b, _, hb, hn, _⟩ := h3 i previous hp
    obtain ⟨a1, _, ha1, _, _, hw⟩ := h3 (i + 1) layer hl
    rw [hb] at ha1
    simp only [Option.some.injEq] at ha1
    subst ha1
    have := hw unit hu
    omega

/-- Witness of C10: the topology 2-3-2 of the example program, with learning rate 1. -/
theorem fromTopology_shape_witness :
    ∃ net g1,
      Network.fromTopology (fun n => (n : ℚ)) 0 [2, 3, 2] 1 0 = Outcome.ok (net, g1) ∧
      net.layers.length = ([2, 3, 2] : List Int).length - 1 ∧
      net.learning_rate = 1 ∧
      (∀ (i : Nat) (layer : Layer ℚ), net.layers[i]? = some layer →
        ∃ a b, ([2, 3, 2] : List Int)[i]? = some a ∧ ([2, 3, 2] : List Int)[i + 1]? = some b ∧
          (layer.neurons.length : Int) = b ∧
          ∀ unit ∈ layer.neurons, (unit.weights.length : Int) = a) ∧
      ∀ (i : Nat) (previous layer : Layer ℚ), net.layers[i]? = some previous →
        net.layers[i + 1]? = some layer →
          ∀ unit ∈ layer.neurons, unit.weights.length = previous.neurons.length :=
  fromTopology_shape (fun n => (n : ℚ)) 0 [2, 3, 2] 1 0 (by decide) (by decide)

theorem neuronsLoop_thrown (rand : Nat → α) (uninit : α) (input_neurons_count : Int)
    (hin : input_neurons_count < 0) (count g : Nat) :
    Layer.neuronsLoop rand uninit input_neurons_count (count + 1) g
      = Outcome.thrown Exn.length_error := by
  simp only [Layer.neuronsLoop, Neuron.Neuron, hin, ↓reduceIte]

theorem Layer_thrown (rand : Nat → α) (uninit : α) (a b : Int) (g : Nat)
    (h : layerThrows a b = true) :
    Layer.Layer rand uninit a b g = Outcome.thrown Exn.length_error := by
  simp only [layerThrows, Bool.or_eq_true, Bool.and_eq_true, decide_eq_true_eq] at h
  rcases h with hb | ⟨hb, ha⟩
  · simp only [Layer.Layer, hb, ↓reduceIte]
  · obtain ⟨n, hn⟩ : ∃ n : Nat, b.toNat = n + 1 := ⟨b.toNat - 1, by omega⟩
    simp only [Layer.Layer, not_lt.mpr (le_of_lt hb), ↓reduceIte, hn,
      neuronsLoop_thrown rand uninit a ha]

theorem Layer_ok_of_not_throws (rand : Nat → α) (uninit : α) (a b : Int) (g : Nat)
    (h : layerThrows a b = false) :
    ∃ layer g1, Layer.Layer rand uninit a b g = Outcome.ok (layer, g1) := by
  simp only [layerThrows, Bool.or_eq_false_iff, Bool.and_eq_false_iff, decide_eq_false_iff_not,
    not_lt] at h
  obtain ⟨hb, hab⟩ := h
  rcases hab with hb0 | ha
  · have : b = 0 := le_antisymm hb0 hb
    subst this
    exact ⟨{ neurons := [] }, g, by simp [Layer.Layer, Layer.neuronsLoop]⟩
  · obtain ⟨layer, g1, h1, _⟩ := Layer_ok rand uninit a b ha hb g
    exact ⟨layer, g1, h1⟩

theorem layersLoop_outcome (rand : Nat → α) (uninit : α) :
    ∀ (topology : List Int) (g : Nat),
      (someLayerThrows topology = true →
        Network.layersLoop rand uninit topology g = Outcome.thrown Exn.length_error) ∧
      (someLayerThrows topology = false →
        ∃ layers g1, Network.layersLoop rand uninit topology g = Outcome.ok (layers, g1) ∧
          layers.length = topology.length - 1) := by
  intro topology
  induction topology with
  | nil =>
    intro g
    exact ⟨fun h => by simp [someLayerThrows] at h, fun _ => ⟨[], g, rfl, rfl⟩⟩
  | cons a rest ih =>
    intro g
    cases rest with
    | nil => exact ⟨fun h => by simp [someLayerThrows] at h, fun _ => ⟨[], g, rfl, rfl⟩⟩
    | cons b rest =>
      cases hab : layerThrows a b with
      | true =>
        refine ⟨fun _ => ?_, fun h => by simp [someLayerThrows, hab] at h⟩
        simp only [Network.layersLoop, Layer_thrown rand uninit a b g hab]
      | false =>
        obtain ⟨layer, g1, hl⟩ := Layer_ok_of_not_throws rand uninit a b g hab
        obtain ⟨hthrow, hok⟩ := ih g1
        refine ⟨fun h => ?_, fun h => ?_⟩
        · simp only [someLayerThrows, hab, Bool.false_or] at h
          simp only [Network.layersLoop, hl, hthrow h]
        · simp only [someLayerThrows, hab, Bool.false_or] at h
          obtain ⟨layers, g2, h1, h2⟩ := hok h
          refine ⟨layer :: layers, g2, ?_, ?_⟩
          · simp only [Network.layersLoop, hl, h1]
          · simp only [List.length_cons] at h2 ⊢
            omega

theorem someLayerThrows_of_negative :
    ∀ (topology : List Int) (i : Nat) (t : Int), topology[i + 1]? = some t → t < 0 →
      someLayerThrows topology = true := by
  intro topology
  induction topology with
  | nil => intro i t h; simp at h
  | cons a rest ih =>
    intro i t h ht
    cases rest with
    | nil => simp at h
    | cons b rest =>
      simp only [List.getElem?_cons_succ] at h
      cases i with
      | zero =>
        simp only [List.getElem?_cons_zero, Option.some.injEq] at h
        subst h
        simp [someLayerThrows, layerThrows, ht]
      | succ i =>
        have := ih i t (by simpa using h) ht
        simp [someLayerThrows, this]

/-- C11 (amended): the constructor from a topology has no validity check of its own. It throws,
with `std::length_error`, exactly when the topology is empty or some
`Layer(topology[i], topology[i + 1])` is asked for a negative number of units, or for a positive
number of units with a negative number of weights; so it throws when an entry after the first is
negative. In every other case it returns a network of `len(topology) - 1` layers, so for every
topology that is not empty and has no negative entry: one entry, or entries equal to 0, are
accepted. -/
theorem fromTopology_throws_iff (rand : Nat → α) (uninit : α) (topology : List Int) (rate : α)
    (g : Nat) :
    (Network.fromTopology rand uninit topology rate g = Outcome.thrown Exn.length_error
      ↔ topology = [] ∨ someLayerThrows topology = true) ∧
    ((∃ (i : Nat) (t : Int), topology[i + 1]? = some t ∧ t < 0) →
      Network.fromTopology rand uninit topology rate g = Outcome.thrown Exn.length_error) ∧
    (topology ≠ [] → (∀ t ∈ topology, 0 ≤ t) →
      ∃ net g1, Network.fromTopology rand uninit topology rate g = Outcome.ok (net, g1) ∧
        net.layers.length = topology.length - 1) ∧
    (topology ≠ [] → someLayerThrows topology = false →
      ∃ net g1, Network.fromTopology rand uninit topology rate g = Outcome.ok (net, g1) ∧
        net.layers.length = topology.length - 1) := by
  obtain ⟨hthrow, hok⟩ := layersLoop_outcome rand uninit topology g
  have hiff : Network.fromTopology rand uninit topology rate g = Outcome.thrown Exn.length_error
      ↔ topology = [] ∨ someLayerThrows topology = true := by
    cases topology with
    | nil => simp [Network.fromTopology]
    | cons a rest =>
      cases hs : someLayerThrows (a :: rest) with
      | true => simp [Network.fromTopology, hthrow hs]
      | false =>
        obtain ⟨layers, g1, h1, _⟩ := hok hs
        simp [Network.fromTopology, h1]
  refine ⟨hiff, ?_, ?_, ?_⟩
  · rintro ⟨i, t, hi, ht⟩
    exact hiff.mpr (Or.inr (someLayerThrows_of_negative topology i t hi ht))
  · intro hne hnonneg
    obtain ⟨layers, g1, h1, h2, _⟩ := layersLoop_ok rand uninit topology g hnonneg
    have hlen : topology.length ≠ 0 := fun h0 => hne (List.length_eq_zero.mp h0)
    exact ⟨{ layers := layers, learning_rate := rate }, g1,
      by simp only [Network.fromTopology, hlen, ↓reduceIte, h1], h2⟩
  · intro hne hs
    obtain ⟨layers, g1, h1, h2⟩ := hok hs
    have hlen : topology.length ≠ 0 := fun h0 => hne (List.length_eq_zero.mp h0)
    exact ⟨{ layers := layers, learning_rate := rate }, g1,
      by simp only [Network.fromTopology, hlen, ↓reduceIte, h1], h2⟩

/-- Counterexample to C11 as stated: the topology `[3]` yields a network without layers, and the
topology `[2, 0, 1]` yields a network of two layers, the first without units and the second with
one unit without weights; neither construction fails. -/
theorem fromTopology_accepts_degenerate :
    Network.fromTopology (fun n => (n : ℚ)) 0 [3] 1 0
      = Outcome.ok ({ layers := [], learning_rate := 1 }, 0) ∧
    Network.fromTopology (fun n => (n : ℚ)) 0 [2, 0, 1] 1 0
      = Outcome.ok
          ({ layers :=
               [{ neurons := [] },
                { neurons := [{ weights := [], output := 0, error := 0, bias := 0 }] }],
             learning_rate := 1 }, 1) := by
  decide

/-! ## `Predict` reads the weights, the biases and the input only -/

theorem activate_congr [Field α] (exp : α → α) (x : List α) (unit other unit1 : Neuron α)
    (hw : other.weights = unit.weights) (hb : other.bias = unit.bias)
    (h : activate exp x unit = some unit1) :
    activate exp x other = some { other with output := unit1.output } := by
  obtain ⟨sum, hsum, rfl⟩ := activate_some exp x unit unit1 h
  simp only [activate, hw, hb, hsum]

theorem forEachIdx_activate_congr [Field α] (exp : α → α) (x : List α) :
    ∀ (units others : List (Neuron α)) (k : Nat) (units1 : List (Neuron α)),
      others.map (fun u => (u.weights, u.bias)) = units.map (fun u => (u.weights, u.bias)) →
      forEachIdx (fun _ u => activate exp x u) units k = some units1 →
        ∃ others1, forEachIdx (fun _ u => activate exp x u) others k = some others1 ∧
          others1.map Neuron.output = units1.map Neuron.output := by
  intro units
  induction units with
  | nil =>
    intro others k units1 hmap h
    cases others with
    | nil =>
      simp only [forEachIdx, Option.some.injEq] at h
      subst h
      exact ⟨[], rfl, rfl⟩
    | cons o os => simp at hmap
  | cons unit units ih =>
    intro others k units1 hmap h
    cases others with
    | nil => simp at hmap
    | cons other others =>
      simp only [List.map_cons, List.cons.injEq, Prod.mk.injEq] at hmap
      rw [forEachIdx] at h
      cases hu : activate exp x unit with
      | none => simp [hu] at h
      | some u1 =>
        cases hr : forEachIdx (fun _ u => activate exp x u) units (k + 1) with
        | none => simp [hu, hr] at h
        | some us1 =>
          simp only [hu, hr, Option.some.injEq] at h
          subst h
          obtain ⟨os1, h1, h2⟩ := ih others (k + 1) us1 hmap.2 hr
          refine ⟨{ other with output := u1.output } :: os1, ?_, by simp [h2]⟩
          simp only [forEachIdx, activate_congr exp x unit other u1 hmap.1.1 hmap.1.2 hu, h1]

theorem forward_congr [Field α] (exp : α → α) :
    ∀ (layers others : List (Layer α)) (x outputs0 outputs : List α)
      (layers1 : List (Layer α)),
      fieldOf (fun u => (u.weights, u.bias)) others
          = fieldOf (fun u => (u.weights, u.bias)) layers →
      forward exp x outputs0 layers = some (outputs, layers1) →
        ∃ others1, forward exp x outputs0 others = some (outputs, others1) := by
  intro layers
  induction layers with
  | nil =>
    intro others x outputs0 outputs layers1 hf h
    cases others with
    | nil => exact ⟨layers1, h⟩
    | cons o os => simp [fieldOf] at hf
  | cons layer rest ih =>
    intro others x outputs0 outputs layers1 hf h
    cases others with
    | nil => simp [fieldOf] at hf
    | cons other others =>
      simp only [fieldOf_cons, List.cons.injEq] at hf
      rw [forward] at h
      cases hact : forEach (activate exp x) layer.neurons with
      | none => simp [hact] at h
      | some units1 =>
        simp only [hact] at h
        cases hrest : forward exp (units1.map Neuron.output) (units1.map Neuron.output) rest with
        | none => simp [hrest] at h
        | some r =>
          obtain ⟨outs, rest1⟩ := r
          simp only [hrest, Option.some.injEq, Prod.mk.injEq] at h
          obtain ⟨hout, _⟩ := h
          subst hout
          obtain ⟨others1, ho1, ho2⟩ :=
            forEachIdx_activate_congr exp x layer.neurons other.neurons 0 units1 hf.1 hact
          obtain ⟨rest2, hr2⟩ := ih others _ _ _ _ hf.2 hrest
          refine ⟨{ neurons := others1 } :: rest2, ?_⟩
          simp only [forward, forEach, ho1, ho2, hr2]

/-- C12: when `Predict` returns a vector for an input, a second call with the same input on the
network the first call left returns the same vector; the first call changes no weight and no
bias; and so does `Predict` return that vector on any network with the same weights and biases,
whatever its `output` and `error` fields and its learning rate are. -/
theorem Predict_deterministic [Field α] (exp : α → α) (net net1 : Network α)
    (inputs outputs : List α) (h : Predict exp net inputs = some (outputs, net1)) :
    (∃ net2, Predict exp net1 inputs = some (outputs, net2)) ∧
    fieldOf (fun u => (u.weights, u.bias)) net1.layers
      = fieldOf (fun u => (u.weights, u.bias)) net.layers ∧
    ∀ other : Network α,
      fieldOf (fun u => (u.weights, u.bias)) other.layers
          = fieldOf (fun u => (u.weights, u.bias)) net.layers →
        ∃ other1, Predict exp other inputs = some (outputs, other1) := by
  unfold Predict at h
  cases hf : forward exp inputs [] net.layers with
  | none => simp [hf] at h
  | some r =>
    obtain ⟨outs, layers1⟩ := r
    simp only [hf, Option.some.injEq, Prod.mk.injEq] at h
    obtain ⟨hout, hnet⟩ := h
    subst hout hnet
    have hframe := forward_fieldOf exp (fun u : Neuron α => (u.weights, u.bias))
      (fun _ _ => rfl) _ _ _ _ _ hf
    have hany : ∀ other : Network α,
        fieldOf (fun u => (u.weights, u.bias)) other.layers
            = fieldOf (fun u => (u.weights, u.bias)) net.layers →
          ∃ other1, Predict exp other inputs = some (outs, other1) := by
      intro other ho
      obtain ⟨others1, h1⟩ := forward_congr exp _ _ _ _ _ _ ho hf
      exact ⟨{ other with layers := others1 }, by simp only [Predict, h1]⟩
    exact ⟨hany { net with layers := layers1 } hframe, hframe, hany⟩

/-- Witness of C12: the one-unit network over the reals on the input `[1]`. -/
theorem Predict_deterministic_witness :
    (∃ net2, Predict Real.exp (unitNetworkPredicted Real.exp) [1]
      = some ([sigmoid Real.exp (0 + 0 * 1)], net2)) ∧
    fieldOf (fun u => (u.weights, u.bias)) (unitNetworkPredicted Real.exp).layers
      = fieldOf (fun u => (u.weights, u.bias)) (unitNetwork : Network ℝ).layers ∧
    ∀ other : Network ℝ,
      fieldOf (fun u => (u.weights, u.bias)) other.layers
          = fieldOf (fun u => (u.weights, u.bias)) (unitNetwork : Network ℝ).layers →
        ∃ other1, Predict Real.exp other [1]
          = some ([sigmoid Real.exp (0 + 0 * 1)], other1) :=
  Predict_deterministic Real.exp unitNetwork (unitNetworkPredicted Real.exp) [1]
    [sigmoid Real.exp (0 + 0 * 1)] rfl

/-! ## The binary format -/

theorem saveNeurons_eq_flatMap (units : List (Neuron α)) :
    saveNeurons units
      = units.flatMap (fun unit =>
          Tok.i32 unit.weights.length :: (unit.weights.map Tok.f64 ++ [Tok.f64 unit.bias])) := by
  induction units with
  | nil => rfl
  | cons unit units ih => simp only [saveNeurons, saveNeuron, ih, List.flatMap_cons]

theorem saveLayers_eq_flatMap (layers : List (Layer α)) :
    saveLayers layers
      = layers.flatMap (fun layer =>
          Tok.i32 layer.neurons.length ::
            layer.neurons.flatMap (fun unit =>
              Tok.i32 unit.weights.length ::
                (unit.weights.map Tok.f64 ++ [Tok.f64 unit.bias]))) := by
  induction layers with
  | nil => rfl
  | cons layer layers ih =>
    simp only [saveLayers, saveNeurons_eq_flatMap, ih, List.flatMap_cons, List.cons_append]

theorem fileSize_append (a b : List (Tok α)) : fileSize (a ++ b) = fileSize a + fileSize b := by
  simp [fileSize]

theorem fileSize_cons (t : Tok α) (a : List (Tok α)) :
    fileSize (t :: a) = t.size + fileSize a := by
  simp [fileSize]

theorem fileSize_map_f64 (ws : List α) : fileSize (ws.map Tok.f64) = 8 * ws.length := by
  induction ws with
  | nil => rfl
  | cons w ws ih =>
    rw [List.map_cons, fileSize_cons, ih]
    simp only [Tok.size, List.length_cons]
    omega

theorem fileSize_saveNeurons (units : List (Neuron α)) :
    fileSize (saveNeurons units)
      = (units.map (fun unit => 12 + 8 * unit.weights.length)).sum := by
  induction units with
  | nil => rfl
  | cons unit units ih =>
    rw [saveNeurons, fileSize_append, ih, saveNeuron, fileSize_cons, fileSize_append,
      fileSize_map_f64]
    simp only [fileSize, Tok.size, List.map_cons, List.map_nil, List.sum_cons, List.sum_nil]
    omega

theorem fileSize_saveLayers (layers : List (Layer α)) :
    fileSize (saveLayers layers)
      = (layers.map (fun layer =>
          4 + (layer.neurons.map (fun unit => 12 + 8 * unit.weights.length)).sum)).sum := by
  induction layers with
  | nil => rfl
  | cons layer layers ih =>
    rw [saveLayers, fileSize_cons, fileSize_append, ih, fileSize_saveNeurons]
    simp only [Tok.size, List.map_cons, List.sum_cons]
    omega

/-- C13: the values `Save` writes are, in this order and nothing else, the learning rate
(float64), the layer count (int32), then for each layer its unit count (int32) and for each of
its units the weight count (int32), the weights in index order (float64 each) and the bias
(float64); the file is `12 + Σ_layers (4 + Σ_units (12 + 8 * weight_count))` bytes long. -/
theorem Save_format (net : Network α) :
    Save net = saveSpec net ∧
    fileSize (Save net)
      = 12 + (net.layers.map (fun layer =>
          4 + (layer.neurons.map (fun unit => 12 + 8 * unit.weights.length)).sum)).sum := by
  refine ⟨?_, ?_⟩
  · simp only [Save, saveSpec, saveLayers_eq_flatMap, List.cons_append, List.nil_append]
  · rw [Save, fileSize_cons, fileSize_cons, fileSize_saveLayers]
    simp only [Tok.size]
    omega

/-! ## `Save` writes neither `output` nor `error` -/

theorem saveNeurons_congr :
    ∀ (units others : List (Neuron α)),
      others.map (fun u => (u.weights, u.bias)) = units.map (fun u => (u.weights, u.bias)) →
        saveNeurons others = saveNeurons units := by
  intro units
  induction units with
  | nil =>
    intro others h
    cases others with
    | nil => rfl
    | cons o os => simp at h
  | cons unit units ih =>
    intro others h
    cases others with
    | nil => simp at h
    | cons other others =>
      simp only [List.map_cons, List.cons.injEq, Prod.mk.injEq] at h
      simp only [saveNeurons, saveNeuron, h.1.1, h.1.2, ih others h.2]

theorem saveLayers_congr :
    ∀ (layers others : List (Layer α)),
      fieldOf (fun u => (u.weights, u.bias)) others
          = fieldOf (fun u => (u.weights, u.bias)) layers →
        saveLayers others = saveLayers layers := by
  intro layers
  induction layers with
  | nil =>
    intro others h
    cases others with
    | nil => rfl
    | cons o os => simp [fieldOf] at h
  | cons layer layers ih =>
    intro others h
    cases others with
    | nil => simp [fieldOf] at h
    | cons other others =>
      simp only [fieldOf_cons, List.cons.injEq] at h
      have hlen : other.neurons.length = layer.neurons.length := by
        simpa using congrArg List.length h.1
      simp only [saveLayers, hlen, saveNeurons_congr _ _ h.1, ih others h.2]

/-- C16 (amended): `Save` writes the learning rate, the counts, the weights and the biases, and
neither the `output` nor the `error` of a unit: two networks with the same learning rate, weights
and biases, whatever their `output` and `error` fields, are written as the same values. -/
theorem Save_ignores_output_and_error (net other : Network α)
    (hrate : other.learning_rate = net.learning_rate)
    (h : fieldOf (fun u => (u.weights, u.bias)) other.layers
      = fieldOf (fun u => (u.weights, u.bias)) net.layers) :
    Save other = Save net := by
  have hlen : other.layers.length = net.layers.length := by
    rw [← fieldOf_length (fun u : Neuron α => (u.weights, u.bias)) other.layers, h,
      fieldOf_length]
  simp only [Save, hrate, hlen, saveLayers_congr _ _ h]

/-- Witness of C16 (amended): the 2-2-1 example network and the same network with other `output`
and `error` values. -/
theorem Save_ignores_output_and_error_witness :
    Save (exampleNetworkUsed : Network ℚ) = Save (exampleNetwork : Network ℚ) :=
  Save_ignores_output_and_error exampleNetwork exampleNetworkUsed (by decide) (by decide)

/-- Counterexample to C16 as stated: two networks that differ in the `output` and in the `error`
of every unit, and in nothing else, for which `Save` writes the same values. -/
theorem Save_equal_on_different_output_and_error :
    fieldOf Neuron.output (exampleNetworkUsed : Network ℚ).layers
      ≠ fieldOf Neuron.output (exampleNetwork : Network ℚ).layers ∧
    fieldOf Neuron.error (exampleNetworkUsed : Network ℚ).layers
      ≠ fieldOf Neuron.error (exampleNetwork : Network ℚ).layers ∧
    Save (exampleNetworkUsed : Network ℚ) = Save (exampleNetwork : Network ℚ) := by
  decide

/-! ## The topology is fixed -/

theorem Train_thrown [Field α] (exp : α → α) (net state : Network α)
    (inputs targets : List α)
    (e : Exn) (h : Train exp net inputs targets = Outcome.thrown (e, state)) :
    e = targetSizeMismatch ∧ state = net := by
  unfold Train at h
  cases hlast : net.layers.getLast? with
  | none => simp [hlast] at h
  | some last =>
    simp only [hlast] at h
    by_cases hlen : targets.length = last.neurons.length
    · simp only [hlen, ne_eq, not_true_eq_false, ↓reduceIte] at h
      cases hp : Predict exp net inputs with
      | none => simp [hp] at h
      | some r =>
        simp only [hp] at h
        cases h2 : outputLayer targets r.2.layers with
        | none => simp [h2] at h
        | some layers2 =>
          simp only [h2] at h
          cases h3 : hiddenLayers layers2 with
          | none => simp [h3] at h
          | some layers3 =>
            simp only [h3] at h
            cases h4 : update r.2.learning_rate inputs layers3 with
            | none => simp [h4] at h
            | some layers4 => simp [h4] at h
    · simp only [ne_eq, hlen, not_false_eq_true, ↓reduceIte, Outcome.thrown.injEq,
        Prod.mk.injEq] at h
      exact ⟨h.1.symm, h.2.symm⟩

theorem update_topologyOf [Field α] (rate : α) (layers : List (Layer α)) (x : List α)
    (layers4 : List (Layer α)) (h : update rate x layers = some layers4) :
    topologyOf layers4 = topologyOf layers := by
  obtain ⟨hlen, hget⟩ := update_some rate layers x layers4 h
  refine fieldOf_eq_of_pointwise _ layers layers4 hlen (fun i layer hi => ?_)
  obtain ⟨layer4, xi, h4, _, hfe⟩ := hget i layer hi
  refine ⟨layer4, h4, forEachIdx_map _ _ _ (fun _ u u4 hu => ?_) _ _ _ hfe⟩
  obtain ⟨ws, hws, rfl⟩ := updateNeuron_some rate xi u u4 hu
  exact (forEachIdx_some _ _ _ _ hws).1

theorem Train_topologyOf [Field α] (exp : α → α) (net net1 : Network α)
    (inputs targets : List α) (h : Train exp net inputs targets = Outcome.ok net1) :
    topologyOf net1.layers = topologyOf net.layers := by
  obtain ⟨_, outputs, layers1, layers2, layers3, _, _, hf, h2, h3, h4, _⟩ :=
    Train_ok exp net net1 inputs targets h
  rw [update_topologyOf _ _ _ _ h4]
  unfold topologyOf
  rw [hiddenLayers_fieldOf (fun u => u.weights.length) (fun _ _ => rfl) _ _ h3,
    outputLayer_fieldOf (fun u => u.weights.length) (fun _ _ => rfl) _ _ _ h2,
    forward_fieldOf exp (fun u => u.weights.length) (fun _ _ => rfl) _ _ _ _ _ hf]

theorem readDoubles_length :
    ∀ (count : Nat) (file : List (Tok α)) (ws : List α) (rest : List (Tok α)),
      readDoubles count file = some (ws, rest) → ws.length = count := by
  intro count
  induction count with
  | zero =>
    intro file ws rest h
    simp only [readDoubles, Option.some.injEq, Prod.mk.injEq] at h
    rw [← h.1]
    rfl
  | succ count ih =>
    intro file ws rest h
    rw [readDoubles] at h
    cases h1 : readDouble file with
    | none => simp [h1] at h
    | some r1 =>
      obtain ⟨x, file1⟩ := r1
      simp only [h1] at h
      cases h2 : readDoubles count file1 with
      | none => simp [h2] at h
      | some r2 =>
        obtain ⟨xs, file2⟩ := r2
        simp only [h2, Option.some.injEq, Prod.mk.injEq] at h
        rw [← h.1, List.length_cons, ih file1 xs file2 h2]

theorem loadNeurons_topologyOf :
    ∀ (units : List (Neuron α)) (file : List (Tok α)),
      (∀ units1 rest, loadNeurons units file = Outcome.ok (units1, rest) →
        units1.map (fun u => u.weights.length) = units.map (fun u => u.weights.length)) ∧
      (∀ e units1, loadNeurons units file = Outcome.thrown (e, units1) →
        units1.map (fun u => u.weights.length) = units.map (fun u => u.weights.length)) := by
  intro units
  induction units with
  | nil =>
    intro file
    refine ⟨fun units1 rest h => ?_, fun e units1 h => ?_⟩
    · simp only [loadNeurons, Outcome.ok.injEq, Prod.mk.injEq] at h
      rw [← h.1]
    · simp [loadNeurons] at h
  | cons unit units ih =>
    intro file
    have key : ∀ r, loadNeurons (unit :: units) file = r →
        (∀ units1 rest, r = Outcome.ok (units1, rest) →
          units1.map (fun u => u.weights.length)
            = (unit :: units).map (fun u => u.weights.length)) ∧
        (∀ e units1, r = Outcome.thrown (e, units1) →
          units1.map (fun u => u.weights.length)
            = (unit :: units).map (fun u => u.weights.length)) := by
      intro r hr
      rw [loadNeurons] at hr
      cases h1 : readInt file with
      | none =>
        simp only [h1] at hr
        subst hr
        exact ⟨fun _ _ h => by simp at h, fun _ _ h => by simp at h⟩
      | some r1 =>
        obtain ⟨weights_count, file1⟩ := r1
        simp only [h1] at hr
        by_cases hc : weights_count = (unit.weights.length : Int)
        · simp only [hc, ne_eq, not_true_eq_false, ↓reduceIte] at hr
          cases h2 : readDoubles unit.weights.length file1 with
          | none =>
            simp only [h2] at hr
            subst hr
            exact ⟨fun _ _ h => by simp at h, fun _ _ h => by simp at h⟩
          | some r2 =>
            obtain ⟨weights, file2⟩ := r2
            have hwl := readDoubles_length _ _ _ _ h2
            simp only [h2] at hr
            cases h3 : readDouble file2 with
            | none =>
              simp only [h3] at hr
              subst hr
              exact ⟨fun _ _ h => by simp at h, fun _ _ h => by simp at h⟩
            | some r3 =>
              obtain ⟨bias, file3⟩ := r3
              simp only [h3] at hr
              obtain ⟨ihok, ihthrown⟩ := ih file3
              cases h4 : loadNeurons units file3 with
              | ok r4 =>
                obtain ⟨rest1, file4⟩ := r4
                simp only [h4] at hr
                subst hr
                refine ⟨fun units1 rest h => ?_, fun _ _ h => by simp at h⟩
                simp only [Outcome.ok.injEq, Prod.mk.injEq] at h
                rw [← h.1]
                simp [hwl, ihok rest1 file4 h4]
              | thrown r4 =>
                obtain ⟨e4, rest1⟩ := r4
                simp only [h4] at hr
                subst hr
                refine ⟨fun _ _ h => by simp at h, fun e units1 h => ?_⟩
                simp only [Outcome.thrown.injEq, Prod.mk.injEq] at h
                rw [← h.2]
                simp [hwl, ihthrown e4 rest1 h4]
              | undefined =>
                simp only [h4] at hr
                subst hr
                exact ⟨fun _ _ h => by simp at h, fun _ _ h => by simp at h⟩
        · simp only [ne_eq, hc, not_false_eq_true, ↓reduceIte] at hr
          subst hr
          refine ⟨fun _ _ h => by simp at h, fun e units1 h => ?_⟩
          simp only [Outcome.thrown.injEq, Prod.mk.injEq] at h
          rw [← h.2]
    exact ⟨fun units1 rest h => (key _ rfl).1 units1 rest h,
      fun e units1 h => (key _ rfl).2 e units1 h⟩


theorem loadLayers_topologyOf :
    ∀ (layers : List (Layer α)) (file : List (Tok α)),
      (∀ layers1 rest, loadLayers layers file = Outcome.ok (layers1, rest) →
        topologyOf layers1 = topologyOf layers) ∧
      (∀ e layers1, loadLayers layers file = Outcome.thrown (e, layers1) →
        topologyOf layers1 = topologyOf layers) := by
  intro layers
  induction layers with
  | nil =>
    intro file
    refine ⟨fun layers1 rest h => ?_, fun e layers1 h => ?_⟩
    · simp only [loadLayers, Outcome.ok.injEq, Prod.mk.injEq] at h
      rw [← h.1]
    · simp [loadLayers] at h
  | cons layer layers ih =>
    intro file
    have key : ∀ r, loadLayers (layer :: layers) file = r →
        (∀ layers1 rest, r = Outcome.ok (layers1, rest) →
          topologyOf layers1 = topologyOf (layer :: layers)) ∧
        (∀ e layers1, r = Outcome.thrown (e, layers1) →
          topologyOf layers1 = topologyOf (layer :: layers)) := by
      intro r hr
      rw [loadLayers] at hr
      cases h1 : readInt file with
      | none =>
        simp only [h1] at hr
        subst hr
        exact ⟨fun _ _ h => by simp at h, fun _ _ h => by simp at h⟩
      | some r1 =>
        obtain ⟨neurons_count, file1⟩ := r1
        simp only [h1] at hr
        by_cases hc : neurons_count = (layer.neurons.length : Int)
        · simp only [hc, ne_eq, not_true_eq_false, ↓reduceIte] at hr
          obtain ⟨hnok, hnthrown⟩ := loadNeurons_topologyOf layer.neurons file1
          cases h2 : loadNeurons layer.neurons file1 with
          | ok r2 =>
            obtain ⟨neurons, file2⟩ := r2
            simp only [h2] at hr
            obtain ⟨ihok, ihthrown⟩ := ih file2
            cases h3 : loadLayers layers file2 with
            | ok r3 =>
              obtain ⟨rest1, file3⟩ := r3
              simp only [h3] at hr
              subst hr
              refine ⟨fun layers1 rest h => ?_, fun _ _ h => by simp at h⟩
              simp only [Outcome.ok.injEq, Prod.mk.injEq] at h
              rw [← h.1]
              simp only [topologyOf, fieldOf_cons, hnok neurons file2 h2]
              exact congrArg _ (ihok rest1 file3 h3)
            | thrown r3 =>
              obtain ⟨e3, rest1⟩ := r3
              simp only [h3] at hr
              subst hr
              refine ⟨fun _ _ h => by simp at h, fun e layers1 h => ?_⟩
              simp only [Outcome.thrown.injEq, Prod.mk.injEq] at h
              rw [← h.2]
              simp only [topologyOf, fieldOf_cons, hnok neurons file2 h2]
              exact congrArg _ (ihthrown e3 rest1 h3)
            | undefined =>
              simp only [h3] at hr
              subst hr
              exact ⟨fun _ _ h => by simp at h, fun _ _ h => by simp at h⟩
          | thrown r2 =>
            obtain ⟨e2, neurons⟩ := r2
            simp only [h2] at hr
            subst hr
            refine ⟨fun _ _ h => by simp at h, fun e layers1 h => ?_⟩
            simp only [Outcome.thrown.injEq, Prod.mk.injEq] at h
            rw [← h.2]
            simp only [topologyOf, fieldOf_cons, hnthrown e2 neurons h2]
          | undefined =>
            simp only [h2] at hr
            subst hr
            exact ⟨fun _ _ h => by simp at h, fun _ _ h => by simp at h⟩
        · simp only [ne_eq, hc, not_false_eq_true, ↓reduceIte] at hr
          subst hr
          refine ⟨fun _ _ h => by simp at h, fun e layers1 h => ?_⟩
          simp only [Outcome.thrown.injEq, Prod.mk.injEq] at h
          rw [← h.2]
    exact ⟨fun layers1 rest h => (key _ rfl).1 layers1 rest h,
      fun e layers1 h => (key _ rfl).2 e layers1 h⟩

theorem Load_topologyOf (net : Network α) (file : List (Tok α)) :
    (∀ net1, Load net file = Outcome.ok net1 →
      topologyOf net1.layers = topologyOf net.layers) ∧
    (∀ e net1, Load net file = Outcome.thrown (e, net1) →
      topologyOf net1.layers = topologyOf net.layers) := by
  have key : ∀ r, Load net file = r →
      (∀ net1, r = Outcome.ok net1 → topologyOf net1.layers = topologyOf net.layers) ∧
      (∀ e net1, r = Outcome.thrown (e, net1) →
        topologyOf net1.layers = topologyOf net.layers) := by
    intro r hr
    unfold Load at hr
    cases h1 : readDouble file with
    | none =>
      simp only [h1] at hr
      subst hr
      exact ⟨fun _ h => by simp at h, fun _ _ h => by simp at h⟩
    | some r1 =>
      obtain ⟨learning_rate, file1⟩ := r1
      simp only [h1] at hr
      cases h2 : readInt file1 with
      | none =>
        simp only [h2] at hr
        subst hr
        exact ⟨fun _ h => by simp at h, fun _ _ h => by simp at h⟩
      | some r2 =>
        obtain ⟨layers_count, file2⟩ := r2
        simp only [h2] at hr
        by_cases hc : layers_count = (net.layers.length : Int)
        · simp only [hc, ne_eq, not_true_eq_false, ↓reduceIte] at hr
          obtain ⟨hok, hthrown⟩ := loadLayers_topologyOf net.layers file2
          cases h3 : loadLayers net.layers file2 with
          | ok r3 =>
            obtain ⟨layers1, file3⟩ := r3
            simp only [h3] at hr
            subst hr
            refine ⟨fun net1 h => ?_, fun _ _ h => by simp at h⟩
            simp only [Outcome.ok.injEq] at h
            rw [← h]
            exact hok layers1 file3 h3
          | thrown r3 =>
            obtain ⟨e3, layers1⟩ := r3
            simp only [h3] at hr
            subst hr
            refine ⟨fun _ h => by simp at h, fun e net1 h => ?_⟩
            simp only [Outcome.thrown.injEq, Prod.mk.injEq] at h
            rw [← h.2]
            exact hthrown e3 layers1 h3
          | undefined =>
            simp only [h3] at hr
            subst hr
            exact ⟨fun _ h => by simp at h, fun _ _ h => by simp at h⟩
        · simp only [ne_eq, hc, not_false_eq_true, ↓reduceIte] at hr
          subst hr
          refine ⟨fun _ h => by simp at h, fun e net1 h => ?_⟩
          simp only [Outcome.thrown.injEq, Prod.mk.injEq] at h
          rw [← h.2]
  exact ⟨fun net1 h => (key _ rfl).1 net1 h, fun e net1 h => (key _ rfl).2 e net1 h⟩

/-- C14: the topology is fixed after construction. `Predict`, `Train` when it succeeds or
throws, and `Load` of any file when it succeeds or throws the topology-mismatch exception leave
the layer count, the unit count of every layer and the weight count of every unit as they
were. -/
theorem topology_immutable [Field α] (exp : α → α) (net : Network α)
    (inputs targets : List α)
    (file : List (Tok α)) :
    (∀ outputs net1, Predict exp net inputs = some (outputs, net1) →
      topologyOf net1.layers = topologyOf net.layers) ∧
    (∀ net1, Train exp net inputs targets = Outcome.ok net1 →
      topologyOf net1.layers = topologyOf net.layers) ∧
    (∀ e net1, Train exp net inputs targets = Outcome.thrown (e, net1) →
      topologyOf net1.layers = topologyOf net.layers) ∧
    (∀ net1, Load net file = Outcome.ok net1 →
      topologyOf net1.layers = topologyOf net.layers) ∧
    (∀ e net1, Load net file = Outcome.thrown (e, net1) →
      topologyOf net1.layers = topologyOf net.layers) := by
  refine ⟨?_, fun net1 h => Train_topologyOf exp net net1 inputs targets h, ?_,
    (Load_topologyOf net file).1, (Load_topologyOf net file).2⟩
  · intro outputs net1 h
    unfold Predict at h
    cases hf : forward exp inputs [] net.layers with
    | none => simp [hf] at h
    | some r =>
      obtain ⟨outs, layers1⟩ := r
      simp only [hf, Option.some.injEq, Prod.mk.injEq] at h
      rw [← h.2]
      exact forward_fieldOf exp (fun u => u.weights.length) (fun _ _ => rfl) _ _ _ _ _ hf
  · intro e net1 h
    rw [(Train_thrown exp net net1 inputs targets e h).2]

/-- Witness of C14: the one-unit network over the reals after `Predict` on `[1]`, after `Train`
on `[1]` with the target `[1]` and after `Train` with no target, and the two-unit network after
`Load` of its own file and of the file of a network of another topology. -/
theorem topology_immutable_witness :
    topologyOf (unitNetworkPredicted Real.exp).layers
      = topologyOf (unitNetwork : Network ℝ).layers ∧
    topologyOf (unitNetworkTrained Real.exp).layers
      = topologyOf (unitNetwork : Network ℝ).layers ∧
    topologyOf (unitNetwork : Network ℝ).layers
      = topologyOf (unitNetwork : Network ℝ).layers ∧
    topologyOf (pairNetwork : Network ℝ).layers
      = topologyOf (pairNetwork : Network ℝ).layers ∧
    topologyOf (pairNetworkAfter : Network ℝ).layers
      = topologyOf (pairNetwork : Network ℝ).layers :=
  ⟨(topology_immutable Real.exp unitNetwork [1] [1] []).1
      [sigmoid Real.exp (0 + 0 * 1)] (unitNetworkPredicted Real.exp) rfl,
    (topology_immutable Real.exp unitNetwork [1] [1] []).2.1 (unitNetworkTrained Real.exp) rfl,
    (topology_immutable Real.exp unitNetwork [1] [] []).2.2.1 targetSizeMismatch unitNetwork rfl,
    (topology_immutable Real.exp pairNetwork [] [] (Save pairNetwork)).2.2.2.1 pairNetwork rfl,
    (topology_immutable Real.exp pairNetwork [] [] (Save pairSource)).2.2.2.2
      topologyMismatch pairNetworkAfter rfl⟩

/-! ## The effect of `Predict` -/

theorem weightedSum_some [Field α] (inputs : List α) :
    ∀ (ws : List α) (k : Nat) (s r : α), weightedSum inputs ws k s = some r →
      (ws ≠ [] → ws.length + k ≤ inputs.length) ∧
        r = s + (List.zipWith (fun w xk => w * xk) ws (inputs.drop k)).sum := by
  intro ws
  induction ws with
  | nil =>
    intro k s r h
    simp only [weightedSum, Option.some.injEq] at h
    simp [h]
  | cons w ws ih =>
    intro k s r h
    rw [weightedSum] at h
    cases hx : inputs[k]? with
    | none => simp [hx] at h
    | some x =>
      simp only [hx] at h
      obtain ⟨hlen, hr⟩ := ih _ _ _ h
      have hk : k < inputs.length := (List.getElem?_eq_some_iff.mp hx).1
      have hxk : inputs[k] = x := (List.getElem?_eq_some_iff.mp hx).2
      refine ⟨fun _ => ?_, ?_⟩
      · cases ws with
        | nil => simp only [List.length_cons, List.length_nil]; omega
        | cons w1 ws1 =>
          have := hlen (List.cons_ne_nil _ _)
          simp only [List.length_cons] at this ⊢
          omega
      · rw [hr, List.drop_eq_getElem_cons hk, hxk]
        simp only [List.zipWith_cons_cons, List.sum_cons, add_assoc]

theorem activate_unitSpec [Field α] (exp : α → α) (x : List α) (unit unit1 : Neuron α)
    (h : activate exp x unit = some unit1) :
    unit.weights.length ≤ x.length ∧ unit1 = { unit with output := unitSpec exp x unit } := by
  obtain ⟨sum, hsum, rfl⟩ := activate_some exp x unit unit1 h
  obtain ⟨hlen, hr⟩ := weightedSum_some x unit.weights 0 unit.bias sum hsum
  refine ⟨?_, ?_⟩
  · cases hw : unit.weights with
    | nil => simp
    | cons w ws =>
      have := hlen (by rw [hw]; exact List.cons_ne_nil _ _)
      rw [hw] at this
      omega
  · rw [hr]
    rfl

/-- C15: when `Predict` returns, the only fields of the network it has changed are `output`
fields. Every weight, bias and `error` and the learning rate are as before; the `output` of every
unit is `sigmoid(bias + Σ_k weight_k * layer_input_k)`, where the layer input is the input vector
for the first layer and the vector of the new `output` fields of the layer before for a later one,
and has an entry for every weight; and the returned vector is the sequence of the `output` fields
of the units of the last layer (it is empty for a network without layers). -/
theorem Predict_effect [Field α] (exp : α → α) (net net1 : Network α)
    (inputs outputs : List α) (h : Predict exp net inputs = some (outputs, net1)) :
    fieldOf (fun u => (u.weights, u.bias, u.error)) net1.layers
      = fieldOf (fun u => (u.weights, u.bias, u.error)) net.layers ∧
    net1.learning_rate = net.learning_rate ∧
    net1.layers.length = net.layers.length ∧
    (∀ (i j : Nat) (unit : Neuron α), unitAt net.layers i j = some unit →
      ∃ unit1 x, unitAt net1.layers i j = some unit1 ∧
        layerInput inputs net1.layers i = some x ∧
        unit.weights.length ≤ x.length ∧
        unit1.output
          = sigmoid exp (unit.bias + (List.zipWith (fun w xk => w * xk) unit.weights x).sum)) ∧
    outputs = (match net1.layers.getLast? with
      | none => []
      | some last => last.neurons.map Neuron.output) := by
  unfold Predict at h
  cases hf : forward exp inputs [] net.layers with
  | none => simp [hf] at h
  | some r =>
    obtain ⟨outs, layers1⟩ := r
    simp only [hf, Option.some.injEq, Prod.mk.injEq] at h
    obtain ⟨hout, hnet⟩ := h
    subst hout hnet
    obtain ⟨hlen, _, hlast⟩ := forward_some exp _ _ _ _ _ hf
    refine ⟨forward_fieldOf exp (fun u => (u.weights, u.bias, u.error)) (fun _ _ => rfl)
      _ _ _ _ _ hf, rfl, hlen, ?_, hlast⟩
    intro i j unit hu
    obtain ⟨unit1, x, hu1, hx, hact⟩ := forward_unit exp _ _ _ _ _ hf i j unit hu
    obtain ⟨hwl, rfl⟩ := activate_unitSpec exp x unit unit1 hact
    exact ⟨_, x, hu1, hx, hwl, rfl⟩

/-- Witness of C15: the one-unit network over the reals on the input `[1]`. -/
theorem Predict_effect_witness :
    fieldOf (fun u => (u.weights, u.bias, u.error)) (unitNetworkPredicted Real.exp).layers
      = fieldOf (fun u => (u.weights, u.bias, u.error)) (unitNetwork : Network ℝ).layers ∧
    (unitNetworkPredicted Real.exp).learning_rate = (unitNetwork : Network ℝ).learning_rate ∧
    (unitNetworkPredicted Real.exp).layers.length = (unitNetwork : Network ℝ).layers.length ∧
    (∀ (i j : Nat) (unit : Neuron ℝ),
        unitAt (unitNetwork : Network ℝ).layers i j = some unit →
      ∃ unit1 x, unitAt (unitNetworkPredicted Real.exp).layers i j = some unit1 ∧
        layerInput [1] (unitNetworkPredicted Real.exp).layers i = some x ∧
        unit.weights.length ≤ x.length ∧
        unit1.output
          = sigmoid Real.exp
              (unit.bias + (List.zipWith (fun w xk => w * xk) unit.weights x).sum)) ∧
    [sigmoid Real.exp (0 + 0 * 1)]
      = (match (unitNetworkPredicted Real.exp).layers.getLast? with
        | none => []
        | some last => last.neurons.map Neuron.output) :=
  Predict_effect Real.exp unitNetwork (unitNetworkPredicted Real.exp) [1]
    [sigmoid Real.exp (0 + 0 * 1)] rfl

/-! ## No access out of range on a well-formed network -/

/-- C18: on a network with at least one layer that satisfies the data-model invariant for the
length of the input vector, with as many targets as the last layer has units, no loop of `Predict`
or of `Train` indexes out of range: the forward pass, the output-error loop, the hidden-error
loop and the update loop all have a result, `Predict` returns and `Train` returns normally. -/
theorem Predict_and_Train_defined [Field α] (exp : α → α) (net : Network α)
    (inputs targets : List α) (last : Layer α) (hlast : net.layers.getLast? = some last)
    (hwf : wellFormed inputs.length net.layers = true)
    (hlen : targets.length = last.neurons.length) :
    (∃ outputs net1, Predict exp net inputs = some (outputs, net1)) ∧
    ∃ outputs layers1 layers2 layers3 layers4,
      forward exp inputs [] net.layers = some (outputs, layers1) ∧
      outputLayer targets layers1 = some layers2 ∧
      hiddenLayers layers2 = some layers3 ∧
      update net.learning_rate inputs layers3 = some layers4 ∧
      Train exp net inputs targets
        = Outcome.ok { layers := layers4, learning_rate := net.learning_rate } := by
  obtain ⟨net1, h⟩ := Train_defined exp net inputs targets last hlast hwf hlen
  obtain ⟨_, outputs, layers1, layers2, layers3, _, _, hf, h2, h3, h4, hrate⟩ :=
    Train_ok exp net net1 inputs targets h
  refine ⟨⟨outputs, { net with layers := layers1 }, by simp only [Predict, hf]⟩,
    outputs, layers1, layers2, layers3, net1.layers, hf, h2, h3, h4, ?_⟩
  rw [h, ← hrate]

/-- Witness of C18: the 2-2-1 example network over the reals on the input `[1, 1]` and the
target `[1]`. -/
theorem Predict_and_Train_defined_witness :
    (∃ outputs net1, Predict Real.exp (exampleNetwork : Network ℝ) [1, 1]
      = some (outputs, net1)) ∧
    ∃ outputs layers1 layers2 layers3 layers4,
      forward Real.exp [1, 1] [] (exampleNetwork : Network ℝ).layers
        = some (outputs, layers1) ∧
      outputLayer [1] layers1 = some layers2 ∧
      hiddenLayers layers2 = some layers3 ∧
      update (exampleNetwork : Network ℝ).learning_rate [1, 1] layers3 = some layers4 ∧
      Train Real.exp (exampleNetwork : Network ℝ) [1, 1] [1]
        = Outcome.ok
            { layers := layers4, learning_rate := (exampleNetwork : Network ℝ).learning_rate } :=
  Predict_and_Train_defined Real.exp exampleNetwork [1, 1] [1] exampleLast rfl (by decide) rfl

/-! ## The derivative of the activation function -/

theorem hasDerivAt_sigmoid (x : ℝ) :
    HasDerivAt (sigmoid Real.exp)
      (sigmoid Real.exp x * (1 - sigmoid Real.exp x)) x := by
  have hpos : (1 + Real.exp (-x)) ≠ 0 := by
    have := Real.exp_pos (-x)
    linarith
  have h1 : HasDerivAt (fun y : ℝ => Real.exp (-y)) (Real.exp (-x) * (-1)) x :=
    (Real.hasDerivAt_exp (-x)).comp x (hasDerivAt_neg x)
  have h2 : HasDerivAt (fun y : ℝ => 1 + Real.exp (-y)) (Real.exp (-x) * (-1)) x :=
    h1.const_add 1
  have h3 := h2.inv hpos
  have hfun : sigmoid Real.exp = fun y : ℝ => (1 + Real.exp (-y))⁻¹ := by
    funext y
    simp [sigmoid]
  rw [hfun]
  convert h3 using 1
  field_simp
  ring

/-- C17: `sigmoid_derivative` is the derivative of the activation function in terms of the
activation's value: over the reals, with `sigmoid(x) = 1 / (1 + e^-x)`, the value
`sigmoid_derivative(sigmoid(x)) = sigmoid(x) * (1 - sigmoid(x))` is the derivative of `sigmoid`
at `x`, for every `x`. -/
theorem sigmoid_derivative_is_derivative (x : ℝ) :
    sigmoid_derivative (sigmoid Real.exp x) = sigmoid Real.exp x * (1 - sigmoid Real.exp x) ∧
    sigmoid Real.exp x = 1 / (1 + Real.exp (-x)) ∧
    HasDerivAt (sigmoid Real.exp) (sigmoid_derivative (sigmoid Real.exp x)) x ∧
    deriv (sigmoid Real.exp) x = sigmoid_derivative (sigmoid Real.exp x) :=
  ⟨rfl, rfl, hasDerivAt_sigmoid x, (hasDerivAt_sigmoid x).deriv⟩

/-! ## A fitted example is a fixed point of `Train` -/

theorem forEachIdx_mem {β γ : Type} (body : Nat → β → Option γ) :
    ∀ (xs : List β) (k : Nat) (ys : List γ), forEachIdx body xs k = some ys →
      ∀ y ∈ ys, ∃ j x, xs[j]? = some x ∧ body (k + j) x = some y := by
  intro xs k ys h y hy
  obtain ⟨hlen, hget⟩ := forEachIdx_some body xs k ys h
  obtain ⟨j, hj, hyj⟩ := List.getElem_of_mem hy
  have hjx : j < xs.length := by omega
  obtain ⟨y1, hy1, hb⟩ := hget j xs[j] (List.getElem?_eq_getElem hjx)
  rw [List.getElem?_eq_getElem hj, hyj] at hy1
  simp only [Option.some.injEq] at hy1
  subst hy1
  exact ⟨j, xs[j], List.getElem?_eq_getElem hjx, hb⟩

theorem forEachIdx_eq_self {β : Type} (body : Nat → β → Option β) :
    ∀ (xs : List β) (k : Nat) (ys : List β),
      (∀ x ∈ xs, ∀ i y, body i x = some y → y = x) →
        forEachIdx body xs k = some ys → ys = xs := by
  intro xs
  induction xs with
  | nil =>
    intro k ys _ h
    simp only [forEachIdx, Option.some.injEq] at h
    exact h.symm
  | cons x xs ih =>
    intro k ys hid h
    rw [forEachIdx] at h
    cases hb : body k x with
    | none => simp [hb] at h
    | some y =>
      cases hr : forEachIdx body xs (k + 1) with
      | none => simp [hb, hr] at h
      | some ys1 =>
        simp only [hb, hr, Option.some.injEq] at h
        rw [← h, hid x (List.mem_cons_self _ _) k y hb,
          ih (k + 1) ys1 (fun z hz => hid z (List.mem_cons_of_mem _ hz)) hr]

theorem errorSum_of_zero_errors [Field α] (j : Nat) :
    ∀ (next : List (Neuron α)) (start error : α), (∀ u ∈ next, u.error = 0) →
      errorSum j next start = some error → error = start := by
  intro next start error hzero h
  obtain ⟨_, hsum⟩ := errorSum_some j next start error h
  have : (next.map (fun unit => unit.error * unit.weights.getD j 0)).sum = 0 := by
    apply List.sum_eq_zero
    intro v hv
    obtain ⟨u, hu, rfl⟩ := List.mem_map.mp hv
    rw [hzero u hu, zero_mul]
  rw [hsum, this, add_zero]

theorem outputLayer_zero_errors [Field α] (targets : List α) (layers layers2 : List (Layer α))
    (h : outputLayer targets layers = some layers2)
    (ht : ∀ last, layers.getLast? = some last → targets = last.neurons.map Neuron.output) :
    ∀ last2, layers2.getLast? = some last2 → ∀ u ∈ last2.neurons, u.error = 0 := by
  intro last2 hlast2 u hu
  obtain ⟨hlen, hget⟩ := outputLayer_some targets layers layers2 h
  rw [List.getLast?_eq_getElem?, hlen] at hlast2
  have hpos : 0 < layers.length := by
    rcases Nat.eq_zero_or_pos layers.length with h0 | h0
    · rw [h0] at hlast2
      have : layers2 = [] := List.length_eq_zero.mp (by omega)
      simp [this] at hlast2
    · exact h0
  have hi : layers.length - 1 < layers.length := by omega
  obtain ⟨layer2, hl2, hfe, _⟩ := hget _ _ (List.getElem?_eq_getElem hi)
  rw [hlast2] at hl2
  simp only [Option.some.injEq] at hl2
  subst hl2
  have hlastl : layers.getLast? = some layers[layers.length - 1] := by
    rw [List.getLast?_eq_getElem?, List.getElem?_eq_getElem hi]
  have htargets := ht _ hlastl
  obtain ⟨k, u1, hu1, hbody⟩ := forEachIdx_mem _ _ _ _ (hfe (by omega)) u hu
  obtain ⟨t, htk, rfl⟩ := outputError_some _ _ _ _ hbody
  rw [htargets, Nat.zero_add, List.getElem?_map, hu1] at htk
  simp only [Option.map_some', Option.some.injEq] at htk
  simp [← htk]

theorem hiddenLayers_zero_errors [Field α] :
    ∀ (layers layers3 : List (Layer α)), hiddenLayers layers = some layers3 →
      (∀ last, layers.getLast? = some last → ∀ u ∈ last.neurons, u.error = 0) →
        ∀ layer ∈ layers3, ∀ u ∈ layer.neurons, u.error = 0 := by
  intro layers
  induction layers with
  | nil =>
    intro layers3 h _
    simp only [hiddenLayers, Option.some.injEq] at h
    subst h
    simp
  | cons layer rest ih =>
    intro layers3 h hlast
    cases rest with
    | nil =>
      simp only [hiddenLayers, Option.some.injEq] at h
      subst h
      intro l hl
      simp only [List.mem_singleton] at hl
      subst hl
      exact hlast l rfl
    | cons next rest =>
      rw [hiddenLayers] at h
      cases hrest : hiddenLayers (next :: rest) with
      | none => simp [hrest] at h
      | some r =>
        have hzero := ih r hrest (fun last hl => hlast last (by
          rw [List.getLast?_cons_cons]
          exact hl))
        cases r with
        | nil => simp [hrest] at h
        | cons next1 rest1 =>
          simp only [hrest] at h
          cases hact : forEachIdx (hiddenError next1.neurons) layer.neurons 0 with
          | none => simp [hact] at h
          | some neurons =>
            simp only [hact, Option.some.injEq] at h
            subst h
            intro l hl u hu
            rcases List.mem_cons.mp hl with rfl | hl
            · obtain ⟨j, u0, _, hbody⟩ := forEachIdx_mem _ _ _ _ hact u hu
              obtain ⟨e, hsum, rfl⟩ := hiddenError_some _ _ _ _ hbody
              have he := errorSum_of_zero_errors _ _ _ _
                (hzero next1 (List.mem_cons_self _ _)) hsum
              simp [he]
            · exact hzero l hl u hu

theorem updateNeuron_of_zero_error [Field α] (rate : α) (x : List α) (unit unit4 : Neuron α)
    (hzero : unit.error = 0) (h : updateNeuron rate x unit = some unit4) : unit4 = unit := by
  obtain ⟨ws, hws, rfl⟩ := updateNeuron_some rate x unit unit4 h
  have hwsid : ws = unit.weights := by
    refine forEachIdx_eq_self _ _ 0 _ (fun w _ i w4 hw4 => ?_) hws
    obtain ⟨xk, _, rfl⟩ := updateWeight_some _ _ _ _ _ _ hw4
    rw [hzero, mul_zero, zero_mul, add_zero]
  cases unit with
  | mk weights output error bias =>
    simp only at hzero hwsid
    subst hzero hwsid
    simp only [mul_zero, add_zero]

theorem update_of_zero_errors [Field α] (rate : α) :
    ∀ (layers : List (Layer α)) (x : List α) (layers4 : List (Layer α)),
      (∀ layer ∈ layers, ∀ u ∈ layer.neurons, u.error = 0) →
        update rate x layers = some layers4 → layers4 = layers := by
  intro layers
  induction layers with
  | nil =>
    intro x layers4 _ h
    simp only [update, Option.some.injEq] at h
    exact h.symm
  | cons layer rest ih =>
    intro x layers4 hzero h
    rw [update] at h
    cases hact : forEach (updateNeuron rate x) layer.neurons with
    | none => simp [hact] at h
    | some neurons =>
      simp only [hact] at h
      cases hrest : update rate (neurons.map Neuron.output) rest with
      | none => simp [hrest] at h
      | some rest1 =>
        simp only [hrest, Option.some.injEq] at h
        have hn : neurons = layer.neurons :=
          forEachIdx_eq_self _ _ 0 _
            (fun u hu _ u4 hu4 =>
              updateNeuron_of_zero_error rate x u u4
                (hzero layer (List.mem_cons_self _ _) u hu) hu4)
            hact
        rw [← h, hn, ih _ _ (fun l hl => hzero l (List.mem_cons_of_mem _ hl)) hrest]


/-- C20: a fitted example is a fixed point of training. On a network with at least one layer that
satisfies the data-model invariant for the length of the input vector, when the targets are the
vector `Predict` returns for the inputs, `Train` succeeds, leaves an `error` of 0 in every unit of
every layer, and leaves every weight and every bias as it was. -/
theorem Train_fixed_point [Field α] (exp : α → α) (net state : Network α)
    (inputs targets : List α) (last : Layer α) (hlast : net.layers.getLast? = some last)
    (hwf : wellFormed inputs.length net.layers = true)
    (hfit : Predict exp net inputs = some (targets, state)) :
    ∃ net1, Train exp net inputs targets = Outcome.ok net1 ∧
      (∀ layer ∈ net1.layers, ∀ unit ∈ layer.neurons, unit.error = 0) ∧
      fieldOf (fun u => (u.weights, u.bias)) net1.layers
        = fieldOf (fun u => (u.weights, u.bias)) net.layers ∧
      net1.learning_rate = net.learning_rate := by
  have hfit1 := hfit
  unfold Predict at hfit1
  cases hf : forward exp inputs [] net.layers with
  | none => simp [hf] at hfit1
  | some r =>
    obtain ⟨outs, layers1⟩ := r
    simp only [hf, Option.some.injEq, Prod.mk.injEq] at hfit1
    obtain ⟨hout, _⟩ := hfit1
    subst hout
    obtain ⟨_, _, houts⟩ := forward_some exp _ _ _ _ _ hf
    have hw1 := forward_fieldOf exp Neuron.weights (fun _ _ => rfl) _ _ _ _ _ hf
    obtain ⟨last1, hlast1, hl1⟩ := getLast?_of_fieldOf _ _ _ hw1 last hlast
    have hlen : outs.length = last.neurons.length := by
      rw [houts, hlast1]
      simpa using congrArg List.length hl1
    obtain ⟨net1, h⟩ := Train_defined exp net inputs outs last hlast hwf hlen
    obtain ⟨_, outputs, layers1a, layers2, layers3, _, _, hfa, h2, h3, h4, hrate⟩ :=
      Train_ok exp net net1 inputs outs h
    rw [hf] at hfa
    simp only [Option.some.injEq, Prod.mk.injEq] at hfa
    obtain ⟨_, hl1a⟩ := hfa
    subst hl1a
    have hz2 := outputLayer_zero_errors outs layers1 layers2 h2 (fun l hl => by
      rw [houts, hl])
    have hz3 := hiddenLayers_zero_errors layers2 layers3 h3 hz2
    have h43 := update_of_zero_errors net.learning_rate layers3 inputs net1.layers hz3 h4
    refine ⟨net1, h, ?_, ?_, hrate⟩
    · rw [h43]
      exact hz3
    · rw [h43]
      exact (Train_fieldOf exp net inputs outs outs _ _ _ _ hf h2 h3 h4).1

/-- Witness of C20: the one-unit network over the reals on the input `[1]`, with the vector
`Predict` returns as the target. -/
theorem Train_fixed_point_witness :
    ∃ net1, Train Real.exp (unitNetwork : Network ℝ) [1] [sigmoid Real.exp (0 + 0 * 1)]
        = Outcome.ok net1 ∧
      (∀ layer ∈ net1.layers, ∀ unit ∈ layer.neurons, unit.error = 0) ∧
      fieldOf (fun u => (u.weights, u.bias)) net1.layers
        = fieldOf (fun u => (u.weights, u.bias)) (unitNetwork : Network ℝ).layers ∧
      net1.learning_rate = (unitNetwork : Network ℝ).learning_rate :=
  Train_fixed_point Real.exp unitNetwork (unitNetworkPredicted Real.exp) [1]
    [sigmoid Real.exp (0 + 0 * 1)]
    { neurons := [{ weights := [0], output := 0, error := 0, bias := 0 }] } rfl (by decide) rfl

/-! ## The update of the last layer is a gradient step -/

theorem modifyAt_length {β : Type} (f : β → β) :
    ∀ (j : Nat) (l : List β), (modifyAt f l j).length = l.length := by
  intro j l
  induction l generalizing j with
  | nil => rfl
  | cons x xs ih => cases j <;> simp [modifyAt, ih]

theorem map_modifyAt {β γ : Type} (f : β → β) (g : β → γ) :
    ∀ (j : Nat) (l : List β) (a : β), l[j]? = some a →
      (modifyAt f l j).map g = modifyAt (fun _ => g (f a)) (l.map g) j := by
  intro j l
  induction l generalizing j with
  | nil => intro a h; simp at h
  | cons x xs ih =>
    intro a h
    cases j with
    | zero =>
      simp only [List.getElem?_cons_zero, Option.some.injEq] at h
      subst h
      rfl
    | succ j =>
      simp only [List.getElem?_cons_succ] at h
      simp only [modifyAt, List.map_cons, ih j a h]

theorem map_modifyAt_of_eq {β γ : Type} (f : β → β) (g : β → γ)
    (hg : ∀ b, g (f b) = g b) :
    ∀ (j : Nat) (l : List β), (modifyAt f l j).map g = l.map g := by
  intro j l
  induction l generalizing j with
  | nil => rfl
  | cons x xs ih => cases j <;> simp [modifyAt, hg, ih]

theorem modifyLast_append {β : Type} (f : β → β) (init : List β) (last : β) :
    modifyLast f (init ++ [last]) = init ++ [f last] := by
  induction init with
  | nil => rfl
  | cons x xs ih =>
    cases xs with
    | nil => rfl
    | cons y ys =>
      simp only [List.cons_append] at ih ⊢
      simp only [modifyLast, ih]

theorem sum_zipWith_modifyAt {R β γ : Type} [CommRing R] (h : β → γ → R) :
    ∀ (l : List β) (m : List γ) (j : Nat) (a v : β) (c : γ),
      l[j]? = some a → m[j]? = some c →
        (List.zipWith h (modifyAt (fun _ => v) l j) m).sum
          = (List.zipWith h l m).sum - h a c + h v c := by
  intro l
  induction l with
  | nil => intro m j a v c hl; simp at hl
  | cons x xs ih =>
    intro m j a v c hl hm
    cases m with
    | nil => simp at hm
    | cons y ys =>
      cases j with
      | zero =>
        simp only [List.getElem?_cons_zero, Option.some.injEq] at hl hm
        subst hl hm
        simp only [modifyAt, List.zipWith_cons_cons, List.sum_cons]
        ring
      | succ j =>
        simp only [List.getElem?_cons_succ] at hl hm
        simp only [modifyAt, List.zipWith_cons_cons, List.sum_cons, ih ys j a v c hl hm]
        ring


theorem wellFormed_of_topologyOf :
    ∀ (layers layers1 : List (Layer α)) (n : Nat),
      topologyOf layers1 = topologyOf layers → wellFormed n layers1 = wellFormed n layers := by
  intro layers
  induction layers with
  | nil =>
    intro layers1 n h
    cases layers1 with
    | nil => rfl
    | cons a b => simp [topologyOf, fieldOf] at h
  | cons layer rest ih =>
    intro layers1 n h
    cases layers1 with
    | nil => simp [topologyOf, fieldOf] at h
    | cons layer1 rest1 =>
      simp only [topologyOf, fieldOf_cons, List.cons.injEq] at h
      obtain ⟨h1, h2⟩ := h
      have hlen : layer1.neurons.length = layer.neurons.length := by
        simpa using congrArg List.length h1
      have hall : layer1.neurons.all (fun unit => unit.weights.length == n)
          = layer.neurons.all (fun unit => unit.weights.length == n) := by
        have key : ∀ units : List (Neuron α),
            units.all (fun unit => unit.weights.length == n)
              = (units.map (fun unit => unit.weights.length)).all (fun len => len == n) := by
          intro units
          induction units with
          | nil => rfl
          | cons u us ihu => simp only [List.all_cons, List.map_cons, ihu]
        rw [key, key, h1]
      simp only [wellFormed, hall, hlen, ih rest1 _ h2]

theorem wellFormed_last [Field α] (exp : α → α) :
    ∀ (init : List (Layer α)) (x : List α) (last : Layer α),
      wellFormed x.length (init ++ [last]) = true →
        ∀ u ∈ last.neurons, u.weights.length = (predictSpec exp init x).length := by
  intro init
  induction init with
  | nil =>
    intro x last h u hu
    rw [List.nil_append, wellFormed_cons] at h
    exact h.1 u hu
  | cons layer init ih =>
    intro x last h u hu
    rw [List.cons_append, wellFormed_cons] at h
    have hlen : (layerSpec exp layer x).length = layer.neurons.length := by simp [layerSpec]
    have := ih (layerSpec exp layer x) last (by rw [hlen]; exact h.2) u hu
    simpa [predictSpec] using this

theorem topologyOf_modifyLast (f : Neuron α → Neuron α)
    (hf : ∀ u, (f u).weights.length = u.weights.length) (j : Nat) :
    ∀ layers : List (Layer α),
      topologyOf (modifyLast (fun layer => { neurons := modifyAt f layer.neurons j }) layers)
        = topologyOf layers := by
  intro layers
  induction layers with
  | nil => rfl
  | cons layer rest ih =>
    cases rest with
    | nil =>
      simp only [modifyLast, topologyOf, fieldOf_cons,
        map_modifyAt_of_eq f (fun u => u.weights.length) hf]
    | cons next rest =>
      simp only [topologyOf, modifyLast, fieldOf_cons] at ih ⊢
      rw [ih]

theorem squaredError_withLastUnit [Field α] (exp : α → α) (net : Network α)
    (inputs targets : List α) (last : Layer α) (hlast : net.layers.getLast? = some last)
    (hwf : wellFormed inputs.length net.layers = true)
    (f : Neuron α → Neuron α) (hf : ∀ u, (f u).weights.length = u.weights.length)
    (j : Nat) (unit : Neuron α) (t : α)
    (hu : last.neurons[j]? = some unit) (ht : targets[j]? = some t) :
    squaredError exp (withLastUnit net j f) inputs targets
      = 1 / 2 *
        ((List.zipWith (fun o t => (t - o) ^ 2)
            (last.neurons.map (unitSpec exp (predictSpec exp net.layers.dropLast inputs)))
            targets).sum
          - (t - unitSpec exp (predictSpec exp net.layers.dropLast inputs) unit) ^ 2
          + (t - unitSpec exp (predictSpec exp net.layers.dropLast inputs) (f unit)) ^ 2) := by
  have hne : net.layers ≠ [] := by
    intro h0
    simp [h0] at hlast
  have hlast1 : net.layers.getLast hne = last := by
    rw [List.getLast?_eq_getLast _ hne] at hlast
    exact Option.some.inj hlast
  have hsplit : net.layers = net.layers.dropLast ++ [last] := by
    rw [← hlast1, List.dropLast_append_getLast hne]
  have hlayers : (withLastUnit net j f).layers
      = net.layers.dropLast ++ [{ neurons := modifyAt f last.neurons j }] := by
    unfold withLastUnit
    simp only
    conv_lhs => rw [hsplit]
    rw [modifyLast_append]
  have hwf1 : wellFormed inputs.length (withLastUnit net j f).layers = true := by
    rw [← hwf]
    exact wellFormed_of_topologyOf _ _ _ (topologyOf_modifyLast f hf j net.layers)
  have hne1 : (withLastUnit net j f).layers ≠ [] := by
    rw [hlayers]
    simp
  unfold squaredError
  rw [Predict_eq exp (withLastUnit net j f) inputs hne1 hwf1]
  simp only
  rw [hlayers, predictSpec_append, layerSpec]
  simp only
  rw [map_modifyAt f _ j last.neurons unit hu,
    sum_zipWith_modifyAt (fun o t => (t - o) ^ 2) _ targets j
      (unitSpec exp (predictSpec exp net.layers.dropLast inputs) unit) _ t
      (by rw [List.getElem?_map, hu]; rfl) ht]

theorem hasDerivAt_half_square (S t a c θ0 : ℝ) :
    HasDerivAt (fun θ : ℝ => 1 / 2 * (S + (t - sigmoid Real.exp (a + θ * c)) ^ 2))
      (-((t - sigmoid Real.exp (a + θ0 * c))
        * (sigmoid Real.exp (a + θ0 * c) * (1 - sigmoid Real.exp (a + θ0 * c))) * c)) θ0 := by
  have h1 : HasDerivAt (fun θ : ℝ => a + θ * c) c θ0 := by
    simpa using ((hasDerivAt_id θ0).mul_const c).const_add a
  have h2 : HasDerivAt (fun θ : ℝ => sigmoid Real.exp (a + θ * c))
      (sigmoid Real.exp (a + θ0 * c) * (1 - sigmoid Real.exp (a + θ0 * c)) * c) θ0 :=
    (hasDerivAt_sigmoid (a + θ0 * c)).comp θ0 h1
  have h3 := h2.const_sub t
  have h4 := h3.pow 2
  have h5 := (h4.const_add S).const_mul (1 / 2)
  convert h5 using 1
  simp only [Nat.cast_ofNat, Nat.add_one_sub_one, pow_one]
  ring

theorem forwardState_append [Field α] (exp : α → α) :
    ∀ (init : List (Layer α)) (x : List α) (last : Layer α),
      forwardState exp x (init ++ [last])
        = forwardState exp x init
          ++ [{ neurons := last.neurons.map (activated exp (predictSpec exp init x)) }] := by
  intro init
  induction init with
  | nil => intro x last; rfl
  | cons layer init ih =>
    intro x last
    have h := ih (layerSpec exp layer x) last
    rw [List.cons_append, forwardState, h, forwardState, List.cons_append]
    rfl

theorem forwardState_length [Field α] (exp : α → α) :
    ∀ (layers : List (Layer α)) (x : List α),
      (forwardState exp x layers).length = layers.length := by
  intro layers
  induction layers with
  | nil => intro x; rfl
  | cons layer rest ih => intro x; simp [forwardState, ih]

theorem layerInput_forwardState [Field α] (exp : α → α) :
    ∀ (init rest : List (Layer α)) (x : List α),
      layerInput x (forwardState exp x (init ++ rest)) init.length
        = some (predictSpec exp init x) := by
  intro init
  induction init with
  | nil => intro rest x; rfl
  | cons layer init ih =>
    intro rest x
    simp only [List.cons_append, forwardState, List.length_cons]
    rw [layerInput_cons]
    simp only [map_output_activated]
    exact ih rest (layerSpec exp layer x)


theorem Train_last_unit [Field α] (exp : α → α) (net net1 : Network α)
    (inputs targets : List α) (last : Layer α) (hlast : net.layers.getLast? = some last)
    (hwf : wellFormed inputs.length net.layers = true)
    (h : Train exp net inputs targets = Outcome.ok net1)
    (j : Nat) (unit : Neuron α) (t : α)
    (hu : last.neurons[j]? = some unit) (ht : targets[j]? = some t) :
    ∃ ws unit1,
      forEachIdx
          (updateWeight net.learning_rate
            (sigmoid_derivative (unitSpec exp (predictSpec exp net.layers.dropLast inputs) unit)
              * (t - unitSpec exp (predictSpec exp net.layers.dropLast inputs) unit))
            (predictSpec exp net.layers.dropLast inputs))
          unit.weights 0 = some ws ∧
      unitAt net1.layers (net.layers.length - 1) j = some unit1 ∧
      unit1.weights = ws ∧
      unit1.bias = unit.bias + net.learning_rate *
        (sigmoid_derivative (unitSpec exp (predictSpec exp net.layers.dropLast inputs) unit)
          * (t - unitSpec exp (predictSpec exp net.layers.dropLast inputs) unit)) := by
  have hne : net.layers ≠ [] := by
    intro h0
    simp [h0] at hlast
  have hlast1 : net.layers.getLast hne = last := by
    rw [List.getLast?_eq_getLast _ hne] at hlast
    exact Option.some.inj hlast
  have hsplit : net.layers = net.layers.dropLast ++ [last] := by
    rw [← hlast1, List.dropLast_append_getLast hne]
  have hidx : net.layers.length - 1 = net.layers.dropLast.length := by simp
  obtain ⟨_, outputs, layers1, layers2, layers3, _, _, hf, h2, h3, h4, _⟩ :=
    Train_ok exp net net1 inputs targets h
  have hf1 := forward_eq exp net.layers inputs [] hwf
  rw [hf1] at hf
  simp only [Option.some.injEq, Prod.mk.injEq] at hf
  obtain ⟨_, hl1⟩ := hf
  have hlayers1 : layers1 = forwardState exp inputs net.layers.dropLast
      ++ [Layer.mk (last.neurons.map
            (activated exp (predictSpec exp net.layers.dropLast inputs)))] := by
    rw [← hl1]
    conv_lhs => rw [hsplit]
    rw [forwardState_append]
  have hlen1 : layers1.length = net.layers.length := by
    rw [← hl1, forwardState_length]
  have hlen2 := (outputLayer_some targets _ _ h2).1
  have hpos : 0 < net.layers.length := List.length_pos.mpr hne
  have hu1 : unitAt layers1 (net.layers.length - 1) j
      = some (activated exp (predictSpec exp net.layers.dropLast inputs) unit) := by
    have hget : layers1[net.layers.length - 1]?
        = some (Layer.mk (last.neurons.map
            (activated exp (predictSpec exp net.layers.dropLast inputs)))) := by
      rw [hlayers1, hidx, ← forwardState_length exp net.layers.dropLast inputs]
      simp
    simp only [unitAt, hget, List.getElem?_map, hu, Option.map_some']
  obtain ⟨u2, hu2, hlast2, _⟩ := outputLayer_unit targets _ _ h2 _ _ _ hu1
  obtain ⟨u3, hu3, hlast3, _⟩ := hiddenLayers_unit _ _ h3 _ _ _ hu2
  obtain ⟨u4, xi, hu4, hxi, hupd⟩ := update_unit _ _ _ _ h4 _ _ _ hu3
  obtain ⟨t1, ht1, rfl⟩ := outputError_some _ _ _ _ (hlast2 (by omega))
  have h32 := hlast3 (by omega)
  subst h32
  obtain ⟨ws, hws, rfl⟩ := updateNeuron_some _ _ _ _ hupd
  rw [ht] at ht1
  simp only [Option.some.injEq] at ht1
  subst ht1
  have hout := (Train_fieldOf exp net inputs targets _ _ _ _ _ hf1 (hl1 ▸ h2) h3 h4).2.1
  rw [layerInput_of_fieldOf inputs _ _ hout, hidx] at hxi
  have hx := layerInput_forwardState exp net.layers.dropLast [last] inputs
  rw [← hsplit] at hx
  rw [hx] at hxi
  simp only [Option.some.injEq] at hxi
  subst hxi
  exact ⟨ws, _, hws, hu4, rfl, rfl⟩

theorem modifyAt_eq_self {β : Type} (f : β → β) :
    ∀ (l : List β) (j : Nat) (a : β), l[j]? = some a → f a = a → modifyAt f l j = l := by
  intro l
  induction l with
  | nil => intro j a h; simp at h
  | cons x xs ih =>
    intro j a h hf
    cases j with
    | zero =>
      simp only [List.getElem?_cons_zero, Option.some.injEq] at h
      subst h
      simp only [modifyAt, hf]
    | succ j =>
      simp only [List.getElem?_cons_succ] at h
      simp only [modifyAt, ih j a h hf]

theorem modifyLast_eq_self {β : Type} (f : β → β) :
    ∀ (l : List β) (a : β), l.getLast? = some a → f a = a → modifyLast f l = l := by
  intro l
  induction l with
  | nil => intro a h; simp at h
  | cons x xs ih =>
    intro a h hf
    cases xs with
    | nil =>
      simp only [List.getLast?_singleton, Option.some.injEq] at h
      subst h
      simp only [modifyLast, hf]
    | cons y ys =>
      rw [List.getLast?_cons_cons] at h
      simp only [modifyLast, ih a h hf]

theorem withLastUnit_eq_self (net : Network α) (j : Nat) (f : Neuron α → Neuron α)
    (last : Layer α) (unit : Neuron α) (hlast : net.layers.getLast? = some last)
    (hu : last.neurons[j]? = some unit) (hf : f unit = unit) : withLastUnit net j f = net := by
  unfold withLastUnit
  rw [modifyLast_eq_self _ net.layers last hlast
    (by rw [modifyAt_eq_self f last.neurons j unit hu hf])]


/-- C19: the update `Train` makes to the last layer is a gradient-descent step on the squared
error. Over the reals, on a network with at least one layer that satisfies the data-model
invariant for the length of the input vector, with as many targets as the last layer has units,
`Train` succeeds, and for every unit `j` of the last layer the change of its bias, and the change
of each of its weights, is `-learning_rate` times the derivative, with respect to that bias or
weight alone, of `E = 1/2 * Σ_j (target_j - Predict(inputs)_j)^2` at the value the parameter had
before the call (where the network is the one before the call). -/
theorem Train_last_layer_gradient_step (net : Network ℝ) (inputs targets : List ℝ)
    (last : Layer ℝ) (hlast : net.layers.getLast? = some last)
    (hwf : wellFormed inputs.length net.layers = true)
    (hlen : targets.length = last.neurons.length) :
    ∃ net1, Train Real.exp net inputs targets = Outcome.ok net1 ∧
      ∀ (j : Nat) (unit : Neuron ℝ), last.neurons[j]? = some unit →
        ∃ unit1, unitAt net1.layers (net.layers.length - 1) j = some unit1 ∧
          (withLastBias net j unit.bias = net ∧
            ∃ d, HasDerivAt
                (fun b => squaredError Real.exp (withLastBias net j b) inputs targets)
                d unit.bias ∧
              unit1.bias - unit.bias = -net.learning_rate * d) ∧
          ∀ (k : Nat) (w : ℝ), unit.weights[k]? = some w →
            withLastWeight net j k w = net ∧
            ∃ w1 d, unit1.weights[k]? = some w1 ∧
              HasDerivAt
                (fun θ => squaredError Real.exp (withLastWeight net j k θ) inputs targets)
                d w ∧
              w1 - w = -net.learning_rate * d := by
  obtain ⟨net1, h⟩ := Train_defined Real.exp net inputs targets last hlast hwf hlen
  refine ⟨net1, h, ?_⟩
  intro j unit hu
  have hj : j < targets.length := by
    rw [hlen]
    exact (List.getElem?_eq_some_iff.mp hu).1
  have ht : targets[j]? = some targets[j] := List.getElem?_eq_getElem hj
  obtain ⟨ws, unit1, hws, hu1, hw1, hb1⟩ :=
    Train_last_unit Real.exp net net1 inputs targets last hlast hwf h j unit targets[j] hu ht
  obtain ⟨x, hx⟩ : ∃ x, x = predictSpec Real.exp net.layers.dropLast inputs := ⟨_, rfl⟩
  obtain ⟨t, htj⟩ : ∃ t, t = targets[j] := ⟨_, rfl⟩
  obtain ⟨S, hS⟩ : ∃ S, S = (List.zipWith (fun o t => (t - o) ^ 2)
      (last.neurons.map (unitSpec Real.exp x)) targets).sum
        - (t - unitSpec Real.exp x unit) ^ 2 := ⟨_, rfl⟩
  obtain ⟨z, hz⟩ : ∃ z, z = (List.zipWith (fun w xk => w * xk) unit.weights x).sum :=
    ⟨_, rfl⟩
  rw [← hx, ← htj] at hws hb1
  rw [← htj] at ht
  have ho : unitSpec Real.exp x unit = sigmoid Real.exp (unit.bias + z) := by
    rw [hz]
    rfl
  refine ⟨unit1, hu1, ⟨?_, ?_⟩, ?_⟩
  · exact withLastUnit_eq_self net j _ last unit hlast hu rfl
  · have hfun : (fun b => squaredError Real.exp (withLastBias net j b) inputs targets)
        = fun b => 1 / 2 * (S + (t - sigmoid Real.exp (z + b * 1)) ^ 2) := by
      funext b
      rw [withLastBias, squaredError_withLastUnit Real.exp net inputs targets last hlast hwf
        (fun u => { u with bias := b }) (fun _ => rfl) j unit t hu ht, ← hx, ← hS]
      have : unitSpec Real.exp x { unit with bias := b } = sigmoid Real.exp (z + b * 1) := by
        rw [hz]
        unfold unitSpec
        congr 1
        ring
      rw [this]
    have hd := hasDerivAt_half_square S t z 1 unit.bias
    rw [← hfun] at hd
    have harg : z + unit.bias * 1 = unit.bias + z := by ring
    rw [harg, ← ho] at hd
    refine ⟨_, hd, ?_⟩
    rw [hb1]
    unfold sigmoid_derivative
    ring
  · intro k w hk
    refine ⟨withLastUnit_eq_self net j _ last unit hlast hu ?_, ?_⟩
    · rw [modifyAt_eq_self _ unit.weights k w hk rfl]
    · obtain ⟨_, hget⟩ := forEachIdx_some _ _ _ _ hws
      obtain ⟨w1, hw1k, hupd⟩ := hget k w hk
      obtain ⟨xk, hxk, rfl⟩ := updateWeight_some _ _ _ _ _ _ hupd
      rw [Nat.zero_add] at hxk
      have hfun : (fun θ => squaredError Real.exp (withLastWeight net j k θ) inputs targets)
          = fun θ => 1 / 2 *
              (S + (t - sigmoid Real.exp (unit.bias + z - w * xk + θ * xk)) ^ 2) := by
        funext θ
        rw [withLastWeight, squaredError_withLastUnit Real.exp net inputs targets last hlast hwf
          (fun u => { u with weights := modifyAt (fun _ => θ) u.weights k })
          (fun u => modifyAt_length _ k u.weights) j unit t hu ht, ← hx, ← hS]
        have : unitSpec Real.exp x
              { unit with weights := modifyAt (fun _ => θ) unit.weights k }
            = sigmoid Real.exp (unit.bias + z - w * xk + θ * xk) := by
          unfold unitSpec
          simp only
          rw [sum_zipWith_modifyAt (fun w xk => w * xk) unit.weights x k w θ xk hk hxk, ← hz]
          congr 1
          ring
        rw [this]
      have hd := hasDerivAt_half_square S t (unit.bias + z - w * xk) xk w
      rw [← hfun] at hd
      have harg : unit.bias + z - w * xk + w * xk = unit.bias + z := by ring
      rw [harg, ← ho] at hd
      refine ⟨_, _, by rw [hw1]; exact hw1k, hd, ?_⟩
      unfold sigmoid_derivative
      ring

/-- Witness of C19: the 2-2-1 example network over the reals on the input `[1, 1]` and the
target `[1]`. -/
theorem Train_last_layer_gradient_step_witness :
    ∃ net1, Train Real.exp (exampleNetwork : Network ℝ) [1, 1] [1] = Outcome.ok net1 ∧
      ∀ (j : Nat) (unit : Neuron ℝ), (exampleLast : Layer ℝ).neurons[j]? = some unit →
        ∃ unit1,
          unitAt net1.layers ((exampleNetwork : Network ℝ).layers.length - 1) j = some unit1 ∧
          (withLastBias (exampleNetwork : Network ℝ) j unit.bias = exampleNetwork ∧
            ∃ d, HasDerivAt
                (fun b => squaredError Real.exp (withLastBias exampleNetwork j b) [1, 1] [1])
                d unit.bias ∧
              unit1.bias - unit.bias = -(exampleNetwork : Network ℝ).learning_rate * d) ∧
          ∀ (k : Nat) (w : ℝ), unit.weights[k]? = some w →
            withLastWeight (exampleNetwork : Network ℝ) j k w = exampleNetwork ∧
            ∃ w1 d, unit1.weights[k]? = some w1 ∧
              HasDerivAt
                (fun θ => squaredError Real.exp (withLastWeight exampleNetwork j k θ) [1, 1] [1])
                d w ∧
              w1 - w = -(exampleNetwork : Network ℝ).learning_rate * d :=
  Train_last_layer_gradient_step exampleNetwork [1, 1] [1] exampleLast rfl (by decide) rfl

end NN
